import Mathlib

/-!
Verification development for the minesweep-automated repository.

The file shallowly embeds the propositional toolkit of the `tinysat` crate
(formulas, the Tseitin compiler, the DPLL kernel, CNF normalisation) and the
solver driver of the `minesweep-core` crate (constraint generation and the
per-cell assume-and-check loop), and proves or refutes properties of the
embedded code.

Modelling conventions:
* Rust `usize` variables become `Nat`; Rust `u8` cell clues become `Nat`
  with the wrap-around of `u8` subtraction made explicit where it occurs.
* `HashMap`/`HashSet` become association lists and first-occurrence
  deduplicated lists.  Where the Rust iteration order of a hash container is
  observable, the embedding either fixes the first-occurrence order (one
  admissible order, since Rust leaves the order unspecified) or takes the
  order as an explicit parameter.
* Code paths that panic in Rust (`unwrap` on `None`, out-of-bounds indexing,
  `unreachable!`, `u8` underflow aborting either at the subtraction or at a
  later `unwrap`) are modelled by `Option`, `none` meaning the call aborts.
-/

/-! # Part 1: the `tinysat` data model (src/tinysat/src/lib.rs) -/

/-- A propositional variable, `pub struct Variable(pub usize)`. -/
abbrev Variable := Nat

/-- The sign of a literal, `pub enum Polarity`. -/
inductive Polarity where
  | Positive
  | Negative
deriving DecidableEq, Repr

/-- Negation on polarities, `Polarity::negate`. -/
def Polarity.negate : Polarity → Polarity
  | .Positive => .Negative
  | .Negative => .Positive

/-- A literal, `pub struct Literal { variable, polarity }`.  The Rust field
name `variable` is a Lean keyword, so the field is called `var`. -/
structure Literal where
  var : Variable
  polarity : Polarity
deriving DecidableEq, Repr

/-- `Literal::positive`. -/
def Literal.positive (v : Variable) : Literal := ⟨v, .Positive⟩

/-- `Literal::negative`. -/
def Literal.negative (v : Variable) : Literal := ⟨v, .Negative⟩

/-- `Literal::negate`. -/
def Literal.negate (l : Literal) : Literal := ⟨l.var, l.polarity.negate⟩

/-- A clause, `pub struct Clause(Vec<Literal>)`, kept as the bare list. -/
abbrev Clause := List Literal

/-- A CNF, `pub struct Cnf(Vec<Clause>)`, kept as the bare list. -/
abbrev Cnf := List Clause

/-- An assignment, `pub struct Assignment(HashMap<Variable, Polarity>)`,
modelled as an association list queried with `List.lookup` (first match
wins, so consing a binding is `HashMap::insert`). -/
abbrev Assignment := List (Variable × Polarity)

/-- `HashMap::insert`: the new binding shadows any older binding, which for
first-match lookup is just consing. -/
def Assignment.insert (a : Assignment) (v : Variable) (p : Polarity) : Assignment :=
  (v, p) :: a

/-- `HashMap::extend(b)`: the bindings of `b` are inserted in order, later
ones shadowing earlier ones, hence `b.reverse ++ a` under first-match
lookup. -/
def Assignment.extend (a b : Assignment) : Assignment :=
  b.reverse ++ a

/-- A solver verdict, `pub enum Model`. -/
inductive Model where
  | Satisfied (a : Assignment)
  | Unsatisfiable
deriving DecidableEq, Repr

/-- `Model::is_unsat` (the only query the driver makes). -/
def Model.is_unsat : Model → Bool
  | .Satisfied _ => false
  | .Unsatisfiable => true

/-- A propositional formula, `pub enum Formula`.  The Rust variant
`Variable` would clash with the type of variables, so it is called `Var`. -/
inductive Formula where
  | Var (v : Variable)
  | Negation (f : Formula)
  | Conjunction (f0 f1 : Formula)
  | Disjunction (f0 f1 : Formula)
  | Equivalence (f0 f1 : Formula)
  | Implication (f0 f1 : Formula)
deriving DecidableEq, Repr

/-- `Formula::maximum_variable`.  The source computes this with an explicit
work stack over the tree; the structural fold below computes the same
maximum (the source starts from `Variable(0)` and takes `max` over every
`Var` leaf, and every formula has at least one leaf). -/
def Formula.maximum_variable : Formula → Variable
  | .Var v => v
  | .Negation f => f.maximum_variable
  | .Conjunction f0 f1 => max f0.maximum_variable f1.maximum_variable
  | .Disjunction f0 f1 => max f0.maximum_variable f1.maximum_variable
  | .Equivalence f0 f1 => max f0.maximum_variable f1.maximum_variable
  | .Implication f0 f1 => max f0.maximum_variable f1.maximum_variable

/-- `Formula::combine_negation`: fold a stack of `Negation` wrappers into a
polarity and the innermost non-negation formula. -/
def Formula.combine_negation : Formula → Polarity × Formula
  | .Negation f =>
    let pg := f.combine_negation
    (pg.1.negate, pg.2)
  | .Var v => (.Positive, .Var v)
  | .Conjunction f0 f1 => (.Positive, .Conjunction f0 f1)
  | .Disjunction f0 f1 => (.Positive, .Disjunction f0 f1)
  | .Equivalence f0 f1 => (.Positive, .Equivalence f0 f1)
  | .Implication f0 f1 => (.Positive, .Implication f0 f1)

/-- `Formula::encode_literal`: `some` literal when the formula is a possibly
negated variable. -/
def Formula.encode_literal : Formula → Option Literal
  | .Var v => some (Literal.positive v)
  | .Negation f => f.encode_literal.map Literal.negate
  | _ => none

/-- Node count of a formula, used as the termination measure of the Tseitin
work-list loop. -/
def Formula.size : Formula → Nat
  | .Var _ => 1
  | .Negation f => f.size + 1
  | .Conjunction f0 f1 => f0.size + f1.size + 1
  | .Disjunction f0 f1 => f0.size + f1.size + 1
  | .Equivalence f0 f1 => f0.size + f1.size + 1
  | .Implication f0 f1 => f0.size + f1.size + 1

/-- The helper `wrap_formula` of `Formula::tseitin_encode`: return the
literal standing for `f`, allocating a fresh variable and pushing a
work-list entry when `f` is not itself a literal.  The state threads the
fresh-variable counter and the work stack (the Rust `Vec` push/pop at the
end is list cons/head here). -/
def wrap_formula (f : Formula) (next : Variable) (stack : List (Literal × Formula)) :
    Literal × Variable × List (Literal × Formula) :=
  match f.encode_literal with
  | some l => (l, next, stack)
  | none =>
    match f.combine_negation with
    | (.Positive, g) => (Literal.positive next, next + 1, (Literal.positive next, g) :: stack)
    | (.Negative, g) => (Literal.negative next, next + 1, (Literal.positive next, g) :: stack)

/-- Sum of the node sizes of the formulas on the work stack. -/
def stackSize (stack : List (Literal × Formula)) : Nat :=
  (stack.map (fun e => e.2.size)).sum

theorem combine_negation_size (f : Formula) : (f.combine_negation).2.size ≤ f.size := by
  induction f with
  | Negation f ih =>
    simp only [Formula.combine_negation, Formula.size]
    omega
  | Var v => simp [Formula.combine_negation]
  | Conjunction f0 f1 _ _ => simp [Formula.combine_negation]
  | Disjunction f0 f1 _ _ => simp [Formula.combine_negation]
  | Equivalence f0 f1 _ _ => simp [Formula.combine_negation]
  | Implication f0 f1 _ _ => simp [Formula.combine_negation]

theorem wrap_formula_stackSize (f : Formula) (next : Variable)
    (stack : List (Literal × Formula)) :
    stackSize (wrap_formula f next stack).2.2 ≤ f.size + stackSize stack := by
  unfold wrap_formula
  cases hef : f.encode_literal with
  | some l => simp
  | none =>
    have h := combine_negation_size f
    rcases hcn : f.combine_negation with ⟨p, g⟩
    rw [hcn] at h
    cases p <;> simp [stackSize] <;> simp [stackSize] at h ⊢ <;> omega

/-- The work-list loop of `Formula::tseitin_encode`.  Popping a `Var` or
`Negation` entry is the `unreachable!()` of the source, modelled as `none`.
Clauses are emitted in source order (append at the end). -/
def tseitin_loop (stack : List (Literal × Formula)) (next : Variable)
    (clauses : List Clause) : Option (List Clause) :=
  match stack with
  | [] => some clauses
  | (v, f) :: rest =>
    match f with
    | .Var _ => none
    | .Negation _ => none
    | .Conjunction f0 f1 =>
      let w0 := wrap_formula f0 next rest
      let w1 := wrap_formula f1 w0.2.1 w0.2.2
      tseitin_loop w1.2.2 w1.2.1
        (clauses ++ [[v, w0.1.negate, w1.1.negate], [v.negate, w0.1], [v.negate, w1.1]])
    | .Disjunction f0 f1 =>
      let w0 := wrap_formula f0 next rest
      let w1 := wrap_formula f1 w0.2.1 w0.2.2
      tseitin_loop w1.2.2 w1.2.1
        (clauses ++ [[v.negate, w0.1, w1.1], [v, w0.1.negate], [v, w1.1.negate]])
    | .Equivalence f0 f1 =>
      let w0 := wrap_formula f0 next rest
      let w1 := wrap_formula f1 w0.2.1 w0.2.2
      tseitin_loop w1.2.2 w1.2.1
        (clauses ++ [[v, w0.1.negate, w1.1.negate], [v, w0.1, w1.1],
          [v.negate, w0.1.negate, w1.1], [v.negate, w0.1, w1.1.negate]])
    | .Implication f0 f1 =>
      let w0 := wrap_formula f0 next rest
      let w1 := wrap_formula f1 w0.2.1 w0.2.2
      tseitin_loop w1.2.2 w1.2.1
        (clauses ++ [[v, w0.1, w1.1], [v.negate, w0.1.negate, w1.1], [v, w1.1.negate]])
termination_by stackSize stack
decreasing_by
  all_goals
    rename_i f0 f1
    have a0 := wrap_formula_stackSize f0 next rest
    have a1 := wrap_formula_stackSize f1 (wrap_formula f0 next rest).2.1
      (wrap_formula f0 next rest).2.2
    simp only [stackSize, List.map_cons, List.sum_cons, Formula.size] at a0 a1 ⊢
    omega

/-- `Formula::tseitin_encode`: a literal encodes to its unit clause; any
other formula goes through `wrap_formula` and the work-list loop, the first
emitted clause being the unit clause of the root literal. -/
def Formula.tseitin_encode (f : Formula) (extra_vars_starts_with : Variable) : Option Cnf :=
  match f.encode_literal with
  | some l => some [[l]]
  | none =>
    match wrap_formula f extra_vars_starts_with [] with
    | (l, next, stack) => tseitin_loop stack next [[l]]

/-! # Part 2: the DPLL kernel (src/tinysat/src/solver.rs) -/

/-- Clause reduction under an assignment: the literal loop of the closure
inside `assign`.  Returns `none` when the clause is satisfied (a literal
with the assigned polarity is found, the clause is dropped), otherwise the
clause with assigned literals deleted; the flag records whether any literal
of the clause was touched by the assignment. -/
def assignClause (a : Assignment) : Clause → Option Clause × Bool
  | [] => (some [], false)
  | l :: ls =>
    let rest := assignClause a ls
    match List.lookup l.var a with
    | some p => if p = l.polarity then (none, true) else (rest.1, true)
    | none => (rest.1.map (l :: ·), rest.2)

/-- The clause loop of `assign` (`filter_map` plus the shared `reduced`
flag). -/
def assignCnf (a : Assignment) : Cnf → Cnf × Bool
  | [] => ([], false)
  | c :: cs =>
    let hd := assignClause a c
    let rest := assignCnf a cs
    (match hd.1 with
     | some c2 => c2 :: rest.1
     | none => rest.1,
     hd.2 || rest.2)

/-- `enum AssignResult`. -/
inductive AssignResult where
  | Reduced (cnf : Cnf)
  | Unchanged (cnf : Cnf)
deriving DecidableEq, Repr

/-- `fn assign(cnf, assignment) -> AssignResult`. -/
def assign (cnf : Cnf) (a : Assignment) : AssignResult :=
  let r := assignCnf a cnf
  if r.2 then .Reduced r.1 else .Unchanged r.1

/-- Total number of literals of a CNF, the termination measure of the unit
propagation loop. -/
def litCount (cnf : Cnf) : Nat := (cnf.map List.length).sum

theorem assignClause_some_length (a : Assignment) (c : Clause) {c2 : Clause}
    (h : (assignClause a c).1 = some c2) : c2.length ≤ c.length := by
  induction c generalizing c2 with
  | nil => simp [assignClause] at h; simp [← h]
  | cons l ls ih =>
    simp only [assignClause] at h
    cases hl : List.lookup l.var a with
    | some p =>
      rw [hl] at h
      by_cases hp : p = l.polarity
      · simp [hp] at h
      · simp [hp] at h
        have := ih h
        simp; omega
    | none =>
      rw [hl] at h
      simp at h
      rcases h with ⟨c3, h3, rfl⟩
      have := ih h3
      simp; omega

theorem assignClause_some_true_length (a : Assignment) (c : Clause) {c2 : Clause}
    (h : (assignClause a c).1 = some c2) (ht : (assignClause a c).2 = true) :
    c2.length < c.length := by
  induction c generalizing c2 with
  | nil => simp [assignClause] at ht
  | cons l ls ih =>
    simp only [assignClause] at h ht
    cases hl : List.lookup l.var a with
    | some p =>
      rw [hl] at h
      by_cases hp : p = l.polarity
      · simp [hp] at h
      · simp [hp] at h
        have := assignClause_some_length a ls h
        simp; omega
    | none =>
      rw [hl] at h ht
      simp at h ht
      rcases h with ⟨c3, h3, rfl⟩
      have := ih h3 ht
      simp; omega

theorem assignClause_none_pos (a : Assignment) (c : Clause)
    (h : (assignClause a c).1 = none) : 0 < c.length := by
  cases c with
  | nil => simp [assignClause] at h
  | cons l ls => simp

theorem assignCnf_litCount (a : Assignment) (cnf : Cnf) :
    litCount (assignCnf a cnf).1 ≤ litCount cnf := by
  induction cnf with
  | nil => simp [assignCnf]
  | cons c cs ih =>
    simp only [assignCnf]
    cases hc : (assignClause a c).1 with
    | some c2 =>
      have := assignClause_some_length a c hc
      simp only [litCount, List.map_cons, List.sum_cons] at ih ⊢
      omega
    | none =>
      simp only [litCount, List.map_cons, List.sum_cons] at ih ⊢
      omega

theorem assignCnf_true_litCount (a : Assignment) (cnf : Cnf)
    (ht : (assignCnf a cnf).2 = true) :
    litCount (assignCnf a cnf).1 < litCount cnf := by
  induction cnf with
  | nil => simp [assignCnf] at ht
  | cons c cs ih =>
    simp only [assignCnf] at ht ⊢
    have hle := assignCnf_litCount a cs
    rcases Bool.or_eq_true_iff.mp ht with h2 | h2
    · cases hc : (assignClause a c).1 with
      | some c2 =>
        have := assignClause_some_true_length a c hc h2
        simp only [litCount, List.map_cons, List.sum_cons] at hle ⊢
        omega
      | none =>
        have := assignClause_none_pos a c hc
        simp only [litCount, List.map_cons, List.sum_cons] at hle ⊢
        omega
    · have := ih h2
      cases hc : (assignClause a c).1 with
      | some c2 =>
        have h3 := assignClause_some_length a c hc
        simp only [litCount, List.map_cons, List.sum_cons] at this ⊢
        omega
      | none =>
        simp only [litCount, List.map_cons, List.sum_cons] at this ⊢
        omega

theorem assign_Reduced (cnf : Cnf) (a : Assignment) {c2 : Cnf}
    (h : assign cnf a = .Reduced c2) :
    c2 = (assignCnf a cnf).1 ∧ (assignCnf a cnf).2 = true := by
  unfold assign at h
  by_cases hr : (assignCnf a cnf).2 = true
  · simp [hr] at h; exact ⟨h.symm, hr⟩
  · simp [hr] at h

theorem assign_Unchanged (cnf : Cnf) (a : Assignment) {c2 : Cnf}
    (h : assign cnf a = .Unchanged c2) :
    c2 = (assignCnf a cnf).1 ∧ (assignCnf a cnf).2 = false := by
  unfold assign at h
  by_cases hr : (assignCnf a cnf).2 = true
  · simp [hr] at h
  · simp [hr] at h
    exact ⟨h.symm, by simpa using hr⟩

/-- The clause scan at the top of the `unit_propagation` loop: empty clause
means unsatisfiable, a unit clause forces its literal (conflicting with an
earlier forced polarity means unsatisfiable), anything else is skipped. -/
def scanClauses (implies : Assignment) : List Clause → Option Assignment
  | [] => some implies
  | c :: cs =>
    match c with
    | [] => none
    | [l] =>
      match List.lookup l.var implies with
      | some a => if a = l.polarity then scanClauses implies cs else none
      | none => scanClauses (implies.insert l.var l.polarity) cs
    | _ => scanClauses implies cs

/-- `enum UnitPropagationResult`. -/
inductive UnitPropagationResult where
  | Unsatisfiable
  | Continue (cnf : Cnf) (implies : Assignment)
deriving DecidableEq, Repr

/-- The loop of `fn unit_propagation`: scan for units, apply `assign` with
the accumulated forced assignment, repeat while `assign` reports a
reduction. -/
def unit_propagation_loop (cnf : Cnf) (implies : Assignment) : UnitPropagationResult :=
  match scanClauses implies cnf with
  | none => .Unsatisfiable
  | some implies2 =>
    match h : assign cnf implies2 with
    | .Reduced cnf2 => unit_propagation_loop cnf2 implies2
    | .Unchanged cnf2 => .Continue cnf2 implies2
termination_by litCount cnf
decreasing_by
  rcases assign_Reduced cnf implies2 h with ⟨rfl, ht⟩
  exact assignCnf_true_litCount implies2 cnf ht

/-- `fn unit_propagation(cnf) -> UnitPropagationResult`. -/
def unit_propagation (cnf : Cnf) : UnitPropagationResult :=
  unit_propagation_loop cnf []

/-- Insert into a duplicate-free list, keeping the first occurrence. -/
def insertAbsent {α} [DecidableEq α] (acc : List α) (x : α) : List α :=
  if x ∈ acc then acc else acc ++ [x]

/-- First-occurrence deduplication, the fixed iteration order this
development uses for Rust hash sets (Rust leaves the order unspecified). -/
def dedupFirst {α} [DecidableEq α] (l : List α) : List α :=
  l.foldl insertAbsent []

/-- `fn all_variables(cnf) -> HashSet<Variable>`, as a duplicate-free list
in first-occurrence order. -/
def all_variables (cnf : Cnf) : List Variable :=
  dedupFirst (cnf.bind (fun c => c.map Literal.var))

/-- The set of variables of a CNF, the termination measure of `solve_rec`. -/
def varsFinset (cnf : Cnf) : Finset Nat :=
  (cnf.bind (fun c => c.map Literal.var)).toFinset

theorem mem_varsFinset {cnf : Cnf} {k : Nat} :
    k ∈ varsFinset cnf ↔ ∃ c ∈ cnf, ∃ l ∈ c, Literal.var l = k := by
  simp [varsFinset]

theorem assignClause_flag_touch (a : Assignment) (c : Clause)
    (h : (assignClause a c).2 = true) :
    ∃ l ∈ c, (List.lookup l.var a).isSome := by
  induction c with
  | nil => simp [assignClause] at h
  | cons l ls ih =>
    simp only [assignClause] at h
    cases hl : List.lookup l.var a with
    | some p => exact ⟨l, by simp, by simp [hl]⟩
    | none =>
      rw [hl] at h
      simp at h
      rcases ih h with ⟨l2, hm, hs⟩
      exact ⟨l2, by simp [hm], hs⟩

theorem assignClause_some_mem (a : Assignment) (c : Clause) {c2 : Clause}
    (h : (assignClause a c).1 = some c2) {l2 : Literal} (hm : l2 ∈ c2) :
    l2 ∈ c ∧ List.lookup l2.var a = none := by
  induction c generalizing c2 with
  | nil =>
    simp [assignClause] at h
    subst h
    simp at hm
  | cons l ls ih =>
    simp only [assignClause] at h
    cases hl : List.lookup l.var a with
    | some p =>
      rw [hl] at h
      by_cases hp : p = l.polarity
      · simp [hp] at h
      · simp [hp] at h
        have := ih h hm
        exact ⟨by simp [this.1], this.2⟩
    | none =>
      rw [hl] at h
      simp at h
      rcases h with ⟨c3, h3, rfl⟩
      rcases List.mem_cons.mp hm with rfl | hm3
      · exact ⟨by simp, hl⟩
      · have := ih h3 hm3
        exact ⟨by simp [this.1], this.2⟩

theorem assignCnf_flag_touch (a : Assignment) (cnf : Cnf)
    (h : (assignCnf a cnf).2 = true) :
    ∃ c ∈ cnf, ∃ l ∈ c, (List.lookup l.var a).isSome := by
  induction cnf with
  | nil => simp [assignCnf] at h
  | cons c cs ih =>
    simp only [assignCnf] at h
    simp at h
    rcases h with h | h
    · rcases assignClause_flag_touch a c h with ⟨l, hm, hs⟩
      exact ⟨c, by simp, l, hm, hs⟩
    · rcases ih h with ⟨c2, hm, r⟩
      exact ⟨c2, by simp [hm], r⟩

theorem assignCnf_mem (a : Assignment) (cnf : Cnf) {c2 : Clause}
    (h : c2 ∈ (assignCnf a cnf).1) :
    ∃ c ∈ cnf, (assignClause a c).1 = some c2 := by
  induction cnf with
  | nil => simp [assignCnf] at h
  | cons c cs ih =>
    simp only [assignCnf] at h
    cases hc : (assignClause a c).1 with
    | some c3 =>
      rw [hc] at h
      rcases List.mem_cons.mp h with rfl | h2
      · exact ⟨c, by simp, hc⟩
      · rcases ih h2 with ⟨c4, hm, r⟩
        exact ⟨c4, by simp [hm], r⟩
    | none =>
      rw [hc] at h
      rcases ih h with ⟨c4, hm, r⟩
      exact ⟨c4, by simp [hm], r⟩

theorem varsFinset_assignCnf (a : Assignment) (cnf : Cnf) {k : Nat}
    (h : k ∈ varsFinset (assignCnf a cnf).1) :
    k ∈ varsFinset cnf ∧ List.lookup k a = none := by
  rcases mem_varsFinset.mp h with ⟨c2, hc2, l, hl, rfl⟩
  rcases assignCnf_mem a cnf hc2 with ⟨c, hc, hred⟩
  have := assignClause_some_mem a c hred hl
  exact ⟨mem_varsFinset.mpr ⟨c, hc, l, this.1, rfl⟩, this.2⟩

theorem up_loop_eq_unsat {cnf : Cnf} {implies : Assignment}
    (hs : scanClauses implies cnf = none) :
    unit_propagation_loop cnf implies = .Unsatisfiable := by
  rw [unit_propagation_loop, hs]

theorem up_loop_eq_red {cnf cnf2 : Cnf} {implies implies2 : Assignment}
    (hs : scanClauses implies cnf = some implies2)
    (ha : assign cnf implies2 = .Reduced cnf2) :
    unit_propagation_loop cnf implies = unit_propagation_loop cnf2 implies2 := by
  rw [unit_propagation_loop, hs]
  split
  · rename_i hc; cases hc
  · rename_i i3 hi3
    injection hi3 with hi3
    subst hi3
    split
    · rename_i c4 hc4
      rw [ha] at hc4
      injection hc4 with hc4
      subst hc4
      rfl
    · rename_i c4 hc4
      rw [ha] at hc4
      cases hc4

theorem up_loop_eq_unch {cnf cnf2 : Cnf} {implies implies2 : Assignment}
    (hs : scanClauses implies cnf = some implies2)
    (ha : assign cnf implies2 = .Unchanged cnf2) :
    unit_propagation_loop cnf implies = .Continue cnf2 implies2 := by
  rw [unit_propagation_loop, hs]
  split
  · rename_i hc; cases hc
  · rename_i i3 hi3
    injection hi3 with hi3
    subst hi3
    split
    · rename_i c4 hc4
      rw [ha] at hc4
      cases hc4
    · rename_i c4 hc4
      rw [ha] at hc4
      injection hc4 with hc4
      subst hc4
      rfl

theorem up_loop_vars (cnf : Cnf) (implies : Assignment) {c2 : Cnf} {A : Assignment}
    (h : unit_propagation_loop cnf implies = .Continue c2 A) :
    varsFinset c2 ⊆ varsFinset cnf := by
  induction cnf, implies using unit_propagation_loop.induct with
  | case1 cnf implies hscan =>
    rw [up_loop_eq_unsat hscan] at h
    cases h
  | case2 cnf implies implies2 hscan cnf2 hred ih =>
    rw [up_loop_eq_red hscan hred] at h
    have hsub := ih h
    rcases assign_Reduced cnf implies2 hred with ⟨rfl, _⟩
    intro k hk
    exact (varsFinset_assignCnf implies2 cnf (hsub hk)).1
  | case3 cnf implies implies2 hscan cnf2 hred =>
    rw [up_loop_eq_unch hscan hred] at h
    injection h with h1 h2
    subst h1
    subst h2
    rcases assign_Unchanged cnf implies2 hred with ⟨rfl, _⟩
    intro k hk
    exact (varsFinset_assignCnf implies2 cnf hk).1

theorem lookup_singleton_isSome {k v : Nat} {p : Polarity}
    (h : (List.lookup k [(v, p)]).isSome) : k = v := by
  by_cases hkv : k = v
  · exact hkv
  · have hb : (k == v) = false := by simp [hkv]
    simp [List.lookup, hb] at h

theorem solve_rec_measure {cnf : Cnf} {victim : Variable} {p : Polarity}
    {cnf1 c1 : Cnf} {implies1 : Assignment}
    (h1 : assign cnf [(victim, p)] = .Reduced cnf1)
    (h2 : unit_propagation cnf1 = .Continue c1 implies1) :
    (varsFinset c1).card < (varsFinset cnf).card := by
  rcases assign_Reduced cnf [(victim, p)] h1 with ⟨rfl, hflag⟩
  rcases assignCnf_flag_touch [(victim, p)] cnf hflag with ⟨c, hc, l, hl, hs⟩
  have hvmem : victim ∈ varsFinset cnf := by
    have := lookup_singleton_isSome hs
    exact mem_varsFinset.mpr ⟨c, hc, l, hl, this⟩
  have hsub : varsFinset c1 ⊆ (varsFinset cnf).erase victim := by
    intro k hk
    have hk1 := up_loop_vars _ [] h2 hk
    have := varsFinset_assignCnf [(victim, p)] cnf hk1
    refine Finset.mem_erase.mpr ⟨?_, this.1⟩
    intro hkv
    subst hkv
    simp [List.lookup] at this
  calc (varsFinset c1).card ≤ ((varsFinset cnf).erase victim).card :=
        Finset.card_le_card hsub
    _ < (varsFinset cnf).card := Finset.card_erase_lt_of_mem hvmem

mutual

/-- The negative half of the body of `fn solve_rec`: assign the split
variable `victim := Negative`, propagate units, and on success restart the
search with `solve(cnf)` (the source recomputes the variable pool there,
mirrored by `all_variables`).  `none` models the `unreachable!()` taken
when `assign` reports `Unchanged`. -/
def solve_neg (cnf : Cnf) (victim : Variable) : Option Model :=
  match h3 : assign cnf [(victim, .Negative)] with
  | .Unchanged _ => none
  | .Reduced cnf2 =>
    match h4 : unit_propagation cnf2 with
    | .Unsatisfiable => some .Unsatisfiable
    | .Continue c2 implies2 =>
      match solve_rec c2 (all_variables c2) with
      | none => none
      | some (.Satisfied a) =>
        some (.Satisfied ((a.insert victim .Negative).extend implies2))
      | some .Unsatisfiable => some .Unsatisfiable
termination_by 2 * (varsFinset cnf).card
decreasing_by
  have := solve_rec_measure h3 h4
  omega

/-- `fn solve_rec(cnf, variables) -> Model`, with `Option` for the panics:
`none` models the out-of-bounds indexing when the variable pool is empty
while clauses remain, and the `unreachable!()` arms taken when `assign`
reports `Unchanged`.  The head of `vars` plays the role of the arbitrary
element the source takes from the `HashSet` iterator; removing the keys of
the propagated assignment mirrors the `variables.remove(v)` loop. -/
def solve_rec (cnf : Cnf) (vars : List Variable) : Option Model :=
  if cnf = [] then some (.Satisfied []) else
  match vars with
  | [] => none
  | victim :: rest =>
    match h1 : assign cnf [(victim, .Positive)] with
    | .Unchanged _ => none
    | .Reduced cnf1 =>
      match h2 : unit_propagation cnf1 with
      | .Unsatisfiable => solve_neg cnf victim
      | .Continue c1 implies1 =>
        match solve_rec c1 (implies1.foldl (fun vs kv => vs.erase kv.1) rest) with
        | none => none
        | some (.Satisfied a) =>
          some (.Satisfied ((a.insert victim .Positive).extend implies1))
        | some .Unsatisfiable => solve_neg cnf victim
termination_by 2 * (varsFinset cnf).card + 1
decreasing_by
  · omega
  · have := solve_rec_measure h1 h2
    omega
  · omega

end

/-- `pub fn solve(cnf) -> Model` of the kernel. -/
def Cnf.solve (cnf : Cnf) : Option Model :=
  solve_rec cnf (all_variables cnf)

/-! # Part 3: truth-table semantics for formulas and CNFs -/

/-- Boolean value carried by a polarity (`Positive` is true). -/
def Polarity.toBool : Polarity → Bool
  | .Positive => true
  | .Negative => false

/-- Truth of a literal under a (total) valuation. -/
def litHolds (sg : Nat → Bool) (l : Literal) : Bool :=
  sg l.var == l.polarity.toBool

/-- Truth of a clause (disjunction of its literals). -/
def clauseHolds (sg : Nat → Bool) (c : Clause) : Bool :=
  c.any (litHolds sg)

/-- Truth of a CNF (conjunction of its clauses). -/
def cnfHolds (sg : Nat → Bool) (cnf : Cnf) : Bool :=
  cnf.all (clauseHolds sg)

/-- Truth-table semantics of a `Formula`. -/
def Formula.eval (sg : Nat → Bool) : Formula → Bool
  | .Var v => sg v
  | .Negation f => !(f.eval sg)
  | .Conjunction f0 f1 => f0.eval sg && f1.eval sg
  | .Disjunction f0 f1 => f0.eval sg || f1.eval sg
  | .Equivalence f0 f1 => f0.eval sg == f1.eval sg
  | .Implication f0 f1 => !(f0.eval sg) || f1.eval sg

/-- Satisfiability of a formula under the truth-table semantics. -/
def Formula.satisfiable (f : Formula) : Prop := ∃ sg, f.eval sg = true

/-- Satisfiability of a CNF. -/
def cnfSatisfiable (cnf : Cnf) : Prop := ∃ sg, cnfHolds sg cnf = true

/-- A valuation agrees with a partial assignment. -/
def agrees (sg : Nat → Bool) (a : Assignment) : Prop :=
  ∀ k p, List.lookup k a = some p → sg k = p.toBool

theorem lookup_cons {β : Type} {k v : Nat} {p : β} {a : List (Nat × β)} :
    List.lookup k ((v, p) :: a) = if k = v then some p else List.lookup k a := by
  by_cases hkv : k = v
  · simp [List.lookup, hkv]
  · have hb : (k == v) = false := by simp [hkv]
    simp [List.lookup, hb, hkv]

theorem lookup_append_left {k : Nat} {p : Polarity} {a b : Assignment}
    (h : List.lookup k a = some p) : List.lookup k (a ++ b) = some p := by
  induction a with
  | nil => simp [List.lookup] at h
  | cons kv rest ih =>
    rcases kv with ⟨v, q⟩
    rw [lookup_cons] at h
    rw [List.cons_append, lookup_cons]
    by_cases hkv : k = v
    · simpa [hkv] using h
    · rw [if_neg hkv] at h
      rw [if_neg hkv]
      exact ih h

theorem lookup_append_right {k : Nat} {a b : Assignment}
    (h : List.lookup k a = none) : List.lookup k (a ++ b) = List.lookup k b := by
  induction a with
  | nil => simp
  | cons kv rest ih =>
    rcases kv with ⟨v, q⟩
    rw [lookup_cons] at h
    rw [List.cons_append, lookup_cons]
    by_cases hkv : k = v
    · simp [hkv] at h
    · rw [if_neg hkv] at h
      rw [if_neg hkv]
      exact ih h

/-- Keys of an assignment. -/
def keysOf (a : Assignment) : List Nat := a.map Prod.fst

theorem lookup_eq_none_iff {k : Nat} {a : Assignment} :
    List.lookup k a = none ↔ k ∉ keysOf a := by
  induction a with
  | nil => simp [List.lookup, keysOf]
  | cons kv rest ih =>
    rcases kv with ⟨v, q⟩
    rw [lookup_cons]
    by_cases hkv : k = v
    · subst hkv
      simp [keysOf]
    · rw [if_neg hkv, ih]
      simp [keysOf, hkv]

theorem lookup_reverse_of_nodup {k : Nat} {a : Assignment}
    (hnd : (keysOf a).Nodup) : List.lookup k a.reverse = List.lookup k a := by
  induction a with
  | nil => simp
  | cons kv rest ih =>
    rcases kv with ⟨v, q⟩
    have hnd2 : v ∉ keysOf rest ∧ (keysOf rest).Nodup := by
      simpa [keysOf] using hnd
    rw [List.reverse_cons, lookup_cons]
    by_cases hkv : k = v
    · subst hkv
      have hnone : List.lookup k rest.reverse = none := by
        rw [lookup_eq_none_iff]
        intro hc
        exact hnd2.1 (by simpa [keysOf] using hc)
      rw [lookup_append_right hnone]
      simp [lookup_cons]
    · cases hlk : List.lookup k rest.reverse with
      | some p =>
        rw [lookup_append_left hlk, if_neg hkv, ← ih hnd2.2, hlk]
      | none =>
        rw [lookup_append_right hlk, if_neg hkv, ← ih hnd2.2, hlk]
        rw [lookup_cons, if_neg hkv]
        rfl

theorem Polarity.toBool_inj {p q : Polarity} (h : p.toBool = q.toBool) : p = q := by
  cases p <;> cases q <;> simp [Polarity.toBool] at h ⊢

theorem assignClause_holds {sg : Nat → Bool} {a : Assignment} {c c2 : Clause}
    (hag : agrees sg a) (hc : clauseHolds sg c = true)
    (h : (assignClause a c).1 = some c2) : clauseHolds sg c2 = true := by
  induction c generalizing c2 with
  | nil => simp [clauseHolds] at hc
  | cons l ls ih =>
    simp only [assignClause] at h
    simp only [clauseHolds, List.any_cons, Bool.or_eq_true] at hc
    cases hl : List.lookup l.var a with
    | some p =>
      rw [hl] at h
      by_cases hp : p = l.polarity
      · simp [hp] at h
      · simp [hp] at h
        rcases hc with hc | hc
        · exfalso
          have h1 : sg l.var = l.polarity.toBool := by
            simpa [litHolds] using hc
          have h2 : sg l.var = p.toBool := hag l.var p hl
          exact hp (Polarity.toBool_inj (h2.symm.trans h1))
        · exact ih hc h
    | none =>
      rw [hl] at h
      simp at h
      rcases h with ⟨c3, h3, rfl⟩
      simp only [clauseHolds, List.any_cons, Bool.or_eq_true]
      rcases hc with hc | hc
      · left; exact hc
      · right; exact ih hc h3

theorem assignCnf_holds {sg : Nat → Bool} {a : Assignment} {cnf : Cnf}
    (hag : agrees sg a) (h : cnfHolds sg cnf = true) :
    cnfHolds sg (assignCnf a cnf).1 = true := by
  induction cnf with
  | nil => simp [assignCnf, cnfHolds]
  | cons c cs ih =>
    simp only [cnfHolds, List.all_cons, Bool.and_eq_true] at h
    simp only [assignCnf]
    cases hc : (assignClause a c).1 with
    | some c2 =>
      simp only [cnfHolds, List.all_cons, Bool.and_eq_true]
      exact ⟨assignClause_holds hag h.1 hc, ih h.2⟩
    | none => exact ih h.2

theorem scanClauses_some {sg : Nat → Bool} :
    ∀ (cnf : Cnf) (implies : Assignment), agrees sg implies → cnfHolds sg cnf = true →
      ∃ i2, scanClauses implies cnf = some i2 ∧ agrees sg i2 := by
  intro cnf
  induction cnf with
  | nil =>
    intro implies hag _
    exact ⟨implies, rfl, hag⟩
  | cons c cs ih =>
    intro implies hag hc
    simp only [cnfHolds, List.all_cons, Bool.and_eq_true] at hc
    match c with
    | [] => simp [clauseHolds] at hc
    | [l] =>
      have hlit : sg l.var = l.polarity.toBool := by
        simpa [clauseHolds, litHolds] using hc.1
      simp only [scanClauses]
      cases hl : List.lookup l.var implies with
      | some a0 =>
        have ha0 : a0 = l.polarity := by
          have h2 := hag l.var a0 hl
          exact Polarity.toBool_inj (h2.symm.trans hlit)
        subst ha0
        simpa using ih implies hag hc.2
      | none =>
        have hag2 : agrees sg (implies.insert l.var l.polarity) := by
          intro k p hk
          rw [Assignment.insert, lookup_cons] at hk
          by_cases hkv : k = l.var
          · rw [if_pos hkv] at hk
            injection hk with hk
            subst hk
            subst hkv
            exact hlit
          · rw [if_neg hkv] at hk
            exact hag k p hk
        exact ih _ hag2 hc.2
    | l1 :: l2 :: ls =>
      simp only [scanClauses]
      exact ih implies hag hc.2

theorem up_loop_sound (sg : Nat → Bool) :
    ∀ cnf implies, agrees sg implies → cnfHolds sg cnf = true →
      unit_propagation_loop cnf implies ≠ .Unsatisfiable ∧
      (∀ c2 A, unit_propagation_loop cnf implies = .Continue c2 A →
        cnfHolds sg c2 = true ∧ agrees sg A) := by
  intro cnf implies
  induction cnf, implies using unit_propagation_loop.induct with
  | case1 cnf implies hscan =>
    intro hag hc
    rcases scanClauses_some cnf implies hag hc with ⟨i2, hi2, _⟩
    rw [hscan] at hi2
    cases hi2
  | case2 cnf implies implies2 hscan cnf2 hred ih =>
    intro hag hc
    rcases scanClauses_some cnf implies hag hc with ⟨i2, hi2, hag2⟩
    rw [hscan] at hi2
    injection hi2 with hi2
    subst hi2
    have hcnf2 : cnfHolds sg cnf2 = true := by
      rcases assign_Reduced cnf implies2 hred with ⟨rfl, _⟩
      exact assignCnf_holds hag2 hc
    have := ih hag2 hcnf2
    rw [up_loop_eq_red hscan hred]
    exact this
  | case3 cnf implies implies2 hscan cnf2 hred =>
    intro hag hc
    rcases scanClauses_some cnf implies hag hc with ⟨i2, hi2, hag2⟩
    rw [hscan] at hi2
    injection hi2 with hi2
    subst hi2
    rw [up_loop_eq_unch hscan hred]
    refine ⟨by simp, ?_⟩
    intro c3 A h3
    injection h3 with h3a h3b
    subst h3a
    subst h3b
    constructor
    · rcases assign_Unchanged cnf implies2 hred with ⟨rfl, _⟩
      exact assignCnf_holds hag2 hc
    · exact hag2

theorem up_sound {sg : Nat → Bool} {cnf : Cnf} (hc : cnfHolds sg cnf = true) :
    unit_propagation cnf ≠ .Unsatisfiable ∧
    (∀ c2 A, unit_propagation cnf = .Continue c2 A →
      cnfHolds sg c2 = true ∧ agrees sg A) := by
  have hag : agrees sg ([] : Assignment) := by
    intro k p hk
    simp [List.lookup] at hk
  exact up_loop_sound sg cnf [] hag hc

theorem solve_rec_eq_nil (vars : List Variable) :
    solve_rec [] vars = some (.Satisfied []) := by
  rw [solve_rec.eq_def]
  simp

theorem solve_rec_eq_novars {cnf : Cnf} (h : cnf ≠ []) :
    solve_rec cnf [] = none := by
  rw [solve_rec.eq_def]
  simp [h]

theorem solve_rec_eq_unch {cnf : Cnf} {victim : Variable} {rest : List Variable} {c : Cnf}
    (h : cnf ≠ []) (h1 : assign cnf [(victim, .Positive)] = .Unchanged c) :
    solve_rec cnf (victim :: rest) = none := by
  rw [solve_rec.eq_def, if_neg h]
  split
  · rename_i hc
    cases hc
  · rename_i v2 rest2 hc
    injection hc with hcv hcr
    subst hcv
    subst hcr
    split
    · rfl
    · rename_i c2 hc2
      rw [h1] at hc2
      cases hc2

theorem solve_rec_eq_upunsat {cnf cnf1 : Cnf} {victim : Variable} {rest : List Variable}
    (h : cnf ≠ []) (h1 : assign cnf [(victim, .Positive)] = .Reduced cnf1)
    (h2 : unit_propagation cnf1 = .Unsatisfiable) :
    solve_rec cnf (victim :: rest) = solve_neg cnf victim := by
  rw [solve_rec.eq_def, if_neg h]
  split
  · rename_i hc
    cases hc
  · rename_i v2 rest2 hc
    injection hc with hcv hcr
    subst hcv
    subst hcr
    split
    · rename_i c2 hc2
      rw [h1] at hc2
      cases hc2
    · rename_i c2 hc2
      rw [h1] at hc2
      injection hc2 with hc2
      subst hc2
      split
      · rfl
      · rename_i c3 i3 hc3
        rw [h2] at hc3
        cases hc3

theorem solve_rec_eq_cont {cnf cnf1 c1 : Cnf} {victim : Variable} {rest : List Variable}
    {implies1 : Assignment}
    (h : cnf ≠ []) (h1 : assign cnf [(victim, .Positive)] = .Reduced cnf1)
    (h2 : unit_propagation cnf1 = .Continue c1 implies1) :
    solve_rec cnf (victim :: rest) =
      match solve_rec c1 (implies1.foldl (fun vs kv => vs.erase kv.1) rest) with
      | none => none
      | some (.Satisfied a) =>
        some (.Satisfied ((a.insert victim .Positive).extend implies1))
      | some .Unsatisfiable => solve_neg cnf victim := by
  rw [solve_rec.eq_def, if_neg h]
  split
  · rename_i hc
    cases hc
  · rename_i v2 rest2 hc
    injection hc with hcv hcr
    subst hcv
    subst hcr
    split
    · rename_i c2 hc2
      rw [h1] at hc2
      cases hc2
    · rename_i c2 hc2
      rw [h1] at hc2
      injection hc2 with hc2
      subst hc2
      split
      · rename_i hc3
        rw [h2] at hc3
        cases hc3
      · rename_i c3 i3 hc3
        rw [h2] at hc3
        injection hc3 with hc3a hc3b
        subst hc3a
        subst hc3b
        rfl

theorem solve_neg_eq_unch {cnf : Cnf} {victim : Variable} {c : Cnf}
    (h3 : assign cnf [(victim, .Negative)] = .Unchanged c) :
    solve_neg cnf victim = none := by
  rw [solve_neg.eq_def]
  split
  · rfl
  · rename_i c2 hc2
    rw [h3] at hc2
    cases hc2

theorem solve_neg_eq_upunsat {cnf cnf2 : Cnf} {victim : Variable}
    (h3 : assign cnf [(victim, .Negative)] = .Reduced cnf2)
    (h4 : unit_propagation cnf2 = .Unsatisfiable) :
    solve_neg cnf victim = some .Unsatisfiable := by
  rw [solve_neg.eq_def]
  split
  · rename_i c2 hc2
    rw [h3] at hc2
    cases hc2
  · rename_i c2 hc2
    rw [h3] at hc2
    injection hc2 with hc2
    subst hc2
    split
    · rfl
    · rename_i c3 i3 hc3
      rw [h4] at hc3
      cases hc3

theorem solve_neg_eq_cont {cnf cnf2 c2 : Cnf} {victim : Variable} {implies2 : Assignment}
    (h3 : assign cnf [(victim, .Negative)] = .Reduced cnf2)
    (h4 : unit_propagation cnf2 = .Continue c2 implies2) :
    solve_neg cnf victim =
      match solve_rec c2 (all_variables c2) with
      | none => none
      | some (.Satisfied a) =>
        some (.Satisfied ((a.insert victim .Negative).extend implies2))
      | some .Unsatisfiable => some .Unsatisfiable := by
  rw [solve_neg.eq_def]
  split
  · rename_i c3 hc3
    rw [h3] at hc3
    cases hc3
  · rename_i c3 hc3
    rw [h3] at hc3
    injection hc3 with hc3
    subst hc3
    split
    · rename_i hc4
      rw [h4] at hc4
      cases hc4
    · rename_i c4 i4 hc4
      rw [h4] at hc4
      injection hc4 with hc4a hc4b
      subst hc4a
      subst hc4b
      rfl

theorem agrees_singleton {sg : Nat → Bool} {victim : Variable} {p : Polarity}
    (h : sg victim = p.toBool) : agrees sg [(victim, p)] := by
  intro k q hk
  rw [lookup_cons] at hk
  by_cases hkv : k = victim
  · rw [if_pos hkv] at hk
    injection hk with hk
    subst hk
    subst hkv
    exact h
  · rw [if_neg hkv] at hk
    simp [List.lookup] at hk

theorem solve_sound_unsat_aux (n : Nat) :
    ∀ cnf : Cnf, (varsFinset cnf).card < n →
      (∀ victim, solve_neg cnf victim = some .Unsatisfiable →
        ∀ sg, sg victim = false → cnfHolds sg cnf = false) ∧
      (∀ vars, solve_rec cnf vars = some .Unsatisfiable →
        ∀ sg, cnfHolds sg cnf = false) := by
  induction n with
  | zero => intro cnf hlt; omega
  | succ n ih =>
    intro cnf hlt
    have hneg : ∀ victim, solve_neg cnf victim = some .Unsatisfiable →
        ∀ sg, sg victim = false → cnfHolds sg cnf = false := by
      intro victim hsol sg hv
      cases hsat : cnfHolds sg cnf with
      | false => rfl
      | true =>
      exfalso
      cases hassign : assign cnf [(victim, .Negative)] with
      | Unchanged c =>
        rw [solve_neg_eq_unch hassign] at hsol
        cases hsol
      | Reduced cnf2 =>
        have hag : agrees sg [(victim, Polarity.Negative)] :=
          agrees_singleton (by simpa [Polarity.toBool] using hv)
        have hcnf2 : cnfHolds sg cnf2 = true := by
          rcases assign_Reduced cnf _ hassign with ⟨rfl, _⟩
          exact assignCnf_holds hag hsat
        cases hup : unit_propagation cnf2 with
        | Unsatisfiable => exact (up_sound hcnf2).1 hup
        | Continue c2 implies2 =>
          have hcont := (up_sound hcnf2).2 c2 implies2 hup
          rw [solve_neg_eq_cont hassign hup] at hsol
          cases hrec : solve_rec c2 (all_variables c2) with
          | none => rw [hrec] at hsol; cases hsol
          | some m =>
            cases m with
            | Satisfied a => rw [hrec] at hsol; simp at hsol
            | Unsatisfiable =>
              have hmeas := solve_rec_measure hassign hup
              have := (ih c2 (by omega)).2 (all_variables c2) hrec sg
              rw [hcont.1] at this
              cases this
    refine ⟨hneg, ?_⟩
    intro vars hsol sg
    cases hsat : cnfHolds sg cnf with
    | false => rfl
    | true =>
    exfalso
    by_cases hnil : cnf = []
    · subst hnil
      rw [solve_rec_eq_nil] at hsol
      cases hsol
    cases vars with
    | nil =>
      rw [solve_rec_eq_novars hnil] at hsol
      cases hsol
    | cons victim rest =>
    cases hassign : assign cnf [(victim, .Positive)] with
    | Unchanged c =>
      rw [solve_rec_eq_unch hnil hassign] at hsol
      cases hsol
    | Reduced cnf1 =>
    have hposimp : sg victim = true → False := by
      intro hvt
      have hag : agrees sg [(victim, Polarity.Positive)] :=
        agrees_singleton (by simpa [Polarity.toBool] using hvt)
      have hcnf1 : cnfHolds sg cnf1 = true := by
        rcases assign_Reduced cnf _ hassign with ⟨rfl, _⟩
        exact assignCnf_holds hag hsat
      cases hup : unit_propagation cnf1 with
      | Unsatisfiable => exact (up_sound hcnf1).1 hup
      | Continue c1 implies1 =>
        have hcont := (up_sound hcnf1).2 c1 implies1 hup
        rw [solve_rec_eq_cont hnil hassign hup] at hsol
        cases hrec : solve_rec c1 (implies1.foldl (fun vs kv => vs.erase kv.1) rest) with
        | none => rw [hrec] at hsol; cases hsol
        | some m =>
          cases m with
          | Satisfied a => rw [hrec] at hsol; simp at hsol
          | Unsatisfiable =>
            have hmeas := solve_rec_measure hassign hup
            have := (ih c1 (by omega)).2 _ hrec sg
            rw [hcont.1] at this
            cases this
    cases hvq : sg victim with
    | true => exact hposimp hvq
    | false =>
      have hnegsol : solve_neg cnf victim = some .Unsatisfiable := by
        cases hup : unit_propagation cnf1 with
        | Unsatisfiable =>
          rw [solve_rec_eq_upunsat hnil hassign hup] at hsol
          exact hsol
        | Continue c1 implies1 =>
          rw [solve_rec_eq_cont hnil hassign hup] at hsol
          cases hrec : solve_rec c1 (implies1.foldl (fun vs kv => vs.erase kv.1) rest) with
          | none => rw [hrec] at hsol; cases hsol
          | some m =>
            cases m with
            | Satisfied a => rw [hrec] at hsol; simp at hsol
            | Unsatisfiable => rw [hrec] at hsol; exact hsol
      have := hneg victim hnegsol sg hvq
      rw [hsat] at this
      cases this

/-- Refutational soundness of the DPLL kernel: when `Cnf::solve` returns
`Unsatisfiable`, no valuation satisfies the CNF. -/
theorem solve_Unsatisfiable_sound {cnf : Cnf}
    (h : Cnf.solve cnf = some .Unsatisfiable) (sg : Nat → Bool) :
    cnfHolds sg cnf = false :=
  (solve_sound_unsat_aux ((varsFinset cnf).card + 1) cnf (by omega)).2
    (all_variables cnf) h sg

theorem assignClause_none_sat {a : Assignment} {c : Clause}
    (h : (assignClause a c).1 = none) :
    ∃ l ∈ c, List.lookup l.var a = some l.polarity := by
  induction c with
  | nil => simp [assignClause] at h
  | cons l ls ih =>
    simp only [assignClause] at h
    cases hl : List.lookup l.var a with
    | some p =>
      rw [hl] at h
      by_cases hp : p = l.polarity
      · exact ⟨l, by simp, by rw [hl, hp]⟩
      · simp [hp] at h
        rcases ih h with ⟨l2, hm, hs⟩
        exact ⟨l2, by simp [hm], hs⟩
    | none =>
      rw [hl] at h
      simp at h
      rcases ih h with ⟨l2, hm, hs⟩
      exact ⟨l2, by simp [hm], hs⟩

theorem assignClause_flag_false {a : Assignment} {c : Clause}
    (h : (assignClause a c).2 = false) :
    (∀ l ∈ c, List.lookup l.var a = none) ∧ (assignClause a c).1 = some c := by
  induction c with
  | nil => simp [assignClause]
  | cons l ls ih =>
    simp only [assignClause] at h ⊢
    cases hl : List.lookup l.var a with
    | some p => rw [hl] at h; by_cases hp : p = l.polarity <;> simp [hp] at h
    | none =>
      rw [hl] at h
      simp at h
      rcases ih h with ⟨h1, h2⟩
      refine ⟨?_, ?_⟩
      · intro l2 hl2
        rcases List.mem_cons.mp hl2 with rfl | hm
        · exact hl
        · exact h1 l2 hm
      · simp [hl, h2]

theorem assignCnf_flag_false {a : Assignment} {cnf : Cnf}
    (h : (assignCnf a cnf).2 = false) :
    (∀ c ∈ cnf, ∀ l ∈ c, List.lookup l.var a = none) ∧ (assignCnf a cnf).1 = cnf := by
  induction cnf with
  | nil => simp [assignCnf]
  | cons c cs ih =>
    simp only [assignCnf] at h ⊢
    simp at h
    rcases ih h.2 with ⟨h1, h2⟩
    rcases assignClause_flag_false h.1 with ⟨h3, h4⟩
    refine ⟨?_, ?_⟩
    · intro c2 hc2 l hl
      rcases List.mem_cons.mp hc2 with rfl | hm
      · exact h3 l hl
      · exact h1 c2 hm l hl
    · rw [h4, h2]

theorem assignCnf_clause_cases {a : Assignment} {cnf : Cnf} {c : Clause} (hc : c ∈ cnf) :
    (assignClause a c).1 = none ∨
    ∃ c2, (assignClause a c).1 = some c2 ∧ c2 ∈ (assignCnf a cnf).1 := by
  induction cnf with
  | nil => simp at hc
  | cons c0 cs ih =>
    simp only [assignCnf]
    rcases List.mem_cons.mp hc with rfl | hm
    · cases h0 : (assignClause a c).1 with
      | none => exact Or.inl rfl
      | some c2 => exact Or.inr ⟨c2, rfl, by simp⟩
    · rcases ih hm with h | ⟨c2, he, hmem⟩
      · exact Or.inl h
      · refine Or.inr ⟨c2, he, ?_⟩
        cases h0 : (assignClause a c0).1 <;> simp [h0, hmem]

theorem scanClauses_keys {cnf : Cnf} :
    ∀ {implies i2 : Assignment}, scanClauses implies cnf = some i2 →
      (∀ k p, List.lookup k implies = some p → List.lookup k i2 = some p) ∧
      ((keysOf implies).Nodup → (keysOf i2).Nodup) ∧
      (∀ k, k ∈ keysOf i2 → k ∈ keysOf implies ∨ k ∈ varsFinset cnf) := by
  induction cnf with
  | nil =>
    intro implies i2 h
    simp only [scanClauses] at h
    injection h with h
    subst h
    exact ⟨fun k p hk => hk, id, fun k hk => Or.inl hk⟩
  | cons c cs ih =>
    intro implies i2 h
    match c with
    | [] =>
      simp only [scanClauses] at h
      cases h
    | [l] =>
      simp only [scanClauses] at h
      cases hl : List.lookup l.var implies with
      | some a0 =>
        rw [hl] at h
        by_cases ha0 : a0 = l.polarity
        · subst ha0
          simp at h
          rcases ih h with ⟨p1, p2, p3⟩
          refine ⟨p1, p2, fun k hk => ?_⟩
          rcases p3 k hk with hk2 | hk2
          · exact Or.inl hk2
          · right
            rcases mem_varsFinset.mp hk2 with ⟨c3, hc3, l3, hl3, hv⟩
            exact mem_varsFinset.mpr ⟨c3, by simp [hc3], l3, hl3, hv⟩
        · simp [ha0] at h
      | none =>
        rw [hl] at h
        simp at h
        rcases ih h with ⟨p1, p2, p3⟩
        have hfresh : l.var ∉ keysOf implies := lookup_eq_none_iff.mp hl
        refine ⟨?_, ?_, ?_⟩
        · intro k p hk
          refine p1 k p ?_
          rw [Assignment.insert, lookup_cons]
          by_cases hkv : k = l.var
          · subst hkv
            rw [hl] at hk
            cases hk
          · rw [if_neg hkv]
            exact hk
        · intro hnd
          refine p2 ?_
          simp only [Assignment.insert, keysOf, List.map_cons, List.nodup_cons]
          exact ⟨by simpa [keysOf] using hfresh, by simpa [keysOf] using hnd⟩
        · intro k hk
          rcases p3 k hk with hk2 | hk2
          · simp only [Assignment.insert, keysOf, List.map_cons, List.mem_cons] at hk2
            rcases hk2 with rfl | hk3
            · right
              exact mem_varsFinset.mpr ⟨[l], by simp, l, by simp, rfl⟩
            · exact Or.inl (by simpa [keysOf] using hk3)
          · right
            rcases mem_varsFinset.mp hk2 with ⟨c3, hc3, l3, hl3, hv⟩
            exact mem_varsFinset.mpr ⟨c3, by simp [hc3], l3, hl3, hv⟩
    | l1 :: l2 :: ls =>
      simp only [scanClauses] at h
      rcases ih h with ⟨p1, p2, p3⟩
      refine ⟨p1, p2, fun k hk => ?_⟩
      rcases p3 k hk with hk2 | hk2
      · exact Or.inl hk2
      · right
        rcases mem_varsFinset.mp hk2 with ⟨c3, hc3, l3, hl3, hv⟩
        exact mem_varsFinset.mpr ⟨c3, by simp [hc3], l3, hl3, hv⟩

theorem up_loop_keys (cnf : Cnf) (implies : Assignment) {c2 : Cnf} {A : Assignment}
    (h : unit_propagation_loop cnf implies = .Continue c2 A) :
    (∀ k p, List.lookup k implies = some p → List.lookup k A = some p) ∧
    ((keysOf implies).Nodup → (keysOf A).Nodup) ∧
    (∀ k, k ∈ keysOf A → k ∈ keysOf implies ∨ k ∈ varsFinset cnf) := by
  induction cnf, implies using unit_propagation_loop.induct with
  | case1 cnf implies hscan =>
    rw [up_loop_eq_unsat hscan] at h
    cases h
  | case2 cnf implies implies2 hscan cnf2 hred ih =>
    rw [up_loop_eq_red hscan hred] at h
    rcases ih h with ⟨q1, q2, q3⟩
    rcases scanClauses_keys hscan with ⟨p1, p2, p3⟩
    refine ⟨fun k p hk => q1 k p (p1 k p hk), fun hnd => q2 (p2 hnd), fun k hk => ?_⟩
    rcases q3 k hk with hk2 | hk2
    · exact p3 k hk2
    · right
      rcases assign_Reduced cnf implies2 hred with ⟨rfl, _⟩
      exact (varsFinset_assignCnf implies2 cnf hk2).1
  | case3 cnf implies implies2 hscan cnf2 hred =>
    rw [up_loop_eq_unch hscan hred] at h
    injection h with h1 h2
    subst h1
    subst h2
    rcases scanClauses_keys hscan with ⟨p1, p2, p3⟩
    exact ⟨p1, p2, p3⟩

theorem up_loop_untouched (cnf : Cnf) (implies : Assignment) {c2 : Cnf} {A : Assignment}
    (h : unit_propagation_loop cnf implies = .Continue c2 A) :
    ∀ k ∈ varsFinset c2, List.lookup k A = none := by
  induction cnf, implies using unit_propagation_loop.induct with
  | case1 cnf implies hscan =>
    rw [up_loop_eq_unsat hscan] at h
    cases h
  | case2 cnf implies implies2 hscan cnf2 hred ih =>
    rw [up_loop_eq_red hscan hred] at h
    exact ih h
  | case3 cnf implies implies2 hscan cnf2 hred =>
    rw [up_loop_eq_unch hscan hred] at h
    injection h with h1 h2
    subst h1
    subst h2
    rcases assign_Unchanged cnf implies2 hred with ⟨rfl, hflag⟩
    rcases assignCnf_flag_false hflag with ⟨huntouched, hid⟩
    intro k hk
    rw [hid] at hk
    rcases mem_varsFinset.mp hk with ⟨c3, hc3, l3, hl3, rfl⟩
    exact huntouched c3 hc3 l3 hl3

theorem up_loop_back (cnf : Cnf) (implies : Assignment) {c2 : Cnf} {A : Assignment}
    (h : unit_propagation_loop cnf implies = .Continue c2 A) :
    ∀ c ∈ cnf, (∃ l ∈ c, List.lookup l.var A = some l.polarity) ∨
      (∃ c3 ∈ c2, ∀ l ∈ c3, l ∈ c) := by
  induction cnf, implies using unit_propagation_loop.induct with
  | case1 cnf implies hscan =>
    rw [up_loop_eq_unsat hscan] at h
    cases h
  | case2 cnf implies implies2 hscan cnf2 hred ih =>
    rw [up_loop_eq_red hscan hred] at h
    intro c hc
    rcases assign_Reduced cnf implies2 hred with ⟨rfl, _⟩
    rcases assignCnf_clause_cases hc (a := implies2) with hnone | ⟨c4, hsome, hmem⟩
    · rcases assignClause_none_sat hnone with ⟨l, hl, hlk⟩
      left
      exact ⟨l, hl, (up_loop_keys _ _ h).1 l.var l.polarity hlk⟩
    · rcases ih h c4 hmem with hsat | ⟨c5, hc5, hsub⟩
      · left
        rcases hsat with ⟨l, hl, hlk⟩
        exact ⟨l, (assignClause_some_mem implies2 c hsome hl).1, hlk⟩
      · right
        refine ⟨c5, hc5, fun l hl => ?_⟩
        exact (assignClause_some_mem implies2 c hsome (hsub l hl)).1
  | case3 cnf implies implies2 hscan cnf2 hred =>
    rw [up_loop_eq_unch hscan hred] at h
    injection h with h1 h2
    subst h1
    subst h2
    rcases assign_Unchanged cnf implies2 hred with ⟨rfl, hflag⟩
    rcases assignCnf_flag_false hflag with ⟨_, hid⟩
    intro c hc
    right
    exact ⟨c, by rw [hid]; exact hc, fun l hl => hl⟩

theorem keysOf_reverse {a : Assignment} {k : Nat} :
    k ∈ keysOf a.reverse ↔ k ∈ keysOf a := by
  simp [keysOf]

theorem route_binding {a i : Assignment} {victim k : Variable} {p q : Polarity}
    (hnd : (keysOf i).Nodup) (hk : List.lookup k i = some q) :
    List.lookup k ((a.insert victim p).extend i) = some q := by
  rw [Assignment.extend]
  refine lookup_append_left ?_
  rw [lookup_reverse_of_nodup hnd]
  exact hk

theorem route_victim {a i : Assignment} {victim : Variable} {p : Polarity}
    (hv : victim ∉ keysOf i) :
    List.lookup victim ((a.insert victim p).extend i) = some p := by
  rw [Assignment.extend]
  have hnone : List.lookup victim i.reverse = none := by
    rw [lookup_eq_none_iff]
    intro hc
    exact hv (keysOf_reverse.mp hc)
  rw [lookup_append_right hnone, Assignment.insert, lookup_cons, if_pos rfl]

theorem route_rest {a i : Assignment} {victim k : Variable} {p : Polarity}
    (hki : k ∉ keysOf i) (hkv : k ≠ victim) :
    List.lookup k ((a.insert victim p).extend i) = List.lookup k a := by
  rw [Assignment.extend]
  have hnone : List.lookup k i.reverse = none := by
    rw [lookup_eq_none_iff]
    intro hc
    exact hki (keysOf_reverse.mp hc)
  rw [lookup_append_right hnone, Assignment.insert, lookup_cons, if_neg hkv]

theorem branch_sat {cnf cnfR cR : Cnf} {victim : Variable} {p : Polarity}
    {iR a : Assignment}
    (hassign : assign cnf [(victim, p)] = .Reduced cnfR)
    (hup : unit_propagation cnfR = .Continue cR iR)
    (hrec : ∀ c ∈ cR, ∃ l ∈ c, List.lookup l.var a = some l.polarity) :
    ∀ c ∈ cnf, ∃ l ∈ c,
      List.lookup l.var ((a.insert victim p).extend iR) = some l.polarity := by
  rw [unit_propagation] at hup
  rcases assign_Reduced cnf [(victim, p)] hassign with ⟨hR, _⟩
  have hvnot : victim ∉ varsFinset cnfR := by
    intro hc
    rw [hR] at hc
    have := (varsFinset_assignCnf [(victim, p)] cnf hc).2
    rw [lookup_cons, if_pos rfl] at this
    cases this
  have hkeysup := up_loop_keys cnfR [] hup
  have hkeys : ∀ k ∈ keysOf iR, k ∈ varsFinset cnfR := by
    intro k hk
    rcases hkeysup.2.2 k hk with hk2 | hk2
    · simp [keysOf] at hk2
    · exact hk2
  have hnd : (keysOf iR).Nodup := hkeysup.2.1 (by simp [keysOf])
  have huntouch := up_loop_untouched cnfR [] hup
  intro c hc
  rcases assignCnf_clause_cases (a := [(victim, p)]) hc
    with hnone | ⟨c2, hsome, hmem⟩
  · rcases assignClause_none_sat hnone with ⟨l, hl, hlk⟩
    rw [lookup_cons] at hlk
    by_cases hlv : l.var = victim
    · rw [if_pos hlv] at hlk
      injection hlk with hlk
      refine ⟨l, hl, ?_⟩
      rw [hlv, hlk]
      refine route_victim ?_
      intro hvk
      exact hvnot (hkeys victim hvk)
    · rw [if_neg hlv] at hlk
      cases hlk
  · rw [← hR] at hmem
    rcases up_loop_back cnfR [] hup c2 hmem with ⟨l, hl, hlk⟩ | ⟨c3, hc3, hsub⟩
    · exact ⟨l, (assignClause_some_mem [(victim, p)] c hsome hl).1, route_binding hnd hlk⟩
    · rcases hrec c3 hc3 with ⟨l, hl, hlk⟩
      have hlm : l ∈ c := (assignClause_some_mem [(victim, p)] c hsome (hsub l hl)).1
      have hvarsR : l.var ∈ varsFinset cR :=
        mem_varsFinset.mpr ⟨c3, hc3, l, hl, rfl⟩
      have hnotkeys : l.var ∉ keysOf iR :=
        lookup_eq_none_iff.mp (huntouch l.var hvarsR)
      have hnotvictim : l.var ≠ victim := by
        intro hlv
        exact hvnot (hlv ▸ up_loop_vars cnfR [] hup hvarsR)
      refine ⟨l, hlm, ?_⟩
      rw [route_rest hnotkeys hnotvictim]
      exact hlk

theorem solve_model_aux (n : Nat) :
    ∀ cnf : Cnf, (varsFinset cnf).card < n →
      (∀ victim A, solve_neg cnf victim = some (.Satisfied A) →
        ∀ c ∈ cnf, ∃ l ∈ c, List.lookup l.var A = some l.polarity) ∧
      (∀ vars A, solve_rec cnf vars = some (.Satisfied A) →
        ∀ c ∈ cnf, ∃ l ∈ c, List.lookup l.var A = some l.polarity) := by
  induction n with
  | zero => intro cnf hlt; omega
  | succ n ih =>
    intro cnf hlt
    have hneg : ∀ victim A, solve_neg cnf victim = some (.Satisfied A) →
        ∀ c ∈ cnf, ∃ l ∈ c, List.lookup l.var A = some l.polarity := by
      intro victim A hsol
      cases hassign : assign cnf [(victim, .Negative)] with
      | Unchanged c =>
        rw [solve_neg_eq_unch hassign] at hsol
        cases hsol
      | Reduced cnf2 =>
        cases hup : unit_propagation cnf2 with
        | Unsatisfiable =>
          rw [solve_neg_eq_upunsat hassign hup] at hsol
          simp at hsol
        | Continue c2 implies2 =>
          rw [solve_neg_eq_cont hassign hup] at hsol
          cases hrec : solve_rec c2 (all_variables c2) with
          | none => rw [hrec] at hsol; cases hsol
          | some m =>
            cases m with
            | Unsatisfiable => rw [hrec] at hsol; simp at hsol
            | Satisfied a =>
              rw [hrec] at hsol
              injection hsol with hsol
              injection hsol with hsol
              subst hsol
              have hmeas := solve_rec_measure hassign hup
              have hin := (ih c2 (by omega)).2 (all_variables c2) a hrec
              exact branch_sat hassign hup hin
    refine ⟨hneg, ?_⟩
    intro vars A hsol
    by_cases hnil : cnf = []
    · subst hnil
      intro c hc
      simp at hc
    cases vars with
    | nil =>
      rw [solve_rec_eq_novars hnil] at hsol
      cases hsol
    | cons victim rest =>
    cases hassign : assign cnf [(victim, .Positive)] with
    | Unchanged c =>
      rw [solve_rec_eq_unch hnil hassign] at hsol
      cases hsol
    | Reduced cnf1 =>
    cases hup : unit_propagation cnf1 with
    | Unsatisfiable =>
      rw [solve_rec_eq_upunsat hnil hassign hup] at hsol
      exact hneg victim A hsol
    | Continue c1 implies1 =>
      rw [solve_rec_eq_cont hnil hassign hup] at hsol
      cases hrec : solve_rec c1 (implies1.foldl (fun vs kv => vs.erase kv.1) rest) with
      | none => rw [hrec] at hsol; cases hsol
      | some m =>
        cases m with
        | Unsatisfiable =>
          rw [hrec] at hsol
          exact hneg victim A hsol
        | Satisfied a =>
          rw [hrec] at hsol
          injection hsol with hsol
          injection hsol with hsol
          subst hsol
          have hmeas := solve_rec_measure hassign hup
          have hin := (ih c1 (by omega)).2 _ a hrec
          exact branch_sat hassign hup hin

/-- C10: model soundness of the DPLL kernel — whenever `solve` returns
`Satisfied A`, every clause of the input CNF contains a literal whose
variable `A` maps to that literal's polarity. -/
theorem solve_Satisfied_sound {cnf : Cnf} {A : Assignment}
    (h : Cnf.solve cnf = some (.Satisfied A)) :
    ∀ c ∈ cnf, ∃ l ∈ c, List.lookup l.var A = some l.polarity :=
  (solve_model_aux ((varsFinset cnf).card + 1) cnf (by omega)).2 (all_variables cnf) A h

/-! # Part 4: correctness of the Tseitin compiler -/

theorem tseitin_loop_eq_nil (next : Variable) (clauses : List Clause) :
    tseitin_loop [] next clauses = some clauses := by
  rw [tseitin_loop]

theorem tseitin_loop_eq_var {v : Literal} {w : Variable} {rest : List (Literal × Formula)}
    (next : Variable) (clauses : List Clause) :
    tseitin_loop ((v, .Var w) :: rest) next clauses = none := by
  rw [tseitin_loop]

theorem tseitin_loop_eq_negation {v : Literal} {g : Formula} {rest : List (Literal × Formula)}
    (next : Variable) (clauses : List Clause) :
    tseitin_loop ((v, .Negation g) :: rest) next clauses = none := by
  rw [tseitin_loop]

theorem tseitin_loop_eq_conj {f0 f1 : Formula} {rest s1 s2 : List (Literal × Formula)}
    {next n1 n2 : Variable} {l0 l1 : Literal} {v : Literal} {clauses : List Clause}
    (h0 : wrap_formula f0 next rest = (l0, n1, s1))
    (h1 : wrap_formula f1 n1 s1 = (l1, n2, s2)) :
    tseitin_loop ((v, .Conjunction f0 f1) :: rest) next clauses =
      tseitin_loop s2 n2
        (clauses ++ [[v, l0.negate, l1.negate], [v.negate, l0], [v.negate, l1]]) := by
  rw [tseitin_loop]
  simp only [h0, h1]

theorem tseitin_loop_eq_disj {f0 f1 : Formula} {rest s1 s2 : List (Literal × Formula)}
    {next n1 n2 : Variable} {l0 l1 : Literal} {v : Literal} {clauses : List Clause}
    (h0 : wrap_formula f0 next rest = (l0, n1, s1))
    (h1 : wrap_formula f1 n1 s1 = (l1, n2, s2)) :
    tseitin_loop ((v, .Disjunction f0 f1) :: rest) next clauses =
      tseitin_loop s2 n2
        (clauses ++ [[v.negate, l0, l1], [v, l0.negate], [v, l1.negate]]) := by
  rw [tseitin_loop]
  simp only [h0, h1]

theorem tseitin_loop_eq_equiv {f0 f1 : Formula} {rest s1 s2 : List (Literal × Formula)}
    {next n1 n2 : Variable} {l0 l1 : Literal} {v : Literal} {clauses : List Clause}
    (h0 : wrap_formula f0 next rest = (l0, n1, s1))
    (h1 : wrap_formula f1 n1 s1 = (l1, n2, s2)) :
    tseitin_loop ((v, .Equivalence f0 f1) :: rest) next clauses =
      tseitin_loop s2 n2
        (clauses ++ [[v, l0.negate, l1.negate], [v, l0, l1],
          [v.negate, l0.negate, l1], [v.negate, l0, l1.negate]]) := by
  rw [tseitin_loop]
  simp only [h0, h1]

theorem tseitin_loop_eq_imp {f0 f1 : Formula} {rest s1 s2 : List (Literal × Formula)}
    {next n1 n2 : Variable} {l0 l1 : Literal} {v : Literal} {clauses : List Clause}
    (h0 : wrap_formula f0 next rest = (l0, n1, s1))
    (h1 : wrap_formula f1 n1 s1 = (l1, n2, s2)) :
    tseitin_loop ((v, .Implication f0 f1) :: rest) next clauses =
      tseitin_loop s2 n2
        (clauses ++ [[v, l0, l1], [v.negate, l0.negate, l1], [v, l1.negate]]) := by
  rw [tseitin_loop]
  simp only [h0, h1]

/-- Interpretation of a polarity as an operation on booleans (an even stack
of negations is the identity, an odd one is negation). -/
def Polarity.apply : Polarity → Bool → Bool
  | .Positive, b => b
  | .Negative, b => !b

theorem litHolds_negate {sg : Nat → Bool} {l : Literal} :
    litHolds sg l.negate = !(litHolds sg l) := by
  cases h : sg l.var <;> cases hp : l.polarity <;>
    simp [litHolds, Literal.negate, Polarity.negate, Polarity.toBool, h, hp]

theorem litHolds_positive {sg : Nat → Bool} {x : Variable} :
    litHolds sg (Literal.positive x) = sg x := by
  simp [litHolds, Literal.positive, Polarity.toBool]

theorem litHolds_negative {sg : Nat → Bool} {x : Variable} :
    litHolds sg (Literal.negative x) = !(sg x) := by
  cases h : sg x <;> simp [litHolds, Literal.negative, Polarity.toBool, h]

theorem encode_literal_eval {f : Formula} {l : Literal}
    (h : f.encode_literal = some l) (sg : Nat → Bool) :
    litHolds sg l = f.eval sg := by
  induction f generalizing l with
  | Var v =>
    simp [Formula.encode_literal] at h
    subst h
    simp [litHolds_positive, Formula.eval]
  | Negation g ih =>
    simp [Formula.encode_literal] at h
    rcases h with ⟨l0, hl0, rfl⟩
    rw [litHolds_negate, ih hl0]
    simp [Formula.eval]
  | Conjunction f0 f1 _ _ => simp [Formula.encode_literal] at h
  | Disjunction f0 f1 _ _ => simp [Formula.encode_literal] at h
  | Equivalence f0 f1 _ _ => simp [Formula.encode_literal] at h
  | Implication f0 f1 _ _ => simp [Formula.encode_literal] at h

theorem apply_negate (p : Polarity) (b : Bool) : (p.negate).apply b = !(p.apply b) := by
  cases p <;> simp [Polarity.negate, Polarity.apply]

theorem combine_negation_eval (f : Formula) (sg : Nat → Bool) :
    f.eval sg = (f.combine_negation).1.apply ((f.combine_negation).2.eval sg) := by
  induction f with
  | Negation g ih =>
    simp only [Formula.combine_negation, Formula.eval]
    rw [ih, apply_negate]
  | Var v => simp [Formula.combine_negation, Polarity.apply]
  | Conjunction f0 f1 _ _ => simp [Formula.combine_negation, Polarity.apply]
  | Disjunction f0 f1 _ _ => simp [Formula.combine_negation, Polarity.apply]
  | Equivalence f0 f1 _ _ => simp [Formula.combine_negation, Polarity.apply]
  | Implication f0 f1 _ _ => simp [Formula.combine_negation, Polarity.apply]

theorem wrap_formula_spec {f : Formula} {next n2 : Variable}
    {stack s2 : List (Literal × Formula)} {l : Literal}
    (h : wrap_formula f next stack = (l, n2, s2)) :
    (∀ e ∈ stack, e ∈ s2) ∧
    ∀ sg : Nat → Bool, (∀ e ∈ s2, litHolds sg e.1 = e.2.eval sg) →
      litHolds sg l = f.eval sg := by
  unfold wrap_formula at h
  cases hef : f.encode_literal with
  | some l0 =>
    rw [hef] at h
    injection h with h1 h2
    injection h2 with h2 h3
    subst h1
    subst h3
    exact ⟨fun e he => he, fun sg _ => encode_literal_eval hef sg⟩
  | none =>
    rw [hef] at h
    rcases hcn : f.combine_negation with ⟨p, g⟩
    rw [hcn] at h
    cases p with
    | Positive =>
      injection h with h1 h2
      injection h2 with h2 h3
      subst h1
      subst h3
      refine ⟨fun e he => by simp [he], fun sg hs => ?_⟩
      have hg := hs (Literal.positive next, g) (by simp)
      rw [combine_negation_eval f sg, hcn]
      simpa [Polarity.apply] using hg
    | Negative =>
      injection h with h1 h2
      injection h2 with h2 h3
      subst h1
      subst h3
      refine ⟨fun e he => by simp [he], fun sg hs => ?_⟩
      have hg := hs (Literal.positive next, g) (by simp)
      rw [combine_negation_eval f sg, hcn]
      simp only [litHolds_positive] at hg
      simp [Polarity.apply, litHolds_negative, hg]

theorem stackSize_cons (v : Literal) (f : Formula) (rest : List (Literal × Formula)) :
    stackSize ((v, f) :: rest) = f.size + stackSize rest := by
  simp [stackSize]

theorem cnfHolds_append {sg : Nat → Bool} {a b : Cnf} :
    cnfHolds sg (a ++ b) = (cnfHolds sg a && cnfHolds sg b) := by
  simp [cnfHolds]

theorem conj_clauses_bool {sg : Nat → Bool} {v l0 l1 : Literal}
    (hA : clauseHolds sg [v, l0.negate, l1.negate] = true)
    (hB : clauseHolds sg [v.negate, l0] = true)
    (hC : clauseHolds sg [v.negate, l1] = true) :
    litHolds sg v = (litHolds sg l0 && litHolds sg l1) := by
  simp only [clauseHolds, List.any_cons, List.any_nil, litHolds_negate,
    Bool.or_false, Bool.or_eq_true, Bool.not_eq_true'] at hA hB hC
  cases hbv : litHolds sg v <;> cases hb0 : litHolds sg l0 <;>
    cases hb1 : litHolds sg l1 <;> simp_all

theorem disj_clauses_bool {sg : Nat → Bool} {v l0 l1 : Literal}
    (hA : clauseHolds sg [v.negate, l0, l1] = true)
    (hB : clauseHolds sg [v, l0.negate] = true)
    (hC : clauseHolds sg [v, l1.negate] = true) :
    litHolds sg v = (litHolds sg l0 || litHolds sg l1) := by
  simp only [clauseHolds, List.any_cons, List.any_nil, litHolds_negate,
    Bool.or_false, Bool.or_eq_true, Bool.not_eq_true'] at hA hB hC
  cases hbv : litHolds sg v <;> cases hb0 : litHolds sg l0 <;>
    cases hb1 : litHolds sg l1 <;> simp_all

theorem equiv_clauses_bool {sg : Nat → Bool} {v l0 l1 : Literal}
    (hA : clauseHolds sg [v, l0.negate, l1.negate] = true)
    (hB : clauseHolds sg [v, l0, l1] = true)
    (hC : clauseHolds sg [v.negate, l0.negate, l1] = true)
    (hD : clauseHolds sg [v.negate, l0, l1.negate] = true) :
    litHolds sg v = (litHolds sg l0 == litHolds sg l1) := by
  simp only [clauseHolds, List.any_cons, List.any_nil, litHolds_negate,
    Bool.or_false, Bool.or_eq_true, Bool.not_eq_true'] at hA hB hC hD
  cases hbv : litHolds sg v <;> cases hb0 : litHolds sg l0 <;>
    cases hb1 : litHolds sg l1 <;> simp_all

theorem imp_clauses_bool {sg : Nat → Bool} {v l0 l1 : Literal}
    (hA : clauseHolds sg [v, l0, l1] = true)
    (hB : clauseHolds sg [v.negate, l0.negate, l1] = true)
    (hC : clauseHolds sg [v, l1.negate] = true) :
    litHolds sg v = (!(litHolds sg l0) || litHolds sg l1) := by
  simp only [clauseHolds, List.any_cons, List.any_nil, litHolds_negate,
    Bool.or_false, Bool.or_eq_true, Bool.not_eq_true'] at hA hB hC
  cases hbv : litHolds sg v <;> cases hb0 : litHolds sg l0 <;>
    cases hb1 : litHolds sg l1 <;> simp_all

theorem tseitin_loop_sound (n : Nat) :
    ∀ stack : List (Literal × Formula), stackSize stack < n →
    ∀ (next : Variable) (acc out : List Clause),
      tseitin_loop stack next acc = some out →
      ∀ sg : Nat → Bool, cnfHolds sg out = true →
        cnfHolds sg acc = true ∧ ∀ e ∈ stack, litHolds sg e.1 = e.2.eval sg := by
  induction n with
  | zero => intro stack hsz; omega
  | succ n ih =>
    intro stack hsz next acc out hloop sg hout
    match stack with
    | [] =>
      rw [tseitin_loop_eq_nil] at hloop
      injection hloop with hloop
      subst hloop
      exact ⟨hout, by simp⟩
    | (v, .Var w) :: rest =>
      rw [tseitin_loop_eq_var] at hloop
      cases hloop
    | (v, .Negation g) :: rest =>
      rw [tseitin_loop_eq_negation] at hloop
      cases hloop
    | (v, .Conjunction f0 f1) :: rest =>
      rcases h0 : wrap_formula f0 next rest with ⟨l0, n1, s1⟩
      rcases h1 : wrap_formula f1 n1 s1 with ⟨l1, n2, s2⟩
      rw [tseitin_loop_eq_conj h0 h1] at hloop
      have hsz0 : stackSize s1 ≤ f0.size + stackSize rest := by
        have := wrap_formula_stackSize f0 next rest
        rw [h0] at this
        simpa using this
      have hsz1 : stackSize s2 ≤ f1.size + stackSize s1 := by
        have := wrap_formula_stackSize f1 n1 s1
        rw [h1] at this
        simpa using this
      have hlt : stackSize s2 < n := by
        rw [stackSize_cons] at hsz
        simp only [Formula.size] at hsz
        omega
      obtain ⟨hacc2, hents⟩ := ih s2 hlt n2 _ out hloop sg hout
      rw [cnfHolds_append, Bool.and_eq_true] at hacc2
      obtain ⟨sub0, ev0⟩ := wrap_formula_spec h0
      obtain ⟨sub1, ev1⟩ := wrap_formula_spec h1
      have hent1 : ∀ e ∈ s1, litHolds sg e.1 = e.2.eval sg :=
        fun e he => hents e (sub1 e he)
      have hl0 : litHolds sg l0 = f0.eval sg := ev0 sg hent1
      have hl1 : litHolds sg l1 = f1.eval sg := ev1 sg hents
      refine ⟨hacc2.1, ?_⟩
      intro e he
      rcases List.mem_cons.mp he with rfl | hm
      · have hcl : clauseHolds sg [v, l0.negate, l1.negate] = true ∧
            clauseHolds sg [v.negate, l0] = true ∧
            clauseHolds sg [v.negate, l1] = true := by
          simpa [cnfHolds] using hacc2.2
        rcases hcl with ⟨hA, hB, hC⟩
        simp only [Formula.eval]
        rw [← hl0, ← hl1]
        exact conj_clauses_bool hA hB hC
      · exact hents e (sub1 e (sub0 e hm))
    | (v, .Disjunction f0 f1) :: rest =>
      rcases h0 : wrap_formula f0 next rest with ⟨l0, n1, s1⟩
      rcases h1 : wrap_formula f1 n1 s1 with ⟨l1, n2, s2⟩
      rw [tseitin_loop_eq_disj h0 h1] at hloop
      have hsz0 : stackSize s1 ≤ f0.size + stackSize rest := by
        have := wrap_formula_stackSize f0 next rest
        rw [h0] at this
        simpa using this
      have hsz1 : stackSize s2 ≤ f1.size + stackSize s1 := by
        have := wrap_formula_stackSize f1 n1 s1
        rw [h1] at this
        simpa using this
      have hlt : stackSize s2 < n := by
        rw [stackSize_cons] at hsz
        simp only [Formula.size] at hsz
        omega
      obtain ⟨hacc2, hents⟩ := ih s2 hlt n2 _ out hloop sg hout
      rw [cnfHolds_append, Bool.and_eq_true] at hacc2
      obtain ⟨sub0, ev0⟩ := wrap_formula_spec h0
      obtain ⟨sub1, ev1⟩ := wrap_formula_spec h1
      have hent1 : ∀ e ∈ s1, litHolds sg e.1 = e.2.eval sg :=
        fun e he => hents e (sub1 e he)
      have hl0 : litHolds sg l0 = f0.eval sg := ev0 sg hent1
      have hl1 : litHolds sg l1 = f1.eval sg := ev1 sg hents
      refine ⟨hacc2.1, ?_⟩
      intro e he
      rcases List.mem_cons.mp he with rfl | hm
      · have hcl : clauseHolds sg [v.negate, l0, l1] = true ∧
            clauseHolds sg [v, l0.negate] = true ∧
            clauseHolds sg [v, l1.negate] = true := by
          simpa [cnfHolds] using hacc2.2
        rcases hcl with ⟨hA, hB, hC⟩
        simp only [Formula.eval]
        rw [← hl0, ← hl1]
        exact disj_clauses_bool hA hB hC
      · exact hents e (sub1 e (sub0 e hm))
    | (v, .Equivalence f0 f1) :: rest =>
      rcases h0 : wrap_formula f0 next rest with ⟨l0, n1, s1⟩
      rcases h1 : wrap_formula f1 n1 s1 with ⟨l1, n2, s2⟩
      rw [tseitin_loop_eq_equiv h0 h1] at hloop
      have hsz0 : stackSize s1 ≤ f0.size + stackSize rest := by
        have := wrap_formula_stackSize f0 next rest
        rw [h0] at this
        simpa using this
      have hsz1 : stackSize s2 ≤ f1.size + stackSize s1 := by
        have := wrap_formula_stackSize f1 n1 s1
        rw [h1] at this
        simpa using this
      have hlt : stackSize s2 < n := by
        rw [stackSize_cons] at hsz
        simp only [Formula.size] at hsz
        omega
      obtain ⟨hacc2, hents⟩ := ih s2 hlt n2 _ out hloop sg hout
      rw [cnfHolds_append, Bool.and_eq_true] at hacc2
      obtain ⟨sub0, ev0⟩ := wrap_formula_spec h0
      obtain ⟨sub1, ev1⟩ := wrap_formula_spec h1
      have hent1 : ∀ e ∈ s1, litHolds sg e.1 = e.2.eval sg :=
        fun e he => hents e (sub1 e he)
      have hl0 : litHolds sg l0 = f0.eval sg := ev0 sg hent1
      have hl1 : litHolds sg l1 = f1.eval sg := ev1 sg hents
      refine ⟨hacc2.1, ?_⟩
      intro e he
      rcases List.mem_cons.mp he with rfl | hm
      · have hcl : clauseHolds sg [v, l0.negate, l1.negate] = true ∧
            clauseHolds sg [v, l0, l1] = true ∧
            clauseHolds sg [v.negate, l0.negate, l1] = true ∧
            clauseHolds sg [v.negate, l0, l1.negate] = true := by
          simpa [cnfHolds] using hacc2.2
        rcases hcl with ⟨hA, hB, hC, hD⟩
        simp only [Formula.eval]
        rw [← hl0, ← hl1]
        exact equiv_clauses_bool hA hB hC hD
      · exact hents e (sub1 e (sub0 e hm))
    | (v, .Implication f0 f1) :: rest =>
      rcases h0 : wrap_formula f0 next rest with ⟨l0, n1, s1⟩
      rcases h1 : wrap_formula f1 n1 s1 with ⟨l1, n2, s2⟩
      rw [tseitin_loop_eq_imp h0 h1] at hloop
      have hsz0 : stackSize s1 ≤ f0.size + stackSize rest := by
        have := wrap_formula_stackSize f0 next rest
        rw [h0] at this
        simpa using this
      have hsz1 : stackSize s2 ≤ f1.size + stackSize s1 := by
        have := wrap_formula_stackSize f1 n1 s1
        rw [h1] at this
        simpa using this
      have hlt : stackSize s2 < n := by
        rw [stackSize_cons] at hsz
        simp only [Formula.size] at hsz
        omega
      obtain ⟨hacc2, hents⟩ := ih s2 hlt n2 _ out hloop sg hout
      rw [cnfHolds_append, Bool.and_eq_true] at hacc2
      obtain ⟨sub0, ev0⟩ := wrap_formula_spec h0
      obtain ⟨sub1, ev1⟩ := wrap_formula_spec h1
      have hent1 : ∀ e ∈ s1, litHolds sg e.1 = e.2.eval sg :=
        fun e he => hents e (sub1 e he)
      have hl0 : litHolds sg l0 = f0.eval sg := ev0 sg hent1
      have hl1 : litHolds sg l1 = f1.eval sg := ev1 sg hents
      refine ⟨hacc2.1, ?_⟩
      intro e he
      rcases List.mem_cons.mp he with rfl | hm
      · have hcl : clauseHolds sg [v, l0, l1] = true ∧
            clauseHolds sg [v.negate, l0.negate, l1] = true ∧
            clauseHolds sg [v, l1.negate] = true := by
          simpa [cnfHolds] using hacc2.2
        rcases hcl with ⟨hA, hB, hC⟩
        simp only [Formula.eval]
        rw [← hl0, ← hl1]
        exact imp_clauses_bool hA hB hC
      · exact hents e (sub1 e (sub0 e hm))

/-- All variables of a formula lie strictly below a bound. -/
def Formula.varsBelow : Formula → Nat → Bool
  | .Var v, B => decide (v < B)
  | .Negation f, B => f.varsBelow B
  | .Conjunction f0 f1, B => f0.varsBelow B && f1.varsBelow B
  | .Disjunction f0 f1, B => f0.varsBelow B && f1.varsBelow B
  | .Equivalence f0 f1, B => f0.varsBelow B && f1.varsBelow B
  | .Implication f0 f1, B => f0.varsBelow B && f1.varsBelow B

/-- All variables of a clause lie strictly below a bound. -/
def clauseVarsBelow (c : Clause) (B : Nat) : Bool :=
  c.all (fun l => decide (l.var < B))

/-- All variables of a CNF lie strictly below a bound. -/
def cnfVarsBelow (cnf : Cnf) (B : Nat) : Bool :=
  cnf.all (clauseVarsBelow · B)

theorem maximum_variable_lt_iff (f : Formula) (B : Nat) :
    f.maximum_variable < B ↔ f.varsBelow B = true := by
  induction f with
  | Var v => simp [Formula.maximum_variable, Formula.varsBelow]
  | Negation g ih => simpa [Formula.maximum_variable, Formula.varsBelow] using ih
  | Conjunction f0 f1 ih0 ih1 =>
    simp [Formula.maximum_variable, Formula.varsBelow, ← ih0, ← ih1, Nat.max_lt]
  | Disjunction f0 f1 ih0 ih1 =>
    simp [Formula.maximum_variable, Formula.varsBelow, ← ih0, ← ih1, Nat.max_lt]
  | Equivalence f0 f1 ih0 ih1 =>
    simp [Formula.maximum_variable, Formula.varsBelow, ← ih0, ← ih1, Nat.max_lt]
  | Implication f0 f1 ih0 ih1 =>
    simp [Formula.maximum_variable, Formula.varsBelow, ← ih0, ← ih1, Nat.max_lt]

theorem varsBelow_mono {f : Formula} {B B2 : Nat} (hB : B ≤ B2)
    (h : f.varsBelow B = true) : f.varsBelow B2 = true := by
  induction f with
  | Var v =>
    simp [Formula.varsBelow] at h ⊢
    exact Nat.lt_of_lt_of_le h hB
  | Negation g ih => exact ih h
  | Conjunction f0 f1 ih0 ih1 =>
    simp [Formula.varsBelow] at h ⊢
    exact ⟨ih0 h.1, ih1 h.2⟩
  | Disjunction f0 f1 ih0 ih1 =>
    simp [Formula.varsBelow] at h ⊢
    exact ⟨ih0 h.1, ih1 h.2⟩
  | Equivalence f0 f1 ih0 ih1 =>
    simp [Formula.varsBelow] at h ⊢
    exact ⟨ih0 h.1, ih1 h.2⟩
  | Implication f0 f1 ih0 ih1 =>
    simp [Formula.varsBelow] at h ⊢
    exact ⟨ih0 h.1, ih1 h.2⟩

theorem clauseVarsBelow_mono {c : Clause} {B B2 : Nat} (hB : B ≤ B2)
    (h : clauseVarsBelow c B = true) : clauseVarsBelow c B2 = true := by
  simp [clauseVarsBelow] at h ⊢
  intro l hl
  exact Nat.lt_of_lt_of_le (h l hl) hB

theorem cnfVarsBelow_mono {cnf : Cnf} {B B2 : Nat} (hB : B ≤ B2)
    (h : cnfVarsBelow cnf B = true) : cnfVarsBelow cnf B2 = true := by
  simp [cnfVarsBelow] at h ⊢
  intro c hc
  exact clauseVarsBelow_mono hB (h c hc)

theorem cnfVarsBelow_append {a b : Cnf} {B : Nat} :
    cnfVarsBelow (a ++ b) B = (cnfVarsBelow a B && cnfVarsBelow b B) := by
  simp [cnfVarsBelow]

theorem eval_stable {f : Formula} {B : Nat} {sg sg2 : Nat → Bool}
    (hf : f.varsBelow B = true) (hag : ∀ k, k < B → sg2 k = sg k) :
    f.eval sg2 = f.eval sg := by
  induction f with
  | Var v =>
    simp [Formula.varsBelow] at hf
    simpa [Formula.eval] using hag v hf
  | Negation g ih => simp [Formula.eval, ih hf]
  | Conjunction f0 f1 ih0 ih1 =>
    simp [Formula.varsBelow] at hf
    simp [Formula.eval, ih0 hf.1, ih1 hf.2]
  | Disjunction f0 f1 ih0 ih1 =>
    simp [Formula.varsBelow] at hf
    simp [Formula.eval, ih0 hf.1, ih1 hf.2]
  | Equivalence f0 f1 ih0 ih1 =>
    simp [Formula.varsBelow] at hf
    simp [Formula.eval, ih0 hf.1, ih1 hf.2]
  | Implication f0 f1 ih0 ih1 =>
    simp [Formula.varsBelow] at hf
    simp [Formula.eval, ih0 hf.1, ih1 hf.2]

theorem litHolds_stable {l : Literal} {B : Nat} {sg sg2 : Nat → Bool}
    (hl : l.var < B) (hag : ∀ k, k < B → sg2 k = sg k) :
    litHolds sg2 l = litHolds sg l := by
  simp [litHolds, hag l.var hl]

theorem clauseHolds_stable {c : Clause} {B : Nat} {sg sg2 : Nat → Bool}
    (hc : clauseVarsBelow c B = true) (hag : ∀ k, k < B → sg2 k = sg k) :
    clauseHolds sg2 c = clauseHolds sg c := by
  simp only [clauseHolds]
  induction c with
  | nil => rfl
  | cons l ls ih =>
    simp only [clauseVarsBelow, List.all_cons, Bool.and_eq_true] at hc
    simp only [List.any_cons]
    rw [litHolds_stable (by simpa using hc.1) hag,
      ih (by simpa [clauseVarsBelow] using hc.2)]

theorem cnfHolds_stable {cnf : Cnf} {B : Nat} {sg sg2 : Nat → Bool}
    (hc : cnfVarsBelow cnf B = true) (hag : ∀ k, k < B → sg2 k = sg k) :
    cnfHolds sg2 cnf = cnfHolds sg cnf := by
  simp only [cnfHolds]
  induction cnf with
  | nil => rfl
  | cons c cs ih =>
    simp only [cnfVarsBelow, List.all_cons, Bool.and_eq_true] at hc
    simp only [List.all_cons]
    rw [clauseHolds_stable hc.1 hag, ih (by simpa [cnfVarsBelow] using hc.2)]

theorem encode_literal_var {f : Formula} {l : Literal} {B : Nat}
    (h : f.encode_literal = some l) (hf : f.varsBelow B = true) : l.var < B := by
  induction f generalizing l with
  | Var v =>
    simp [Formula.encode_literal] at h
    subst h
    simpa [Formula.varsBelow, Literal.positive] using hf
  | Negation g ih =>
    simp [Formula.encode_literal] at h
    rcases h with ⟨l0, hl0, rfl⟩
    have h2 : l0.var < B := ih hl0 hf
    simpa [Literal.negate] using h2
  | Conjunction f0 f1 _ _ => simp [Formula.encode_literal] at h
  | Disjunction f0 f1 _ _ => simp [Formula.encode_literal] at h
  | Equivalence f0 f1 _ _ => simp [Formula.encode_literal] at h
  | Implication f0 f1 _ _ => simp [Formula.encode_literal] at h

theorem combine_negation_varsBelow {f : Formula} {B : Nat} :
    (f.combine_negation).2.varsBelow B = f.varsBelow B := by
  induction f with
  | Negation g ih => simpa [Formula.combine_negation, Formula.varsBelow] using ih
  | Var v => rfl
  | Conjunction f0 f1 _ _ => rfl
  | Disjunction f0 f1 _ _ => rfl
  | Equivalence f0 f1 _ _ => rfl
  | Implication f0 f1 _ _ => rfl

/-- A formula whose top constructor is a binary operator (the only shape the
Tseitin work list may contain). -/
def isOp : Formula → Prop
  | .Var _ => False
  | .Negation _ => False
  | _ => True

theorem core_isOp {g : Formula} (h : g.encode_literal = none) :
    isOp (g.combine_negation).2 := by
  induction g with
  | Var v => simp [Formula.encode_literal] at h
  | Negation f ih =>
    simp [Formula.encode_literal] at h
    simpa [Formula.combine_negation] using ih h
  | Conjunction f0 f1 _ _ => trivial
  | Disjunction f0 f1 _ _ => trivial
  | Equivalence f0 f1 _ _ => trivial
  | Implication f0 f1 _ _ => trivial

theorem wrap_formula_isOp {f : Formula} {next n1 : Variable}
    {stack s1 : List (Literal × Formula)} {l : Literal}
    (h : wrap_formula f next stack = (l, n1, s1))
    (hstack : ∀ e ∈ stack, isOp e.2) : ∀ e ∈ s1, isOp e.2 := by
  unfold wrap_formula at h
  cases hef : f.encode_literal with
  | some l0 =>
    rw [hef] at h
    injection h with h1 h2
    injection h2 with h2 h3
    subst h3
    exact hstack
  | none =>
    rw [hef] at h
    rcases hcn : f.combine_negation with ⟨p, g⟩
    rw [hcn] at h
    have hop : isOp g := by
      have := core_isOp hef
      rw [hcn] at this
      exact this
    cases p with
    | Positive =>
      injection h with h1 h2
      injection h2 with h2 h3
      subst h3
      intro e he
      rcases List.mem_cons.mp he with rfl | hm
      · exact hop
      · exact hstack e hm
    | Negative =>
      injection h with h1 h2
      injection h2 with h2 h3
      subst h3
      intro e he
      rcases List.mem_cons.mp he with rfl | hm
      · exact hop
      · exact hstack e hm

theorem tseitin_loop_total (n : Nat) :
    ∀ stack : List (Literal × Formula), stackSize stack < n →
    ∀ (next : Variable) (acc : List Clause),
      (∀ e ∈ stack, isOp e.2) →
      ∃ out, tseitin_loop stack next acc = some out := by
  induction n with
  | zero => intro stack hsz; omega
  | succ n ih =>
    intro stack hsz next acc hops
    match stack with
    | [] => exact ⟨acc, tseitin_loop_eq_nil next acc⟩
    | (v, .Var w) :: rest =>
      exact absurd (hops (v, .Var w) (by simp)) (by simp [isOp])
    | (v, .Negation g) :: rest =>
      exact absurd (hops (v, .Negation g) (by simp)) (by simp [isOp])
    | (v, .Conjunction f0 f1) :: rest =>
      rcases h0 : wrap_formula f0 next rest with ⟨l0, n1, s1⟩
      rcases h1 : wrap_formula f1 n1 s1 with ⟨l1, n2, s2⟩
      have hsz0 : stackSize s1 ≤ f0.size + stackSize rest := by
        have := wrap_formula_stackSize f0 next rest
        rw [h0] at this; simpa using this
      have hsz1 : stackSize s2 ≤ f1.size + stackSize s1 := by
        have := wrap_formula_stackSize f1 n1 s1
        rw [h1] at this; simpa using this
      have hlt : stackSize s2 < n := by
        rw [stackSize_cons] at hsz
        simp only [Formula.size] at hsz
        omega
      have hops2 : ∀ e ∈ s2, isOp e.2 :=
        wrap_formula_isOp h1 (wrap_formula_isOp h0 (fun e he => hops e (by simp [he])))
      rcases ih s2 hlt n2
        (acc ++ [[v, l0.negate, l1.negate], [v.negate, l0], [v.negate, l1]]) hops2
        with ⟨out, hout⟩
      exact ⟨out, by rw [tseitin_loop_eq_conj h0 h1]; exact hout⟩
    | (v, .Disjunction f0 f1) :: rest =>
      rcases h0 : wrap_formula f0 next rest with ⟨l0, n1, s1⟩
      rcases h1 : wrap_formula f1 n1 s1 with ⟨l1, n2, s2⟩
      have hsz0 : stackSize s1 ≤ f0.size + stackSize rest := by
        have := wrap_formula_stackSize f0 next rest
        rw [h0] at this; simpa using this
      have hsz1 : stackSize s2 ≤ f1.size + stackSize s1 := by
        have := wrap_formula_stackSize f1 n1 s1
        rw [h1] at this; simpa using this
      have hlt : stackSize s2 < n := by
        rw [stackSize_cons] at hsz
        simp only [Formula.size] at hsz
        omega
      have hops2 : ∀ e ∈ s2, isOp e.2 :=
        wrap_formula_isOp h1 (wrap_formula_isOp h0 (fun e he => hops e (by simp [he])))
      rcases ih s2 hlt n2
        (acc ++ [[v.negate, l0, l1], [v, l0.negate], [v, l1.negate]]) hops2
        with ⟨out, hout⟩
      exact ⟨out, by rw [tseitin_loop_eq_disj h0 h1]; exact hout⟩
    | (v, .Equivalence f0 f1) :: rest =>
      rcases h0 : wrap_formula f0 next rest with ⟨l0, n1, s1⟩
      rcases h1 : wrap_formula f1 n1 s1 with ⟨l1, n2, s2⟩
      have hsz0 : stackSize s1 ≤ f0.size + stackSize rest := by
        have := wrap_formula_stackSize f0 next rest
        rw [h0] at this; simpa using this
      have hsz1 : stackSize s2 ≤ f1.size + stackSize s1 := by
        have := wrap_formula_stackSize f1 n1 s1
        rw [h1] at this; simpa using this
      have hlt : stackSize s2 < n := by
        rw [stackSize_cons] at hsz
        simp only [Formula.size] at hsz
        omega
      have hops2 : ∀ e ∈ s2, isOp e.2 :=
        wrap_formula_isOp h1 (wrap_formula_isOp h0 (fun e he => hops e (by simp [he])))
      rcases ih s2 hlt n2
        (acc ++ [[v, l0.negate, l1.negate], [v, l0, l1],
          [v.negate, l0.negate, l1], [v.negate, l0, l1.negate]]) hops2
        with ⟨out, hout⟩
      exact ⟨out, by rw [tseitin_loop_eq_equiv h0 h1]; exact hout⟩
    | (v, .Implication f0 f1) :: rest =>
      rcases h0 : wrap_formula f0 next rest with ⟨l0, n1, s1⟩
      rcases h1 : wrap_formula f1 n1 s1 with ⟨l1, n2, s2⟩
      have hsz0 : stackSize s1 ≤ f0.size + stackSize rest := by
        have := wrap_formula_stackSize f0 next rest
        rw [h0] at this; simpa using this
      have hsz1 : stackSize s2 ≤ f1.size + stackSize s1 := by
        have := wrap_formula_stackSize f1 n1 s1
        rw [h1] at this; simpa using this
      have hlt : stackSize s2 < n := by
        rw [stackSize_cons] at hsz
        simp only [Formula.size] at hsz
        omega
      have hops2 : ∀ e ∈ s2, isOp e.2 :=
        wrap_formula_isOp h1 (wrap_formula_isOp h0 (fun e he => hops e (by simp [he])))
      rcases ih s2 hlt n2
        (acc ++ [[v, l0, l1], [v.negate, l0.negate, l1], [v, l1.negate]]) hops2
        with ⟨out, hout⟩
      exact ⟨out, by rw [tseitin_loop_eq_imp h0 h1]; exact hout⟩

theorem negate_var (l : Literal) : (l.negate).var = l.var := rfl

theorem wrap_formula_complete {g : Formula} {next n1 : Variable}
    {stack s1 : List (Literal × Formula)} {l : Literal}
    (hw : wrap_formula g next stack = (l, n1, s1))
    (hstack : ∀ e ∈ stack, e.1.var < next ∧ e.2.varsBelow next = true)
    (hg : g.varsBelow next = true)
    (sg : Nat → Bool)
    (hsg : ∀ e ∈ stack, litHolds sg e.1 = e.2.eval sg) :
    ∃ sg1 : Nat → Bool,
      (∀ k, k < next → sg1 k = sg k) ∧
      next ≤ n1 ∧
      (∀ e ∈ s1, e.1.var < n1 ∧ e.2.varsBelow n1 = true) ∧
      (∀ e ∈ s1, litHolds sg1 e.1 = e.2.eval sg1) ∧
      litHolds sg1 l = g.eval sg1 ∧ l.var < n1 := by
  unfold wrap_formula at hw
  cases hef : g.encode_literal with
  | some l0 =>
    rw [hef] at hw
    injection hw with hw1 hw2
    injection hw2 with hw2 hw3
    subst hw1
    subst hw2
    subst hw3
    exact ⟨sg, fun k _ => rfl, Nat.le_refl next, hstack, hsg,
      encode_literal_eval hef sg, encode_literal_var hef hg⟩
  | none =>
    rw [hef] at hw
    rcases hcn : g.combine_negation with ⟨p, core⟩
    rw [hcn] at hw
    have hcoreVB : core.varsBelow next = true := by
      have := combine_negation_varsBelow (f := g) (B := next)
      rw [hcn] at this
      rw [← hg]
      exact this.symm ▸ rfl
    have hgeval : ∀ s : Nat → Bool, g.eval s = p.apply (core.eval s) := by
      intro s
      have := combine_negation_eval g s
      rw [hcn] at this
      exact this
    have hkey : ∀ q : Polarity,
        (l, n1, s1) = (⟨next, q⟩, next + 1, (Literal.positive next, core) :: stack) →
        ∃ sg1 : Nat → Bool,
          (∀ k, k < next → sg1 k = sg k) ∧
          next ≤ n1 ∧
          (∀ e ∈ s1, e.1.var < n1 ∧ e.2.varsBelow n1 = true) ∧
          (∀ e ∈ s1, litHolds sg1 e.1 = e.2.eval sg1) ∧
          (litHolds sg1 l = q.apply (core.eval sg1)) ∧ l.var < n1 := by
      intro q hq
      injection hq with hq1 hq2
      injection hq2 with hq2 hq3
      subst hq1
      subst hq2
      subst hq3
      refine ⟨Function.update sg next (core.eval sg), ?_, ?_, ?_, ?_, ?_, ?_⟩
      · intro k hk
        exact Function.update_noteq (Nat.ne_of_lt hk) _ sg
      · exact Nat.le_succ next
      · intro e he
        rcases List.mem_cons.mp he with rfl | hm
        · exact ⟨Nat.lt_succ_self next,
            varsBelow_mono (Nat.le_succ next) hcoreVB⟩
        · rcases hstack e hm with ⟨h1, h2⟩
          exact ⟨Nat.lt_of_lt_of_le h1 (Nat.le_succ next),
            varsBelow_mono (Nat.le_succ next) h2⟩
      · have hagree : ∀ k, k < next → Function.update sg next (core.eval sg) k = sg k :=
          fun k hk => Function.update_noteq (Nat.ne_of_lt hk) _ sg
        intro e he
        rcases List.mem_cons.mp he with rfl | hm
        · have hupd : Function.update sg next (core.eval sg) next = core.eval sg :=
            Function.update_same next _ sg
          have hstable : core.eval (Function.update sg next (core.eval sg)) = core.eval sg :=
            eval_stable hcoreVB hagree
          simp only [litHolds_positive, hupd, hstable]
        · rcases hstack e hm with ⟨h1, h2⟩
          rw [litHolds_stable h1 hagree, hsg e hm, eval_stable h2 hagree]
      · have hagree : ∀ k, k < next → Function.update sg next (core.eval sg) k = sg k :=
          fun k hk => Function.update_noteq (Nat.ne_of_lt hk) _ sg
        have hupd : Function.update sg next (core.eval sg) next = core.eval sg :=
          Function.update_same next _ sg
        have hstable : core.eval (Function.update sg next (core.eval sg)) = core.eval sg :=
          eval_stable hcoreVB hagree
        cases q <;> simp [litHolds, Polarity.toBool, Polarity.apply, hupd, hstable]
      · exact Nat.lt_succ_self next
    cases p with
    | Positive =>
      rcases hkey .Positive (by rw [← hw]; rfl) with ⟨sg1, a1, a2, a3, a4, a5, a6⟩
      refine ⟨sg1, a1, a2, a3, a4, ?_, a6⟩
      rw [hgeval sg1, a5]
    | Negative =>
      rcases hkey .Negative (by rw [← hw]; rfl) with ⟨sg1, a1, a2, a3, a4, a5, a6⟩
      refine ⟨sg1, a1, a2, a3, a4, ?_, a6⟩
      rw [hgeval sg1, a5]

theorem conj_clauses_intro {sg : Nat → Bool} {v l0 l1 : Literal}
    (h : litHolds sg v = (litHolds sg l0 && litHolds sg l1)) :
    clauseHolds sg [v, l0.negate, l1.negate] = true ∧
    clauseHolds sg [v.negate, l0] = true ∧
    clauseHolds sg [v.negate, l1] = true := by
  simp only [clauseHolds, List.any_cons, List.any_nil, litHolds_negate, Bool.or_false]
  cases hb0 : litHolds sg l0 <;> cases hb1 : litHolds sg l1 <;> simp_all

theorem disj_clauses_intro {sg : Nat → Bool} {v l0 l1 : Literal}
    (h : litHolds sg v = (litHolds sg l0 || litHolds sg l1)) :
    clauseHolds sg [v.negate, l0, l1] = true ∧
    clauseHolds sg [v, l0.negate] = true ∧
    clauseHolds sg [v, l1.negate] = true := by
  simp only [clauseHolds, List.any_cons, List.any_nil, litHolds_negate, Bool.or_false]
  cases hb0 : litHolds sg l0 <;> cases hb1 : litHolds sg l1 <;> simp_all

theorem equiv_clauses_intro {sg : Nat → Bool} {v l0 l1 : Literal}
    (h : litHolds sg v = (litHolds sg l0 == litHolds sg l1)) :
    clauseHolds sg [v, l0.negate, l1.negate] = true ∧
    clauseHolds sg [v, l0, l1] = true ∧
    clauseHolds sg [v.negate, l0.negate, l1] = true ∧
    clauseHolds sg [v.negate, l0, l1.negate] = true := by
  simp only [clauseHolds, List.any_cons, List.any_nil, litHolds_negate, Bool.or_false]
  cases hb0 : litHolds sg l0 <;> cases hb1 : litHolds sg l1 <;> simp_all

theorem imp_clauses_intro {sg : Nat → Bool} {v l0 l1 : Literal}
    (h : litHolds sg v = (!(litHolds sg l0) || litHolds sg l1)) :
    clauseHolds sg [v, l0, l1] = true ∧
    clauseHolds sg [v.negate, l0.negate, l1] = true ∧
    clauseHolds sg [v, l1.negate] = true := by
  simp only [clauseHolds, List.any_cons, List.any_nil, litHolds_negate, Bool.or_false]
  cases hb0 : litHolds sg l0 <;> cases hb1 : litHolds sg l1 <;> simp_all

theorem tseitin_loop_complete (n : Nat) :
    ∀ stack : List (Literal × Formula), stackSize stack < n →
    ∀ (next : Variable) (acc out : List Clause),
      tseitin_loop stack next acc = some out →
      (∀ e ∈ stack, e.1.var < next ∧ e.2.varsBelow next = true) →
      cnfVarsBelow acc next = true →
      ∀ sg : Nat → Bool, (∀ e ∈ stack, litHolds sg e.1 = e.2.eval sg) →
        cnfHolds sg acc = true →
        ∃ sg2, (∀ k, k < next → sg2 k = sg k) ∧ cnfHolds sg2 out = true := by
  induction n with
  | zero => intro stack hsz; omega
  | succ n ih =>
    intro stack hsz next acc out hloop hstackB haccB sg hsgs hacc
    match stack with
    | [] =>
      rw [tseitin_loop_eq_nil] at hloop
      injection hloop with hloop
      subst hloop
      exact ⟨sg, fun k _ => rfl, hacc⟩
    | (v, .Var w) :: rest =>
      rw [tseitin_loop_eq_var] at hloop
      cases hloop
    | (v, .Negation g) :: rest =>
      rw [tseitin_loop_eq_negation] at hloop
      cases hloop
    | (v, .Conjunction f0 f1) :: rest =>
      rcases h0 : wrap_formula f0 next rest with ⟨l0, n1, s1⟩
      rcases h1 : wrap_formula f1 n1 s1 with ⟨l1, n2, s2⟩
      rw [tseitin_loop_eq_conj h0 h1] at hloop
      have hsz0 : stackSize s1 ≤ f0.size + stackSize rest := by
        have := wrap_formula_stackSize f0 next rest
        rw [h0] at this; simpa using this
      have hsz1 : stackSize s2 ≤ f1.size + stackSize s1 := by
        have := wrap_formula_stackSize f1 n1 s1
        rw [h1] at this; simpa using this
      have hlt : stackSize s2 < n := by
        rw [stackSize_cons] at hsz
        simp only [Formula.size] at hsz
        omega
      have hv : v.var < next := (hstackB (v, .Conjunction f0 f1) (by simp)).1
      have hf01 : f0.varsBelow next = true ∧ f1.varsBelow next = true := by
        have := (hstackB (v, .Conjunction f0 f1) (by simp)).2
        simpa [Formula.varsBelow] using this
      have hrestB : ∀ e ∈ rest, e.1.var < next ∧ e.2.varsBelow next = true :=
        fun e he => hstackB e (by simp [he])
      have hsgrest : ∀ e ∈ rest, litHolds sg e.1 = e.2.eval sg :=
        fun e he => hsgs e (by simp [he])
      have hsghead : litHolds sg v = (Formula.Conjunction f0 f1).eval sg :=
        hsgs (v, .Conjunction f0 f1) (by simp)
      obtain ⟨sgA, hagA, hle0, hs1B, hs1ev, hl0ev, hl0var⟩ :=
        wrap_formula_complete h0 hrestB hf01.1 sg hsgrest
      obtain ⟨sgB, hagB, hle1, hs2B, hs2ev, hl1ev, hl1var⟩ :=
        wrap_formula_complete h1 hs1B (varsBelow_mono hle0 hf01.2) sgA hs1ev
      have hagAB : ∀ k, k < next → sgB k = sg k := fun k hk =>
        (hagB k (Nat.lt_of_lt_of_le hk hle0)).trans (hagA k hk)
      have hb0 : litHolds sgB l0 = f0.eval sgB := by
        rw [litHolds_stable hl0var hagB, hl0ev,
          ← eval_stable (varsBelow_mono hle0 hf01.1) hagB]
      have hb1 : litHolds sgB l1 = f1.eval sgB := hl1ev
      have hbv : litHolds sgB v = (litHolds sgB l0 && litHolds sgB l1) := by
        rw [litHolds_stable hv hagAB, hsghead, hb0, hb1]
        simp only [Formula.eval]
        rw [eval_stable hf01.1 hagAB, eval_stable hf01.2 hagAB]
      obtain ⟨hA, hB2, hC⟩ := conj_clauses_intro hbv
      have hvn2 : v.var < n2 := Nat.lt_of_lt_of_le hv (Nat.le_trans hle0 hle1)
      have hl0n2 : l0.var < n2 := Nat.lt_of_lt_of_le hl0var hle1
      have hacc2 : cnfHolds sgB (acc ++ [[v, l0.negate, l1.negate], [v.negate, l0], [v.negate, l1]]) = true := by
        rw [cnfHolds_append, Bool.and_eq_true]
        refine ⟨?_, ?_⟩
        · rw [cnfHolds_stable haccB hagAB]
          exact hacc
        · simp [cnfHolds, hA, hB2, hC]
      have hacc2B : cnfVarsBelow (acc ++ [[v, l0.negate, l1.negate], [v.negate, l0], [v.negate, l1]]) n2 = true := by
        rw [cnfVarsBelow_append, Bool.and_eq_true]
        refine ⟨cnfVarsBelow_mono (Nat.le_trans hle0 hle1) haccB, ?_⟩
        simp [cnfVarsBelow, clauseVarsBelow, negate_var, hvn2, hl0n2, hl1var]
      obtain ⟨sgC, hagC, houtC⟩ :=
        ih s2 hlt n2 _ out hloop hs2B hacc2B sgB hs2ev hacc2
      exact ⟨sgC, fun k hk =>
        (hagC k (Nat.lt_of_lt_of_le hk (Nat.le_trans hle0 hle1))).trans (hagAB k hk),
        houtC⟩
    | (v, .Disjunction f0 f1) :: rest =>
      rcases h0 : wrap_formula f0 next rest with ⟨l0, n1, s1⟩
      rcases h1 : wrap_formula f1 n1 s1 with ⟨l1, n2, s2⟩
      rw [tseitin_loop_eq_disj h0 h1] at hloop
      have hsz0 : stackSize s1 ≤ f0.size + stackSize rest := by
        have := wrap_formula_stackSize f0 next rest
        rw [h0] at this; simpa using this
      have hsz1 : stackSize s2 ≤ f1.size + stackSize s1 := by
        have := wrap_formula_stackSize f1 n1 s1
        rw [h1] at this; simpa using this
      have hlt : stackSize s2 < n := by
        rw [stackSize_cons] at hsz
        simp only [Formula.size] at hsz
        omega
      have hv : v.var < next := (hstackB (v, .Disjunction f0 f1) (by simp)).1
      have hf01 : f0.varsBelow next = true ∧ f1.varsBelow next = true := by
        have := (hstackB (v, .Disjunction f0 f1) (by simp)).2
        simpa [Formula.varsBelow] using this
      have hrestB : ∀ e ∈ rest, e.1.var < next ∧ e.2.varsBelow next = true :=
        fun e he => hstackB e (by simp [he])
      have hsgrest : ∀ e ∈ rest, litHolds sg e.1 = e.2.eval sg :=
        fun e he => hsgs e (by simp [he])
      have hsghead : litHolds sg v = (Formula.Disjunction f0 f1).eval sg :=
        hsgs (v, .Disjunction f0 f1) (by simp)
      obtain ⟨sgA, hagA, hle0, hs1B, hs1ev, hl0ev, hl0var⟩ :=
        wrap_formula_complete h0 hrestB hf01.1 sg hsgrest
      obtain ⟨sgB, hagB, hle1, hs2B, hs2ev, hl1ev, hl1var⟩ :=
        wrap_formula_complete h1 hs1B (varsBelow_mono hle0 hf01.2) sgA hs1ev
      have hagAB : ∀ k, k < next → sgB k = sg k := fun k hk =>
        (hagB k (Nat.lt_of_lt_of_le hk hle0)).trans (hagA k hk)
      have hb0 : litHolds sgB l0 = f0.eval sgB := by
        rw [litHolds_stable hl0var hagB, hl0ev,
          ← eval_stable (varsBelow_mono hle0 hf01.1) hagB]
      have hb1 : litHolds sgB l1 = f1.eval sgB := hl1ev
      have hbv : litHolds sgB v = (litHolds sgB l0 || litHolds sgB l1) := by
        rw [litHolds_stable hv hagAB, hsghead, hb0, hb1]
        simp only [Formula.eval]
        rw [eval_stable hf01.1 hagAB, eval_stable hf01.2 hagAB]
      obtain ⟨hA, hB2, hC⟩ := disj_clauses_intro hbv
      have hvn2 : v.var < n2 := Nat.lt_of_lt_of_le hv (Nat.le_trans hle0 hle1)
      have hl0n2 : l0.var < n2 := Nat.lt_of_lt_of_le hl0var hle1
      have hacc2 : cnfHolds sgB (acc ++ [[v.negate, l0, l1], [v, l0.negate], [v, l1.negate]]) = true := by
        rw [cnfHolds_append, Bool.and_eq_true]
        refine ⟨?_, ?_⟩
        · rw [cnfHolds_stable haccB hagAB]
          exact hacc
        · simp [cnfHolds, hA, hB2, hC]
      have hacc2B : cnfVarsBelow (acc ++ [[v.negate, l0, l1], [v, l0.negate], [v, l1.negate]]) n2 = true := by
        rw [cnfVarsBelow_append, Bool.and_eq_true]
        refine ⟨cnfVarsBelow_mono (Nat.le_trans hle0 hle1) haccB, ?_⟩
        simp [cnfVarsBelow, clauseVarsBelow, negate_var, hvn2, hl0n2, hl1var]
      obtain ⟨sgC, hagC, houtC⟩ :=
        ih s2 hlt n2 _ out hloop hs2B hacc2B sgB hs2ev hacc2
      exact ⟨sgC, fun k hk =>
        (hagC k (Nat.lt_of_lt_of_le hk (Nat.le_trans hle0 hle1))).trans (hagAB k hk),
        houtC⟩
    | (v, .Equivalence f0 f1) :: rest =>
      rcases h0 : wrap_formula f0 next rest with ⟨l0, n1, s1⟩
      rcases h1 : wrap_formula f1 n1 s1 with ⟨l1, n2, s2⟩
      rw [tseitin_loop_eq_equiv h0 h1] at hloop
      have hsz0 : stackSize s1 ≤ f0.size + stackSize rest := by
        have := wrap_formula_stackSize f0 next rest
        rw [h0] at this; simpa using this
      have hsz1 : stackSize s2 ≤ f1.size + stackSize s1 := by
        have := wrap_formula_stackSize f1 n1 s1
        rw [h1] at this; simpa using this
      have hlt : stackSize s2 < n := by
        rw [stackSize_cons] at hsz
        simp only [Formula.size] at hsz
        omega
      have hv : v.var < next := (hstackB (v, .Equivalence f0 f1) (by simp)).1
      have hf01 : f0.varsBelow next = true ∧ f1.varsBelow next = true := by
        have := (hstackB (v, .Equivalence f0 f1) (by simp)).2
        simpa [Formula.varsBelow] using this
      have hrestB : ∀ e ∈ rest, e.1.var < next ∧ e.2.varsBelow next = true :=
        fun e he => hstackB e (by simp [he])
      have hsgrest : ∀ e ∈ rest, litHolds sg e.1 = e.2.eval sg :=
        fun e he => hsgs e (by simp [he])
      have hsghead : litHolds sg v = (Formula.Equivalence f0 f1).eval sg :=
        hsgs (v, .Equivalence f0 f1) (by simp)
      obtain ⟨sgA, hagA, hle0, hs1B, hs1ev, hl0ev, hl0var⟩ :=
        wrap_formula_complete h0 hrestB hf01.1 sg hsgrest
      obtain ⟨sgB, hagB, hle1, hs2B, hs2ev, hl1ev, hl1var⟩ :=
        wrap_formula_complete h1 hs1B (varsBelow_mono hle0 hf01.2) sgA hs1ev
      have hagAB : ∀ k, k < next → sgB k = sg k := fun k hk =>
        (hagB k (Nat.lt_of_lt_of_le hk hle0)).trans (hagA k hk)
      have hb0 : litHolds sgB l0 = f0.eval sgB := by
        rw [litHolds_stable hl0var hagB, hl0ev,
          ← eval_stable (varsBelow_mono hle0 hf01.1) hagB]
      have hb1 : litHolds sgB l1 = f1.eval sgB := hl1ev
      have hbv : litHolds sgB v = (litHolds sgB l0 == litHolds sgB l1) := by
        rw [litHolds_stable hv hagAB, hsghead, hb0, hb1]
        simp only [Formula.eval]
        rw [eval_stable hf01.1 hagAB, eval_stable hf01.2 hagAB]
      obtain ⟨hA, hB2, hC, hD⟩ := equiv_clauses_intro hbv
      have hvn2 : v.var < n2 := Nat.lt_of_lt_of_le hv (Nat.le_trans hle0 hle1)
      have hl0n2 : l0.var < n2 := Nat.lt_of_lt_of_le hl0var hle1
      have hacc2 : cnfHolds sgB (acc ++ [[v, l0.negate, l1.negate], [v, l0, l1], [v.negate, l0.negate, l1], [v.negate, l0, l1.negate]]) = true := by
        rw [cnfHolds_append, Bool.and_eq_true]
        refine ⟨?_, ?_⟩
        · rw [cnfHolds_stable haccB hagAB]
          exact hacc
        · simp [cnfHolds, hA, hB2, hC, hD]
      have hacc2B : cnfVarsBelow (acc ++ [[v, l0.negate, l1.negate], [v, l0, l1], [v.negate, l0.negate, l1], [v.negate, l0, l1.negate]]) n2 = true := by
        rw [cnfVarsBelow_append, Bool.and_eq_true]
        refine ⟨cnfVarsBelow_mono (Nat.le_trans hle0 hle1) haccB, ?_⟩
        simp [cnfVarsBelow, clauseVarsBelow, negate_var, hvn2, hl0n2, hl1var]
      obtain ⟨sgC, hagC, houtC⟩ :=
        ih s2 hlt n2 _ out hloop hs2B hacc2B sgB hs2ev hacc2
      exact ⟨sgC, fun k hk =>
        (hagC k (Nat.lt_of_lt_of_le hk (Nat.le_trans hle0 hle1))).trans (hagAB k hk),
        houtC⟩
    | (v, .Implication f0 f1) :: rest =>
      rcases h0 : wrap_formula f0 next rest with ⟨l0, n1, s1⟩
      rcases h1 : wrap_formula f1 n1 s1 with ⟨l1, n2, s2⟩
      rw [tseitin_loop_eq_imp h0 h1] at hloop
      have hsz0 : stackSize s1 ≤ f0.size + stackSize rest := by
        have := wrap_formula_stackSize f0 next rest
        rw [h0] at this; simpa using this
      have hsz1 : stackSize s2 ≤ f1.size + stackSize s1 := by
        have := wrap_formula_stackSize f1 n1 s1
        rw [h1] at this; simpa using this
      have hlt : stackSize s2 < n := by
        rw [stackSize_cons] at hsz
        simp only [Formula.size] at hsz
        omega
      have hv : v.var < next := (hstackB (v, .Implication f0 f1) (by simp)).1
      have hf01 : f0.varsBelow next = true ∧ f1.varsBelow next = true := by
        have := (hstackB (v, .Implication f0 f1) (by simp)).2
        simpa [Formula.varsBelow] using this
      have hrestB : ∀ e ∈ rest, e.1.var < next ∧ e.2.varsBelow next = true :=
        fun e he => hstackB e (by simp [he])
      have hsgrest : ∀ e ∈ rest, litHolds sg e.1 = e.2.eval sg :=
        fun e he => hsgs e (by simp [he])
      have hsghead : litHolds sg v = (Formula.Implication f0 f1).eval sg :=
        hsgs (v, .Implication f0 f1) (by simp)
      obtain ⟨sgA, hagA, hle0, hs1B, hs1ev, hl0ev, hl0var⟩ :=
        wrap_formula_complete h0 hrestB hf01.1 sg hsgrest
      obtain ⟨sgB, hagB, hle1, hs2B, hs2ev, hl1ev, hl1var⟩ :=
        wrap_formula_complete h1 hs1B (varsBelow_mono hle0 hf01.2) sgA hs1ev
      have hagAB : ∀ k, k < next → sgB k = sg k := fun k hk =>
        (hagB k (Nat.lt_of_lt_of_le hk hle0)).trans (hagA k hk)
      have hb0 : litHolds sgB l0 = f0.eval sgB := by
        rw [litHolds_stable hl0var hagB, hl0ev,
          ← eval_stable (varsBelow_mono hle0 hf01.1) hagB]
      have hb1 : litHolds sgB l1 = f1.eval sgB := hl1ev
      have hbv : litHolds sgB v = (!(litHolds sgB l0) || litHolds sgB l1) := by
        rw [litHolds_stable hv hagAB, hsghead, hb0, hb1]
        simp only [Formula.eval]
        rw [eval_stable hf01.1 hagAB, eval_stable hf01.2 hagAB]
      obtain ⟨hA, hB2, hC⟩ := imp_clauses_intro hbv
      have hvn2 : v.var < n2 := Nat.lt_of_lt_of_le hv (Nat.le_trans hle0 hle1)
      have hl0n2 : l0.var < n2 := Nat.lt_of_lt_of_le hl0var hle1
      have hacc2 : cnfHolds sgB (acc ++ [[v, l0, l1], [v.negate, l0.negate, l1], [v, l1.negate]]) = true := by
        rw [cnfHolds_append, Bool.and_eq_true]
        refine ⟨?_, ?_⟩
        · rw [cnfHolds_stable haccB hagAB]
          exact hacc
        · simp [cnfHolds, hA, hB2, hC]
      have hacc2B : cnfVarsBelow (acc ++ [[v, l0, l1], [v.negate, l0.negate, l1], [v, l1.negate]]) n2 = true := by
        rw [cnfVarsBelow_append, Bool.and_eq_true]
        refine ⟨cnfVarsBelow_mono (Nat.le_trans hle0 hle1) haccB, ?_⟩
        simp [cnfVarsBelow, clauseVarsBelow, negate_var, hvn2, hl0n2, hl1var]
      obtain ⟨sgC, hagC, houtC⟩ :=
        ih s2 hlt n2 _ out hloop hs2B hacc2B sgB hs2ev hacc2
      exact ⟨sgC, fun k hk =>
        (hagC k (Nat.lt_of_lt_of_le hk (Nat.le_trans hle0 hle1))).trans (hagAB k hk),
        houtC⟩

/-- C2: Tseitin equisatisfiability — for every `Formula` and every base
strictly above its maximum variable, the encoding succeeds and is
satisfiable exactly when the formula is. -/
theorem tseitin_encode_equisat (f : Formula) (B : Variable)
    (hB : f.maximum_variable < B) :
    ∃ C, f.tseitin_encode B = some C ∧ (f.satisfiable ↔ cnfSatisfiable C) := by
  have hvb : f.varsBelow B = true := (maximum_variable_lt_iff f B).mp hB
  unfold Formula.tseitin_encode
  cases hef : f.encode_literal with
  | some l =>
    refine ⟨[[l]], rfl, ?_⟩
    constructor
    · rintro ⟨sg, hsg⟩
      refine ⟨sg, ?_⟩
      simp [cnfHolds, clauseHolds]
      rw [encode_literal_eval hef sg]
      exact hsg
    · rintro ⟨sg, hsg⟩
      refine ⟨sg, ?_⟩
      simp [cnfHolds, clauseHolds] at hsg
      rw [← encode_literal_eval hef sg]
      exact hsg
  | none =>
    rcases hw : wrap_formula f B [] with ⟨l, next1, stack1⟩
    have hops : ∀ e ∈ stack1, isOp e.2 :=
      wrap_formula_isOp hw (fun e he => by simp at he)
    obtain ⟨out, hout⟩ :=
      tseitin_loop_total (stackSize stack1 + 1) stack1 (by omega) next1 [[l]] hops
    refine ⟨out, hout, ?_, ?_⟩
    · rintro ⟨sg, hsg⟩
      obtain ⟨sg1, hag1, hle1, hs1B, hs1ev, hlev, hlvar⟩ :=
        wrap_formula_complete hw (fun e he => by simp at he) hvb sg
          (fun e he => by simp at he)
      have hroot : cnfHolds sg1 [[l]] = true := by
        simp [cnfHolds, clauseHolds]
        rw [hlev, eval_stable hvb hag1]
        exact hsg
      have haccB : cnfVarsBelow [[l]] next1 = true := by
        simp [cnfVarsBelow, clauseVarsBelow, hlvar]
      obtain ⟨sg2, _, hsg2⟩ :=
        tseitin_loop_complete (stackSize stack1 + 1) stack1 (by omega) next1 [[l]]
          out hout hs1B haccB sg1 hs1ev hroot
      exact ⟨sg2, hsg2⟩
    · rintro ⟨sg, hsg⟩
      obtain ⟨hroot, hents⟩ :=
        tseitin_loop_sound (stackSize stack1 + 1) stack1 (by omega) next1 [[l]]
          out hout sg hsg
      refine ⟨sg, ?_⟩
      rw [← (wrap_formula_spec hw).2 sg hents]
      simpa [cnfHolds, clauseHolds] using hroot

/-! # Part 5: CNF normalisation (`Cnf::normalize`, src/tinysat/src/lib.rs) -/

/-- The per-literal step of `Cnf::normalize`: look the variable up in the
index map, inserting it with the next free index on a miss, and emit the
signed index.  The state is the pair (map, next_index). -/
def normLit (st : List (Variable × Nat) × Nat) (l : Literal) :
    (List (Variable × Nat) × Nat) × Int :=
  let r :=
    match List.lookup l.var st.1 with
    | some i => (st, i)
    | none => (((l.var, st.2) :: st.1, st.2 + 1), st.2)
  (r.1, match l.polarity with
        | .Positive => (r.2 : Int)
        | .Negative => -(r.2 : Int))

/-- The literal loop of `Cnf::normalize` over one clause. -/
def normClause (st : List (Variable × Nat) × Nat) :
    Clause → (List (Variable × Nat) × Nat) × List Int
  | [] => (st, [])
  | l :: ls =>
    let r := normLit st l
    let rest := normClause r.1 ls
    (rest.1, r.2 :: rest.2)

/-- The clause loop of `Cnf::normalize` (`filter_map`, dropping empty
clauses without touching the index map). -/
def normCnf (st : List (Variable × Nat) × Nat) :
    List Clause → (List (Variable × Nat) × Nat) × List (List Int)
  | [] => (st, [])
  | c :: cs =>
    if c = [] then normCnf st cs
    else
      let r := normClause st c
      let rest := normCnf r.1 cs
      (rest.1, r.2 :: rest.2)

/-- The final `vec![Variable(0); next_index]` filled from the map (index 0
stays the garbage `Variable(0)`). -/
def buildVarsVec (map : List (Variable × Nat)) (next : Nat) : List Variable :=
  map.foldl (fun vec kv => vec.set kv.2 kv.1) (List.replicate next 0)

/-- `pub fn normalize(&self) -> (Vec<Variable>, Vec<Vec<i32>>)`. -/
def Cnf.normalize (cnf : Cnf) : List Variable × List (List Int) :=
  let r := normCnf ([], 1) cnf
  (buildVarsVec r.1.1 r.1.2, r.2)

/-- Modelled from the spec (the reconstruction the round-trip claim talks
about, not code of the repository): map each signed index i back to the
literal `(vars[abs i], sign i)`. -/
def reconstruct (vars : List Variable) (clauses : List (List Int)) : Cnf :=
  clauses.map (fun c => c.map (fun i : Int =>
    { var := vars.getD i.natAbs 0,
      polarity := if 0 < i then Polarity.Positive else Polarity.Negative }))

/-- Well-formedness of a normalisation state: the next index is at least 1,
every assigned index is in [1, next), and assigned indices are distinct. -/
def StOk (st : List (Variable × Nat) × Nat) : Prop :=
  1 ≤ st.2 ∧ (∀ kv ∈ st.1, 1 ≤ kv.2 ∧ kv.2 < st.2) ∧ (st.1.map Prod.snd).Nodup

/-- The signed integer matches the literal relative to an index map. -/
def IntMatches (M : List (Variable × Nat)) (l : Literal) (i : Int) : Prop :=
  ∃ idx, List.lookup l.var M = some idx ∧ 1 ≤ idx ∧
    i = match l.polarity with
        | .Positive => (idx : Int)
        | .Negative => -(idx : Int)

theorem lookup_to_mem {k : Variable} {i : Nat} {M : List (Variable × Nat)}
    (h : List.lookup k M = some i) : (k, i) ∈ M := by
  induction M with
  | nil => simp [List.lookup] at h
  | cons kv rest ih =>
    rcases kv with ⟨v, j⟩
    rw [lookup_cons] at h
    by_cases hkv : k = v
    · rw [if_pos hkv] at h
      injection h with h
      subst h
      subst hkv
      simp
    · rw [if_neg hkv] at h
      simp [ih h]

theorem lookup_preserve_cons {M : List (Variable × Nat)} {v : Variable} {n : Nat}
    (hfresh : List.lookup v M = none) :
    ∀ k i, List.lookup k M = some i → List.lookup k ((v, n) :: M) = some i := by
  intro k i hk
  by_cases hkv : k = v
  · subst hkv
    rw [hfresh] at hk
    cases hk
  · have hb : (k == v) = false := by simp [hkv]
    simp [List.lookup, hb]
    exact hk

theorem normLit_spec (st : List (Variable × Nat) × Nat) (l : Literal) (hok : StOk st) :
    StOk (normLit st l).1 ∧ st.2 ≤ (normLit st l).1.2 ∧
    (∀ k i, List.lookup k st.1 = some i → List.lookup k (normLit st l).1.1 = some i) ∧
    IntMatches (normLit st l).1.1 l (normLit st l).2 := by
  unfold normLit
  cases hl : List.lookup l.var st.1 with
  | some i =>
    simp only
    have hmem := lookup_to_mem hl
    have hbounds := hok.2.1 (l.var, i) hmem
    exact ⟨hok, Nat.le_refl _, fun k j hk => hk, i, hl, hbounds.1, rfl⟩
  | none =>
    simp only
    have hfresh : ∀ kv ∈ st.1, kv.2 ≠ st.2 := by
      intro kv hkv
      have := (hok.2.1 kv hkv).2
      omega
    refine ⟨⟨Nat.le_succ_of_le hok.1, ?_, ?_⟩, Nat.le_succ _,
      lookup_preserve_cons hl, ?_⟩
    · intro kv hkv
      rcases List.mem_cons.mp hkv with rfl | hm
      · exact ⟨hok.1, Nat.lt_succ_self _⟩
      · have := hok.2.1 kv hm
        exact ⟨this.1, by omega⟩
    · simp only [List.map_cons, List.nodup_cons]
      refine ⟨?_, hok.2.2⟩
      intro hc
      rcases List.mem_map.mp hc with ⟨kv, hkv, hv⟩
      exact hfresh kv hkv hv
    · exact ⟨st.2, by simp [List.lookup], hok.1, rfl⟩

theorem IntMatches_mono {M1 M2 : List (Variable × Nat)} {l : Literal} {i : Int}
    (hpres : ∀ k j, List.lookup k M1 = some j → List.lookup k M2 = some j)
    (h : IntMatches M1 l i) : IntMatches M2 l i := by
  rcases h with ⟨idx, h1, h2, h3⟩
  exact ⟨idx, hpres _ _ h1, h2, h3⟩

theorem normClause_spec :
    ∀ (c : Clause) (st : List (Variable × Nat) × Nat), StOk st →
      StOk (normClause st c).1 ∧ st.2 ≤ (normClause st c).1.2 ∧
      (∀ k i, List.lookup k st.1 = some i →
        List.lookup k (normClause st c).1.1 = some i) ∧
      List.Forall₂ (IntMatches (normClause st c).1.1) c (normClause st c).2 := by
  intro c
  induction c with
  | nil =>
    intro st hok
    exact ⟨hok, Nat.le_refl _, fun k i hk => hk, List.Forall₂.nil⟩
  | cons l ls ih =>
    intro st hok
    obtain ⟨hok1, hle1, hpres1, hmatch1⟩ := normLit_spec st l hok
    obtain ⟨hok2, hle2, hpres2, hmatch2⟩ := ih (normLit st l).1 hok1
    simp only [normClause]
    refine ⟨hok2, Nat.le_trans hle1 hle2, fun k i hk => hpres2 k i (hpres1 k i hk), ?_⟩
    exact List.Forall₂.cons (IntMatches_mono hpres2 hmatch1) hmatch2

theorem normCnf_spec :
    ∀ (cnf : List Clause) (st : List (Variable × Nat) × Nat), StOk st →
      StOk (normCnf st cnf).1 ∧ st.2 ≤ (normCnf st cnf).1.2 ∧
      (∀ k i, List.lookup k st.1 = some i →
        List.lookup k (normCnf st cnf).1.1 = some i) ∧
      ((∀ c ∈ cnf, c ≠ []) →
        List.Forall₂ (fun c ints => List.Forall₂ (IntMatches (normCnf st cnf).1.1) c ints)
          cnf (normCnf st cnf).2) := by
  intro cnf
  induction cnf with
  | nil =>
    intro st hok
    exact ⟨hok, Nat.le_refl _, fun k i hk => hk, fun _ => List.Forall₂.nil⟩
  | cons c cs ih =>
    intro st hok
    by_cases hc : c = []
    · obtain ⟨hok2, hle2, hpres2, hmatch2⟩ := ih st hok
      simp only [normCnf, if_pos hc]
      refine ⟨hok2, hle2, hpres2, fun hne => ?_⟩
      exact absurd hc (hne c (by simp))
    · obtain ⟨hok1, hle1, hpres1, hmatch1⟩ := normClause_spec c st hok
      obtain ⟨hok2, hle2, hpres2, hmatch2⟩ := ih (normClause st c).1 hok1
      simp only [normCnf, if_neg hc]
      refine ⟨hok2, Nat.le_trans hle1 hle2,
        fun k i hk => hpres2 k i (hpres1 k i hk), fun hne => ?_⟩
      refine List.Forall₂.cons ?_ (hmatch2 (fun c2 hc2 => hne c2 (by simp [hc2])))
      exact hmatch1.imp (fun a b hm => IntMatches_mono hpres2 hm)

theorem getD_set_self {vec : List Variable} {i : Nat} {x : Variable}
    (h : i < vec.length) : (vec.set i x).getD i 0 = x := by
  induction vec generalizing i with
  | nil => simp at h
  | cons y ys ih =>
    cases i with
    | zero => simp
    | succ j =>
      simp only [List.set_cons_succ, List.getD_cons_succ]
      exact ih (by simpa using h)

theorem getD_set_ne {vec : List Variable} {i j : Nat} {x : Variable}
    (h : i ≠ j) : (vec.set i x).getD j 0 = vec.getD j 0 := by
  induction vec generalizing i j with
  | nil => simp
  | cons y ys ih =>
    cases i with
    | zero =>
      cases j with
      | zero => exact absurd rfl h
      | succ j2 => simp
    | succ i2 =>
      cases j with
      | zero => simp
      | succ j2 =>
        simp only [List.set_cons_succ, List.getD_cons_succ]
        exact ih (by omega)

theorem foldl_set_preserve {l : List (Variable × Nat)} {vec : List Variable} {j : Nat}
    (hj : ∀ kv ∈ l, kv.2 ≠ j) :
    (l.foldl (fun v p => v.set p.2 p.1) vec).getD j 0 = vec.getD j 0 := by
  induction l generalizing vec with
  | nil => rfl
  | cons kv rest ih =>
    simp only [List.foldl_cons]
    rw [ih (fun kv2 h2 => hj kv2 (by simp [h2]))]
    exact getD_set_ne (hj kv (by simp))

theorem foldl_set_length {l : List (Variable × Nat)} {vec : List Variable} :
    (l.foldl (fun v p => v.set p.2 p.1) vec).length = vec.length := by
  induction l generalizing vec with
  | nil => rfl
  | cons kv rest ih =>
    simp only [List.foldl_cons]
    rw [ih]
    simp

theorem foldl_set_getD {l : List (Variable × Nat)} {vec : List Variable}
    (hnd : (l.map Prod.snd).Nodup) (hbound : ∀ kv ∈ l, kv.2 < vec.length) :
    ∀ kv ∈ l, (l.foldl (fun v p => v.set p.2 p.1) vec).getD kv.2 0 = kv.1 := by
  induction l generalizing vec with
  | nil => simp
  | cons kv0 rest ih =>
    simp only [List.map_cons, List.nodup_cons] at hnd
    intro kv hkv
    rcases List.mem_cons.mp hkv with rfl | hm
    · simp only [List.foldl_cons]
      rw [foldl_set_preserve (fun kv2 h2 => by
        intro he
        exact hnd.1 (List.mem_map.mpr ⟨kv2, h2, he⟩))]
      exact getD_set_self (hbound kv (by simp))
    · simp only [List.foldl_cons]
      refine ih hnd.2 ?_ kv hm
      intro kv2 h2
      have := hbound kv2 (by simp [h2])
      simpa using this

theorem getD_buildVars {map : List (Variable × Nat)} {next : Nat}
    (hnd : (map.map Prod.snd).Nodup) (hbound : ∀ kv ∈ map, kv.2 < next) :
    ∀ kv ∈ map, (buildVarsVec map next).getD kv.2 0 = kv.1 := by
  unfold buildVarsVec
  exact foldl_set_getD hnd (fun kv hkv => by
    rw [List.length_replicate]
    exact hbound kv hkv)

theorem map_of_forall2 {g : Int → Literal} {c : Clause} {ints : List Int}
    (h : List.Forall₂ (fun l i => g i = l) c ints) : ints.map g = c := by
  induction h with
  | nil => rfl
  | cons h1 h2 ih => simp [ih, h1]

theorem forall2_clause_map {M : List (Variable × Nat)} {g : Int → Literal}
    {cnf : List Clause} {intss : List (List Int)}
    (hf : List.Forall₂ (fun c ints => List.Forall₂ (IntMatches M) c ints) cnf intss)
    (hg : ∀ (l : Literal) (i : Int), IntMatches M l i → g i = l) :
    intss.map (fun c => c.map g) = cnf := by
  induction hf with
  | nil => rfl
  | cons h1 h2 ih =>
    simp only [List.map_cons, List.cons.injEq]
    exact ⟨map_of_forall2 (h1.imp (fun a b hm => hg a b hm)), ih⟩

/-- C9 (amended): round trip of `Cnf::normalize` — on a CNF without empty
clauses, mapping each signed index of the normalised form back through the
variable table gives the CNF back unchanged (so in particular the same
satisfying assignments).  The claim fails on CNFs with empty clauses,
which `normalize` drops. -/
theorem normalize_reconstruct {cnf : Cnf} (hne : ∀ c ∈ cnf, c ≠ []) :
    reconstruct (Cnf.normalize cnf).1 (Cnf.normalize cnf).2 = cnf := by
  have hinit : StOk ([], 1) := ⟨Nat.le_refl 1, by simp, by simp⟩
  obtain ⟨hok, _, _, hforall⟩ := normCnf_spec cnf ([], 1) hinit
  have hf := hforall hne
  unfold Cnf.normalize reconstruct
  simp only
  have hlit : ∀ (l : Literal) (i : Int), IntMatches (normCnf ([], 1) cnf).1.1 l i →
      (fun i : Int =>
        ({ var := (buildVarsVec (normCnf ([], 1) cnf).1.1 (normCnf ([], 1) cnf).1.2).getD
             i.natAbs 0,
           polarity := if 0 < i then Polarity.Positive else Polarity.Negative } :
           Literal)) i = l := by
    intro l i hm
    rcases hm with ⟨idx, hlk, h1, h3⟩
    have hmem := lookup_to_mem hlk
    have hvar := getD_buildVars hok.2.2
      (fun kv hkv => (hok.2.1 kv hkv).2) (l.var, idx) hmem
    cases hpol : l.polarity with
    | Positive =>
      rw [hpol] at h3
      subst h3
      simp only [Int.natAbs_ofNat]
      rcases l with ⟨lv, lp⟩
      simp only at hvar hpol ⊢
      rw [hvar, if_pos (by exact_mod_cast h1), hpol]
    | Negative =>
      rw [hpol] at h3
      subst h3
      simp only [Int.natAbs_neg, Int.natAbs_ofNat]
      rcases l with ⟨lv, lp⟩
      simp only at hvar hpol ⊢
      rw [hvar, if_neg (by omega), hpol]
  exact forall2_clause_map hf hlit

/-! # Part 6: the minesweep-core driver (src/minesweep-core/src/solve.rs)

The driver consumes the board only through the view interface: dimensions,
the per-cell `CellView`, the 8-neighbourhood, the neighbouring flag count
and the game result.  `GameView` is embedded at that interface (the spec
describes the same BoardView contract); `cell` is the view function over
the `Vec<Vec<CellView>>` grid.  In the `Playing` state the view shows
`Flagged` exactly for the cells whose underlying state is flagged, so
`nearby_flags` (reached through the deref to the game state in Rust)
counts `Flagged` view cells here. -/

/-- `pub enum GameResult`. -/
inductive GameResult where
  | Win
  | Lose
  | Playing
deriving DecidableEq, Repr

/-- `pub enum CellView`.  The `Opened` payload is a `u8` clue in Rust,
carried as a `Nat` here; the one subtraction performed on it applies the
`u8` wrap-around explicitly. -/
inductive CellView where
  | Unopened
  | Hovered
  | Pushed
  | Flagged
  | Questioned
  | Opened (n : Nat)
  | Mine
  | WrongMine
  | Exploded
deriving DecidableEq, Repr

/-- `CellView::is_intact`. -/
def CellView.is_intact : CellView → Bool
  | .Unopened => true
  | .Hovered => true
  | .Pushed => true
  | _ => false

/-- The view of a game as consumed by the solver. -/
structure GameView where
  width : Nat
  height : Nat
  cell : Nat → Nat → CellView
  result : GameResult

/-- `GameState::nearby_cells` (reached from the view): the in-bounds
8-neighbours, in the y-major then x-minor order of the source. -/
def GameView.nearby_cells (v : GameView) (x y : Nat) : List (Nat × Nat) :=
  [(y : Int) - 1, (y : Int), (y : Int) + 1].flatMap (fun y1 =>
    if y1 < 0 ∨ (v.height : Int) ≤ y1 then []
    else
      [(x : Int) - 1, (x : Int), (x : Int) + 1].filterMap (fun x1 =>
        if x1 < 0 ∨ (v.width : Int) ≤ x1 then none
        else if x1 = (x : Int) ∧ y1 = (y : Int) then none
        else some (x1.toNat, y1.toNat)))

/-- `GameState::nearby_flags`: the number of flagged neighbours. -/
def GameView.nearby_flags (v : GameView) (x y : Nat) : Nat :=
  (v.nearby_cells x y).countP (fun c => v.cell c.1 c.2 == CellView.Flagged)

/-- `GameView::mine_var`: the variable of cell (x, y) is `y * width + x`. -/
def GameView.mine_var (v : GameView) (x y : Nat) : Variable :=
  y * v.width + x

/-- The `itertools::combinations(k)` enumeration: all k-element
subsequences, in the order the iterator yields them. -/
def combinations {α : Type} : Nat → List α → List (List α)
  | 0, _ => [[]]
  | _ + 1, [] => []
  | k + 1, x :: xs => (combinations k xs).map (x :: ·) ++ combinations (k + 1) xs

/-- `Iterator::reduce` with `Conjunction` (left fold, `none` on an empty
iterator, where the source calls `.unwrap()`). -/
def reduceConj : List Formula → Option Formula
  | [] => none
  | f :: fs => some (fs.foldl (fun a b => Formula.Conjunction a b) f)

/-- `Iterator::reduce` with `Disjunction`. -/
def reduceDisj : List Formula → Option Formula
  | [] => none
  | f :: fs => some (fs.foldl (fun a b => Formula.Disjunction a b) f)

/-- `GameView::constraint_cell`.  The outer `Option` is a panic (`unwrap`
on `None`, or the `u8` underflow of `n - nearby_flags`, which aborts a
debug build at the subtraction and makes the combination iterator empty in
a release build so that the `unwrap` aborts); the inner `Option` is the
source `Option<Formula>` (no constraint for this cell). -/
def GameView.constraint_cell (v : GameView) (x y : Nat) : Option (Option Formula) :=
  match v.cell x y with
  | .Flagged => some (some (.Var (v.mine_var x y)))
  | .Opened n =>
    let nearby_intact_cells :=
      (v.nearby_cells x y).filter (fun c => (v.cell c.1 c.2).is_intact)
    let k := (n + 256 - v.nearby_flags x y) % 256
    let inner : Option Formula :=
      if k = 0 then
        reduceConj (nearby_intact_cells.map (fun c =>
          .Negation (.Var (v.mine_var c.1 c.2))))
      else
        match (combinations k nearby_intact_cells).mapM (fun mines =>
          reduceConj (nearby_intact_cells.map (fun c =>
            if c ∈ mines then Formula.Var (v.mine_var c.1 c.2)
            else Formula.Negation (Formula.Var (v.mine_var c.1 c.2))))) with
        | none => none
        | some profiles => reduceDisj profiles
    match inner with
    | none => none
    | some f => some (some (.Conjunction f (.Negation (.Var (v.mine_var x y)))))
  | _ => some none

/-- `GameView::constraints`: visit every neighbour of the active set (the
local `cells_to_examine` hash set, iterated here in first-occurrence
order), keep the produced sub-formulas and conjoin them; the final
`.reduce(..).unwrap()` panics when no sub-formula was produced. -/
def GameView.constraints (v : GameView) (intact_cells_to_examine : List (Nat × Nat)) :
    Option Formula :=
  let cells_to_examine :=
    dedupFirst (intact_cells_to_examine.flatMap (fun c => v.nearby_cells c.1 c.2))
  match cells_to_examine.mapM (fun c => v.constraint_cell c.1 c.2) with
  | none => none
  | some parts => reduceConj (parts.filterMap id)

/-- `pub struct SolveResult`. -/
structure SolveResult where
  must_be_mine : List (Nat × Nat)
  must_not_mine : List (Nat × Nat)
deriving DecidableEq, Repr

/-- `SolveResult::merge`. -/
def SolveResult.merge (r other : SolveResult) : SolveResult :=
  ⟨r.must_be_mine ++ other.must_be_mine, r.must_not_mine ++ other.must_not_mine⟩

/-- `impl From<Formula> for Cnf`: Tseitin encoding starting right above the
maximum variable. -/
def cnfOfFormula (f : Formula) : Option Cnf :=
  f.tseitin_encode (f.maximum_variable + 1)

/-- `GameView::check_cell`, parameterised by the backend contract
`is_unsat(constraints, assumption)`.  An `Option Bool` backend result
covers backends that can abort (the tinysat kernel panics on some
inputs). -/
def check_cell (is_unsat : Cnf → Cnf → Option Bool) (v : GameView)
    (constraints : Cnf) (x y : Nat) : Option SolveResult :=
  match cnfOfFormula (.Var (v.mine_var x y)) with
  | none => none
  | some assumption_is_mine =>
    match is_unsat constraints assumption_is_mine with
    | none => none
    | some true => some ⟨[], [(x, y)]⟩
    | some false =>
      match cnfOfFormula (.Negation (.Var (v.mine_var x y))) with
      | none => none
      | some assumption_not_mine =>
        match is_unsat constraints assumption_not_mine with
        | none => none
        | some true => some ⟨[(x, y)], []⟩
        | some false => some ⟨[], []⟩

/-- The per-cell loop of `GameView::solve`: fold `check_cell` results with
`SolveResult::merge` over the examined cells. -/
def checkCells (is_unsat : Cnf → Cnf → Option Bool) (v : GameView)
    (constraints : Cnf) : List (Nat × Nat) → Option SolveResult
  | [] => some ⟨[], []⟩
  | c :: cs =>
    match check_cell is_unsat v constraints c.1 c.2 with
    | none => none
    | some r =>
      match checkCells is_unsat v constraints cs with
      | none => none
      | some rest => some (r.merge rest)

/-- The active-set scan of `GameView::solve`: every intact cell adjacent to
a `Flagged` or `Opened` cell, scanning rows in y-then-x order and keeping
the first-occurrence order of the hash-set insertions. -/
def GameView.active_cells (v : GameView) : List (Nat × Nat) :=
  dedupFirst ((List.range v.height).flatMap (fun y =>
    (List.range v.width).flatMap (fun x =>
      match v.cell x y with
      | .Flagged => (v.nearby_cells x y).filter (fun c => (v.cell c.1 c.2).is_intact)
      | .Opened _ => (v.nearby_cells x y).filter (fun c => (v.cell c.1 c.2).is_intact)
      | _ => [])))

/-- `GameView::solve`, with the iteration order of the examined cell set
made explicit (`ord`): the source iterates one `HashSet` both to build the
constraints and to run the per-cell checks, in an unspecified order. -/
def GameView.solveWith (is_unsat : Cnf → Cnf → Option Bool) (v : GameView)
    (ord : List (Nat × Nat)) : Option SolveResult :=
  if v.result ≠ GameResult.Playing then some ⟨[], []⟩
  else
    match v.constraints ord with
    | none => none
    | some f =>
      match f.tseitin_encode 0x10000 with
      | none => none
      | some constraints => checkCells is_unsat v constraints ord

/-- `GameView::solve` at the first-occurrence iteration order. -/
def GameView.solve (is_unsat : Cnf → Cnf → Option Bool) (v : GameView) :
    Option SolveResult :=
  v.solveWith is_unsat v.active_cells

/-- `SatSolver::is_unsat` for the `Tinysat` backend: merge the assumption
into the constraints and ask the kernel. -/
def tinysat_is_unsat (constraints assumption : Cnf) : Option Bool :=
  (Cnf.solve (constraints ++ assumption)).map Model.is_unsat

/-- The acceptance condition of `GameOptions::build` (the negation of its
panic condition). -/
def build_accepts (w h mines : Nat) : Bool :=
  !(w < 1 || h < 1 || mines < 1 || w * h ≤ mines)

/-! # Part 7: driver-level lemmas -/

theorem foldl_insertAbsent_mem {α : Type} [DecidableEq α] {l : List α} :
    ∀ {acc : List α} {x : α}, x ∈ l.foldl insertAbsent acc ↔ x ∈ acc ∨ x ∈ l := by
  induction l with
  | nil => simp
  | cons a l ih =>
    intro acc x
    simp only [List.foldl_cons]
    rw [ih]
    unfold insertAbsent
    by_cases ha : a ∈ acc
    · rw [if_pos ha]
      constructor
      · rintro (h | h)
        · exact Or.inl h
        · exact Or.inr (by simp [h])
      · rintro (h | h)
        · exact Or.inl h
        · rcases List.mem_cons.mp h with rfl | h2
          · exact Or.inl ha
          · exact Or.inr h2
    · rw [if_neg ha]
      constructor
      · rintro (h | h)
        · rcases List.mem_append.mp h with h2 | h2
          · exact Or.inl h2
          · simp at h2
            exact Or.inr (by simp [h2])
        · exact Or.inr (by simp [h])
      · rintro (h | h)
        · exact Or.inl (by simp [h])
        · rcases List.mem_cons.mp h with rfl | h2
          · exact Or.inl (by simp)
          · exact Or.inr h2

theorem dedupFirst_mem {α : Type} [DecidableEq α] {l : List α} {x : α} :
    x ∈ dedupFirst l ↔ x ∈ l := by
  unfold dedupFirst
  rw [foldl_insertAbsent_mem]
  simp

theorem foldl_insertAbsent_nodup {α : Type} [DecidableEq α] {l : List α} :
    ∀ {acc : List α}, acc.Nodup → (l.foldl insertAbsent acc).Nodup := by
  induction l with
  | nil => intro acc h; exact h
  | cons a l ih =>
    intro acc h
    simp only [List.foldl_cons]
    refine ih ?_
    unfold insertAbsent
    by_cases ha : a ∈ acc
    · rw [if_pos ha]; exact h
    · rw [if_neg ha]
      simpa [List.nodup_append] using ⟨h, ha⟩

theorem dedupFirst_nodup {α : Type} [DecidableEq α] {l : List α} :
    (dedupFirst l).Nodup :=
  foldl_insertAbsent_nodup List.nodup_nil

theorem mapM_nil_eq {α β : Type} (f : α → Option β) : List.mapM f ([] : List α) = some [] := by
  rw [List.mapM_nil]
  rfl

theorem mapM_cons_eq {α β : Type} (f : α → Option β) (a : α) (l : List α) :
    List.mapM f (a :: l) = (f a).bind (fun b => (List.mapM f l).map (fun t => b :: t)) := by
  rw [List.mapM_cons]
  cases f a <;> cases hl : List.mapM f l <;> simp [hl]

theorem mapM_mem_exists {α β : Type} {f : α → Option β} {l : List α} {ys : List β}
    (h : l.mapM f = some ys) : ∀ y ∈ ys, ∃ x ∈ l, f x = some y := by
  induction l generalizing ys with
  | nil =>
    rw [mapM_nil_eq] at h
    injection h with h
    subst h
    simp
  | cons a l ih =>
    rw [mapM_cons_eq] at h
    cases hf : f a with
    | none => rw [hf] at h; cases h
    | some b =>
      rw [hf] at h
      cases hl : List.mapM f l with
      | none => rw [hl] at h; cases h
      | some zs =>
        rw [hl] at h
        injection h with h
        subst h
        intro y hy
        rcases List.mem_cons.mp hy with rfl | hm
        · exact ⟨a, by simp, hf⟩
        · rcases ih hl y hm with ⟨x, hx, hfx⟩
          exact ⟨x, by simp [hx], hfx⟩

theorem mapM_forall_exists {α β : Type} {f : α → Option β} {l : List α} {ys : List β}
    (h : l.mapM f = some ys) : ∀ x ∈ l, ∃ y ∈ ys, f x = some y := by
  induction l generalizing ys with
  | nil => simp
  | cons a l ih =>
    rw [mapM_cons_eq] at h
    cases hf : f a with
    | none => rw [hf] at h; cases h
    | some b =>
      rw [hf] at h
      cases hl : List.mapM f l with
      | none => rw [hl] at h; cases h
      | some zs =>
        rw [hl] at h
        injection h with h
        subst h
        intro x hx
        rcases List.mem_cons.mp hx with rfl | hm
        · exact ⟨b, by simp, hf⟩
        · rcases ih hl x hm with ⟨y, hy, hfy⟩
          exact ⟨y, by simp [hy], hfy⟩

theorem eval_foldl_conj (sg : Nat → Bool) (fs : List Formula) :
    ∀ a : Formula,
      (fs.foldl (fun a b => Formula.Conjunction a b) a).eval sg =
        (a.eval sg && fs.all (Formula.eval sg)) := by
  induction fs with
  | nil => intro a; simp
  | cons f fs ih =>
    intro a
    simp only [List.foldl_cons, ih, List.all_cons, Formula.eval]
    cases a.eval sg <;> cases f.eval sg <;> simp

theorem eval_foldl_disj (sg : Nat → Bool) (fs : List Formula) :
    ∀ a : Formula,
      (fs.foldl (fun a b => Formula.Disjunction a b) a).eval sg =
        (a.eval sg || fs.any (Formula.eval sg)) := by
  induction fs with
  | nil => intro a; simp
  | cons f fs ih =>
    intro a
    simp only [List.foldl_cons, ih, List.any_cons, Formula.eval]
    cases a.eval sg <;> cases f.eval sg <;> simp

theorem reduceConj_eval {fs : List Formula} {g : Formula} {sg : Nat → Bool}
    (h : reduceConj fs = some g) (hall : ∀ f ∈ fs, f.eval sg = true) :
    g.eval sg = true := by
  cases fs with
  | nil => cases h
  | cons f fs =>
    simp only [reduceConj] at h
    injection h with h
    subst h
    rw [eval_foldl_conj]
    simp only [Bool.and_eq_true, List.all_eq_true]
    exact ⟨hall f (by simp), fun f2 h2 => hall f2 (by simp [h2])⟩

theorem reduceDisj_eval {fs : List Formula} {g f0 : Formula} {sg : Nat → Bool}
    (h : reduceDisj fs = some g) (hf0 : f0 ∈ fs) (hev : f0.eval sg = true) :
    g.eval sg = true := by
  cases fs with
  | nil => cases h
  | cons f fs =>
    simp only [reduceDisj] at h
    injection h with h
    subst h
    rw [eval_foldl_disj]
    rcases List.mem_cons.mp hf0 with rfl | hm
    · simp [hev]
    · simp only [Bool.or_eq_true, List.any_eq_true]
      exact Or.inr ⟨f0, hm, hev⟩

theorem foldl_conj_varsBelow {fs : List Formula} {B : Nat} :
    ∀ {a : Formula}, a.varsBelow B = true → (∀ f ∈ fs, f.varsBelow B = true) →
      (fs.foldl (fun a b => Formula.Conjunction a b) a).varsBelow B = true := by
  induction fs with
  | nil => intro a h _; exact h
  | cons f fs ih =>
    intro a h hall
    simp only [List.foldl_cons]
    refine ih ?_ (fun f2 h2 => hall f2 (by simp [h2]))
    simp [Formula.varsBelow, h, hall f (by simp)]

theorem foldl_disj_varsBelow {fs : List Formula} {B : Nat} :
    ∀ {a : Formula}, a.varsBelow B = true → (∀ f ∈ fs, f.varsBelow B = true) →
      (fs.foldl (fun a b => Formula.Disjunction a b) a).varsBelow B = true := by
  induction fs with
  | nil => intro a h _; exact h
  | cons f fs ih =>
    intro a h hall
    simp only [List.foldl_cons]
    refine ih ?_ (fun f2 h2 => hall f2 (by simp [h2]))
    simp [Formula.varsBelow, h, hall f (by simp)]

theorem reduceConj_varsBelow {fs : List Formula} {g : Formula} {B : Nat}
    (h : reduceConj fs = some g) (hall : ∀ f ∈ fs, f.varsBelow B = true) :
    g.varsBelow B = true := by
  cases fs with
  | nil => cases h
  | cons f fs =>
    simp only [reduceConj] at h
    injection h with h
    subst h
    exact foldl_conj_varsBelow (hall f (by simp)) (fun f2 h2 => hall f2 (by simp [h2]))

theorem reduceDisj_varsBelow {fs : List Formula} {g : Formula} {B : Nat}
    (h : reduceDisj fs = some g) (hall : ∀ f ∈ fs, f.varsBelow B = true) :
    g.varsBelow B = true := by
  cases fs with
  | nil => cases h
  | cons f fs =>
    simp only [reduceDisj] at h
    injection h with h
    subst h
    exact foldl_disj_varsBelow (hall f (by simp)) (fun f2 h2 => hall f2 (by simp [h2]))

theorem combinations_mem {α : Type} [DecidableEq α] :
    ∀ (l M : List α), M.Sublist l → ∀ k, M.length = k → M ∈ combinations k l := by
  intro l
  induction l with
  | nil =>
    intro M hM k hk
    rw [List.sublist_nil.mp hM] at hk ⊢
    subst hk
    simp [combinations]
  | cons x xs ih =>
    intro M hM k hk
    cases hM with
    | cons _ hsub =>
      cases k with
      | zero =>
        rw [List.length_eq_zero.mp hk]
        simp [combinations]
      | succ k2 =>
        simp only [combinations, List.mem_append]
        exact Or.inr (ih M hsub (k2 + 1) hk)
    | cons₂ _ hsub =>
      rename_i M2
      cases k with
      | zero => simp at hk
      | succ k2 =>
        simp only [combinations, List.mem_append]
        left
        refine List.mem_map.mpr ⟨M2, ?_, rfl⟩
        exact ih M2 hsub k2 (by simpa using hk)

/-- Completeness of the Tseitin encoding, keeping the agreement below the
fresh-variable base in the conclusion: a model of `f` extends to a model of
the encoding without touching the variables below the base. -/
theorem tseitin_encode_complete (f : Formula) (B : Variable) {C : Cnf}
    (hB : f.maximum_variable < B) (hC : f.tseitin_encode B = some C)
    (sg : Nat → Bool) (hev : f.eval sg = true) :
    ∃ sg2, cnfHolds sg2 C = true ∧ ∀ k, k < B → sg2 k = sg k := by
  have hvb : f.varsBelow B = true := (maximum_variable_lt_iff f B).mp hB
  unfold Formula.tseitin_encode at hC
  cases hef : f.encode_literal with
  | some l =>
    rw [hef] at hC
    injection hC with hC
    subst hC
    refine ⟨sg, ?_, fun k _ => rfl⟩
    simp [cnfHolds, clauseHolds]
    rw [encode_literal_eval hef sg]
    exact hev
  | none =>
    rw [hef] at hC
    rcases hw : wrap_formula f B [] with ⟨l, next1, stack1⟩
    rw [hw] at hC
    obtain ⟨sg1, hag1, hle1, hs1B, hs1ev, hlev, hlvar⟩ :=
      wrap_formula_complete hw (fun e he => by simp at he) hvb sg
        (fun e he => by simp at he)
    have hroot : cnfHolds sg1 [[l]] = true := by
      simp [cnfHolds, clauseHolds]
      rw [hlev, eval_stable hvb hag1]
      exact hev
    have haccB : cnfVarsBelow [[l]] next1 = true := by
      simp [cnfVarsBelow, clauseVarsBelow, hlvar]
    obtain ⟨sg2, hag2, hsg2⟩ :=
      tseitin_loop_complete (stackSize stack1 + 1) stack1 (by omega) next1 [[l]]
        C hC hs1B haccB sg1 hs1ev hroot
    refine ⟨sg2, hsg2, fun k hk => ?_⟩
    rw [hag2 k (Nat.lt_of_lt_of_le hk hle1), hag1 k hk]

/-! ## Board geometry -/

/-- Every neighbour reported by `nearby_cells` is in bounds. -/
theorem nearby_cells_bounds {v : GameView} {x y : Nat} {c : Nat × Nat}
    (h : c ∈ v.nearby_cells x y) : c.1 < v.width ∧ c.2 < v.height := by
  unfold GameView.nearby_cells at h
  simp only [List.mem_flatMap] at h
  rcases h with ⟨y1, hy1, hc⟩
  by_cases hyr : y1 < 0 ∨ (v.height : Int) ≤ y1
  · rw [if_pos hyr] at hc
    simp at hc
  · rw [if_neg hyr] at hc
    push_neg at hyr
    simp only [List.mem_filterMap] at hc
    rcases hc with ⟨x1, hx1, hx2⟩
    by_cases hxr : x1 < 0 ∨ (v.width : Int) ≤ x1
    · rw [if_pos hxr] at hx2
      cases hx2
    · rw [if_neg hxr] at hx2
      push_neg at hxr
      by_cases hself : x1 = (x : Int) ∧ y1 = (y : Int)
      · rw [if_pos hself] at hx2
        cases hx2
      · rw [if_neg hself] at hx2
        injection hx2 with hx2
        subst hx2
        constructor <;> simp <;> omega

/-- A cell has at most 9 entries in its neighbour list (3 rows of at most
3 candidates). -/
theorem length_flatMap_le_of {α β : Type} (f : α → List β) (l : List α) (m : Nat)
    (h : ∀ a ∈ l, (f a).length ≤ m) : (l.flatMap f).length ≤ l.length * m := by
  induction l with
  | nil => simp
  | cons a l ih =>
    simp only [List.flatMap_cons, List.length_append, List.length_cons]
    have h1 := h a (by simp)
    have h2 := ih (fun b hb => h b (by simp [hb]))
    calc (f a).length + (l.flatMap f).length ≤ m + l.length * m := Nat.add_le_add h1 h2
      _ = (l.length + 1) * m := by ring

/-- A cell has at most 9 entries in its neighbour list (3 rows of at most
3 candidates). -/
theorem nearby_cells_length_le (v : GameView) (x y : Nat) :
    (v.nearby_cells x y).length ≤ 9 := by
  unfold GameView.nearby_cells
  refine le_trans (length_flatMap_le_of _ _ 3 ?_) (by simp)
  intro y1 hy1
  split
  · simp
  · exact le_trans (List.length_filterMap_le _ _) (by simp)

/-- The cell variable of an in-bounds cell is below \`width * height\`. -/
theorem mine_var_lt {v : GameView} {x y : Nat} (hx : x < v.width) (hy : y < v.height) :
    v.mine_var x y < v.width * v.height := by
  unfold GameView.mine_var
  calc y * v.width + x < y * v.width + v.width := by omega
    _ = (y + 1) * v.width := by ring
    _ ≤ v.height * v.width := Nat.mul_le_mul_right v.width hy
    _ = v.width * v.height := Nat.mul_comm _ _

/-! ## Mine layouts -/

/-- The flat truth assignment induced by a mine layout `L`: variable
`y * width + x` is true exactly when the layout has a mine at (x, y);
variables outside the board read false. -/
def layoutBool (v : GameView) (L : Nat → Nat → Bool) : Nat → Bool :=
  fun k => if k < v.width * v.height then L (k % v.width) (k / v.width) else false

theorem layoutBool_mine_var {v : GameView} (L : Nat → Nat → Bool) {x y : Nat}
    (hx : x < v.width) (hy : y < v.height) :
    layoutBool v L (v.mine_var x y) = L x y := by
  have hw : 0 < v.width := by omega
  unfold layoutBool
  rw [if_pos (mine_var_lt hx hy)]
  have hmod : v.mine_var x y % v.width = x := by
    unfold GameView.mine_var
    rw [Nat.add_comm, Nat.add_mul_mod_self_right, Nat.mod_eq_of_lt hx]
  have hdiv : v.mine_var x y / v.width = y := by
    unfold GameView.mine_var
    rw [Nat.add_comm, Nat.mul_comm, Nat.add_mul_div_left x y hw, Nat.div_eq_of_lt hx]
    simp
  rw [hmod, hdiv]

/-- A mine layout is consistent with the revealed and flagged cells of the
view: every `Opened` cell is mine-free and shows the exact number of
neighbouring mines, and every `Flagged` cell is a mine. -/
def layoutConsistent (v : GameView) (L : Nat → Nat → Bool) : Bool :=
  (List.range v.height).all (fun y => (List.range v.width).all (fun x =>
    match v.cell x y with
    | .Opened n => !L x y && ((v.nearby_cells x y).countP (fun c => L c.1 c.2) == n)
    | .Flagged => L x y
    | _ => true))

/-- The extra assumption built into the constraint encoding: cells shown as
`Questioned`, `Mine`, `WrongMine` or `Exploded` — not intact, yet neither
counted as flags nor given a variable — are mine-free. -/
def solverAssumed (v : GameView) (L : Nat → Nat → Bool) : Bool :=
  (List.range v.height).all (fun y => (List.range v.width).all (fun x =>
    match v.cell x y with
    | .Questioned => !L x y
    | .Mine => !L x y
    | .WrongMine => !L x y
    | .Exploded => !L x y
    | _ => true))

theorem layoutConsistent_at {v : GameView} {L : Nat → Nat → Bool}
    (h : layoutConsistent v L = true) {x y : Nat} (hx : x < v.width) (hy : y < v.height) :
    (match v.cell x y with
     | .Opened n => L x y = false ∧ (v.nearby_cells x y).countP (fun c => L c.1 c.2) = n
     | .Flagged => L x y = true
     | _ => True) := by
  unfold layoutConsistent at h
  rw [List.all_eq_true] at h
  have hy2 := h y (List.mem_range.mpr hy)
  rw [List.all_eq_true] at hy2
  have hx2 := hy2 x (List.mem_range.mpr hx)
  revert hx2
  cases v.cell x y <;> simp

theorem solverAssumed_at {v : GameView} {L : Nat → Nat → Bool}
    (h : solverAssumed v L = true) {x y : Nat} (hx : x < v.width) (hy : y < v.height)
    (hni : (v.cell x y).is_intact = false)
    (hno : ∀ n, v.cell x y ≠ CellView.Opened n)
    (hnf : v.cell x y ≠ CellView.Flagged) : L x y = false := by
  unfold solverAssumed at h
  rw [List.all_eq_true] at h
  have hy2 := h y (List.mem_range.mpr hy)
  rw [List.all_eq_true] at hy2
  have hx2 := hy2 x (List.mem_range.mpr hx)
  revert hx2
  cases hc : v.cell x y <;> simp_all [CellView.is_intact]

theorem countP_filter_split {α : Type} (p q : α → Bool) (l : List α) :
    l.countP p = (l.filter q).countP p + (l.filter (fun a => !q a)).countP p := by
  induction l with
  | nil => simp
  | cons a l ih =>
    by_cases hq : q a <;> by_cases hp : p a <;>
      simp [List.countP_cons, List.filter_cons, hq, hp, ih] <;> omega

theorem countP_congr_mem {α : Type} {p q : α → Bool} {l : List α}
    (h : ∀ a ∈ l, p a = q a) : l.countP p = l.countP q := by
  induction l with
  | nil => simp
  | cons a l ih =>
    simp only [List.countP_cons, h a (by simp),
      ih (fun b hb => h b (by simp [hb]))]

/-- On an in-bounds `Opened n` cell of a consistent layout, the number of
mines among the intact neighbours plus the neighbouring flag count is the
clue `n`. -/
theorem opened_mine_count {v : GameView} {L : Nat → Nat → Bool}
    (hcons : layoutConsistent v L = true) (hass : solverAssumed v L = true)
    {x y n : Nat} (hx : x < v.width) (hy : y < v.height)
    (hcell : v.cell x y = CellView.Opened n) :
    ((v.nearby_cells x y).filter (fun c => (v.cell c.1 c.2).is_intact)).countP
        (fun c => L c.1 c.2) + v.nearby_flags x y = n := by
  have hat := layoutConsistent_at hcons hx hy
  rw [hcell] at hat
  obtain ⟨hLxy, hn⟩ := hat
  have hpoint : ∀ c ∈ v.nearby_cells x y, (v.cell c.1 c.2).is_intact = false →
      L c.1 c.2 = (v.cell c.1 c.2 == CellView.Flagged) := by
    intro c hcnear hcni
    obtain ⟨hcx, hcy⟩ := nearby_cells_bounds hcnear
    have hat2 := layoutConsistent_at hcons hcx hcy
    cases hcc : v.cell c.1 c.2
    case Unopened => rw [hcc] at hcni; simp [CellView.is_intact] at hcni
    case Hovered => rw [hcc] at hcni; simp [CellView.is_intact] at hcni
    case Pushed => rw [hcc] at hcni; simp [CellView.is_intact] at hcni
    case Flagged => rw [hcc] at hat2; simp [hat2]
    case Opened m => rw [hcc] at hat2; simp [hat2.1]
    case Questioned =>
      have hz := solverAssumed_at hass hcx hcy (by rw [hcc]; rfl)
        (fun m => by rw [hcc]; simp) (by rw [hcc]; simp)
      simp [hz]
    case Mine =>
      have hz := solverAssumed_at hass hcx hcy (by rw [hcc]; rfl)
        (fun m => by rw [hcc]; simp) (by rw [hcc]; simp)
      simp [hz]
    case WrongMine =>
      have hz := solverAssumed_at hass hcx hcy (by rw [hcc]; rfl)
        (fun m => by rw [hcc]; simp) (by rw [hcc]; simp)
      simp [hz]
    case Exploded =>
      have hz := solverAssumed_at hass hcx hcy (by rw [hcc]; rfl)
        (fun m => by rw [hcc]; simp) (by rw [hcc]; simp)
      simp [hz]
  have hsplit := countP_filter_split (fun c : Nat × Nat => L c.1 c.2)
      (fun c : Nat × Nat => (v.cell c.1 c.2).is_intact) (v.nearby_cells x y)
  have hcongr : ((v.nearby_cells x y).filter
        (fun c => !(v.cell c.1 c.2).is_intact)).countP (fun c => L c.1 c.2) =
      ((v.nearby_cells x y).filter
        (fun c => !(v.cell c.1 c.2).is_intact)).countP
        (fun c => v.cell c.1 c.2 == CellView.Flagged) := by
    apply countP_congr_mem
    intro c hcmem
    obtain ⟨hcnear, hcni⟩ := List.mem_filter.mp hcmem
    exact hpoint c hcnear (by simpa using hcni)
  have hfsplit := countP_filter_split
      (fun c : Nat × Nat => v.cell c.1 c.2 == CellView.Flagged)
      (fun c : Nat × Nat => (v.cell c.1 c.2).is_intact) (v.nearby_cells x y)
  have hfzero : ((v.nearby_cells x y).filter
        (fun c => (v.cell c.1 c.2).is_intact)).countP
        (fun c => v.cell c.1 c.2 == CellView.Flagged) = 0 := by
    rw [List.countP_eq_zero]
    intro c hcmem
    obtain ⟨hcnear, hci⟩ := List.mem_filter.mp hcmem
    intro hbe
    rw [beq_iff_eq.mp hbe] at hci
    simp [CellView.is_intact] at hci
  unfold GameView.nearby_flags
  omega

/-- The `u8` clue arithmetic `(n + 256 - flags) % 256` computes the exact
number of mines among the intact neighbours of a consistent layout. -/
theorem opened_k_eq {v : GameView} {L : Nat → Nat → Bool}
    (hcons : layoutConsistent v L = true) (hass : solverAssumed v L = true)
    {x y n : Nat} (hx : x < v.width) (hy : y < v.height)
    (hcell : v.cell x y = CellView.Opened n) :
    (n + 256 - v.nearby_flags x y) % 256 =
      ((v.nearby_cells x y).filter (fun c => (v.cell c.1 c.2).is_intact)).countP
        (fun c => L c.1 c.2) := by
  have h1 := opened_mine_count hcons hass hx hy hcell
  have h2 : ((v.nearby_cells x y).filter
        (fun c => (v.cell c.1 c.2).is_intact)).countP (fun c => L c.1 c.2) ≤
      ((v.nearby_cells x y).filter (fun c => (v.cell c.1 c.2).is_intact)).length :=
    List.countP_le_length _
  have h3 : ((v.nearby_cells x y).filter
        (fun c => (v.cell c.1 c.2).is_intact)).length ≤ (v.nearby_cells x y).length :=
    List.length_filter_le _ _
  have h4 := nearby_cells_length_le v x y
  omega

/-- The constraint sub-formula of an in-bounds clue cell is true under the
assignment of any consistent layout (that also satisfies the encoding's
implicit assumption on non-intact, unflagged, unopened cells). -/
theorem constraint_cell_eval {v : GameView} {L : Nat → Nat → Bool}
    (hcons : layoutConsistent v L = true) (hass : solverAssumed v L = true)
    {x y : Nat} (hx : x < v.width) (hy : y < v.height) {f : Formula}
    (hf : v.constraint_cell x y = some (some f)) :
    f.eval (layoutBool v L) = true := by
  unfold GameView.constraint_cell at hf
  cases hcell : v.cell x y <;> rw [hcell] at hf
  case Unopened => injection hf with hf; cases hf
  case Hovered => injection hf with hf; cases hf
  case Pushed => injection hf with hf; cases hf
  case Questioned => injection hf with hf; cases hf
  case Mine => injection hf with hf; cases hf
  case WrongMine => injection hf with hf; cases hf
  case Exploded => injection hf with hf; cases hf
  case Flagged =>
    injection hf with hf
    injection hf with hf
    subst hf
    simp only [Formula.eval]
    rw [layoutBool_mine_var L hx hy]
    have hat := layoutConsistent_at hcons hx hy
    rw [hcell] at hat
    exact hat
  case Opened n =>
    dsimp only at hf
    split at hf
    · cases hf
    · rename_i g heq
      injection hf with hf
      injection hf with hf
      subst hf
      have hat := layoutConsistent_at hcons hx hy
      rw [hcell] at hat
      obtain ⟨hLxy, hn⟩ := hat
      simp only [Formula.eval]
      rw [layoutBool_mine_var L hx hy, hLxy]
      have hk := opened_k_eq hcons hass hx hy hcell
      by_cases hk0 : (n + 256 - v.nearby_flags x y) % 256 = 0
      · rw [if_pos hk0] at heq
        have hzero : ((v.nearby_cells x y).filter
            (fun c => (v.cell c.1 c.2).is_intact)).countP (fun c => L c.1 c.2) = 0 := by
          omega
        have hnone := List.countP_eq_zero.mp hzero
        have hg : g.eval (layoutBool v L) = true := by
          refine reduceConj_eval heq ?_
          intro f2 hf2
          rcases List.mem_map.mp hf2 with ⟨c, hcmem, rfl⟩
          obtain ⟨hcx, hcy⟩ := nearby_cells_bounds (List.mem_filter.mp hcmem).1
          simp only [Formula.eval]
          rw [layoutBool_mine_var L hcx hcy]
          have := hnone c hcmem
          simp at this
          simp [this]
        simp [hg]
      · rw [if_neg hk0] at heq
        split at heq
        · cases heq
        · rename_i profiles hmapM
          set N := (v.nearby_cells x y).filter (fun c => (v.cell c.1 c.2).is_intact)
            with hN
          set M := N.filter (fun c => L c.1 c.2) with hM
          have hMlen : M.length = (n + 256 - v.nearby_flags x y) % 256 := by
            rw [hM, ← List.countP_eq_length_filter, hk]
          have hMmem : M ∈ combinations ((n + 256 - v.nearby_flags x y) % 256) N :=
            combinations_mem N M (List.filter_sublist N) _ hMlen
          obtain ⟨phi, hphimem, hphi⟩ := mapM_forall_exists hmapM M hMmem
          have hphieval : phi.eval (layoutBool v L) = true := by
            refine reduceConj_eval hphi ?_
            intro f2 hf2
            rcases List.mem_map.mp hf2 with ⟨c, hcmem, rfl⟩
            obtain ⟨hcx, hcy⟩ := nearby_cells_bounds (List.mem_filter.mp hcmem).1
            by_cases hcM : c ∈ M
            · rw [if_pos hcM]
              simp only [Formula.eval]
              rw [layoutBool_mine_var L hcx hcy]
              exact (List.mem_filter.mp hcM).2
            · rw [if_neg hcM]
              simp only [Formula.eval]
              rw [layoutBool_mine_var L hcx hcy]
              have hLc : L c.1 c.2 = false := by
                by_contra hLc
                exact hcM (List.mem_filter.mpr ⟨hcmem, by simpa using hLc⟩)
              simp [hLc]
          have hg : g.eval (layoutBool v L) = true :=
            reduceDisj_eval heq hphimem hphieval
          simp [hg]

/-- Every variable of the constraint sub-formula of an in-bounds clue cell
is a cell variable, hence below `width * height`. -/
theorem constraint_cell_varsBelow {v : GameView} {x y : Nat}
    (hx : x < v.width) (hy : y < v.height) {f : Formula}
    (hf : v.constraint_cell x y = some (some f)) :
    f.varsBelow (v.width * v.height) = true := by
  unfold GameView.constraint_cell at hf
  cases hcell : v.cell x y <;> rw [hcell] at hf
  case Unopened => injection hf with hf; cases hf
  case Hovered => injection hf with hf; cases hf
  case Pushed => injection hf with hf; cases hf
  case Questioned => injection hf with hf; cases hf
  case Mine => injection hf with hf; cases hf
  case WrongMine => injection hf with hf; cases hf
  case Exploded => injection hf with hf; cases hf
  case Flagged =>
    injection hf with hf
    injection hf with hf
    subst hf
    simp [Formula.varsBelow, mine_var_lt hx hy]
  case Opened n =>
    dsimp only at hf
    split at hf
    · cases hf
    · rename_i g heq
      injection hf with hf
      injection hf with hf
      subst hf
      have hself : (Formula.Negation (Formula.Var (v.mine_var x y))).varsBelow
          (v.width * v.height) = true := by
        simp [Formula.varsBelow, mine_var_lt hx hy]
      have hmem_bound : ∀ c ∈ (v.nearby_cells x y).filter
          (fun c => (v.cell c.1 c.2).is_intact),
          v.mine_var c.1 c.2 < v.width * v.height := by
        intro c hcmem
        obtain ⟨hcx, hcy⟩ := nearby_cells_bounds (List.mem_filter.mp hcmem).1
        exact mine_var_lt hcx hcy
      have hg : g.varsBelow (v.width * v.height) = true := by
        by_cases hk0 : (n + 256 - v.nearby_flags x y) % 256 = 0
        · rw [if_pos hk0] at heq
          refine reduceConj_varsBelow heq ?_
          intro f2 hf2
          rcases List.mem_map.mp hf2 with ⟨c, hcmem, rfl⟩
          simp [Formula.varsBelow, hmem_bound c hcmem]
        · rw [if_neg hk0] at heq
          split at heq
          · cases heq
          · rename_i profiles hmapM
            refine reduceDisj_varsBelow heq ?_
            intro phi hphi
            obtain ⟨mines, hminesmem, hphi2⟩ := mapM_mem_exists hmapM phi hphi
            refine reduceConj_varsBelow hphi2 ?_
            intro f2 hf2
            rcases List.mem_map.mp hf2 with ⟨c, hcmem, rfl⟩
            by_cases hcM : c ∈ mines <;>
              simp [hcM, Formula.varsBelow, hmem_bound c hcmem]
      simp [Formula.varsBelow, hg, mine_var_lt hx hy]

/-- Every cell examined by `constraints` is in bounds (it is a neighbour of
some cell of the given set). -/
theorem constraints_cells_bounds {v : GameView} {ord : List (Nat × Nat)}
    {c : Nat × Nat}
    (h : c ∈ dedupFirst (ord.flatMap (fun c => v.nearby_cells c.1 c.2))) :
    c.1 < v.width ∧ c.2 < v.height := by
  rw [dedupFirst_mem] at h
  rcases List.mem_flatMap.mp h with ⟨a, _, hc⟩
  exact nearby_cells_bounds hc

/-- The conjunction built by `constraints` is true under the assignment of
any consistent layout. -/
theorem constraints_eval {v : GameView} {L : Nat → Nat → Bool}
    (hcons : layoutConsistent v L = true) (hass : solverAssumed v L = true)
    {ord : List (Nat × Nat)} {f : Formula}
    (hf : v.constraints ord = some f) : f.eval (layoutBool v L) = true := by
  unfold GameView.constraints at hf
  dsimp only at hf
  split at hf
  · cases hf
  · rename_i parts hmapM
    refine reduceConj_eval hf ?_
    intro g hg
    rcases List.mem_filterMap.mp hg with ⟨o, homem, hid⟩
    have ho : o = some g := hid
    rw [ho] at homem
    obtain ⟨c, hcmem, hcc⟩ := mapM_mem_exists hmapM (some g) homem
    obtain ⟨hcx, hcy⟩ := constraints_cells_bounds hcmem
    exact constraint_cell_eval hcons hass hcx hcy hcc

/-- Every variable of the conjunction built by `constraints` is a cell
variable of the board. -/
theorem constraints_varsBelow {v : GameView} {ord : List (Nat × Nat)} {f : Formula}
    (hf : v.constraints ord = some f) :
    f.varsBelow (v.width * v.height) = true := by
  unfold GameView.constraints at hf
  dsimp only at hf
  split at hf
  · cases hf
  · rename_i parts hmapM
    refine reduceConj_varsBelow hf ?_
    intro g hg
    rcases List.mem_filterMap.mp hg with ⟨o, homem, hid⟩
    have ho : o = some g := hid
    rw [ho] at homem
    obtain ⟨c, hcmem, hcc⟩ := mapM_mem_exists hmapM (some g) homem
    obtain ⟨hcx, hcy⟩ := constraints_cells_bounds hcmem
    exact constraint_cell_varsBelow hcx hcy hcc

theorem cnfOfVar (w : Variable) :
    cnfOfFormula (Formula.Var w) = some [[⟨w, Polarity.Positive⟩]] := rfl

theorem cnfOfNegVar (w : Variable) :
    cnfOfFormula (Formula.Negation (Formula.Var w)) =
      some [[⟨w, Polarity.Negative⟩]] := rfl

/-- Shape of a successful `check_cell`: the verdict names this cell alone,
and records which backend query answered true. -/
theorem check_cell_cases {b : Cnf → Cnf → Option Bool} {v : GameView} {C : Cnf}
    {x y : Nat} {r : SolveResult} (h : check_cell b v C x y = some r) :
    (r = ⟨[], [(x, y)]⟩ ∧ b C [[⟨v.mine_var x y, Polarity.Positive⟩]] = some true) ∨
    (r = ⟨[(x, y)], []⟩ ∧ b C [[⟨v.mine_var x y, Polarity.Negative⟩]] = some true) ∨
    r = ⟨[], []⟩ := by
  unfold check_cell at h
  rw [cnfOfVar] at h
  dsimp only at h
  cases h1 : b C [[⟨v.mine_var x y, Polarity.Positive⟩]] with
  | none => rw [h1] at h; cases h
  | some verdict1 =>
    rw [h1] at h
    cases verdict1 with
    | true =>
      injection h with h
      exact Or.inl ⟨h.symm, rfl⟩
    | false =>
      rw [cnfOfNegVar] at h
      dsimp only at h
      cases h2 : b C [[⟨v.mine_var x y, Polarity.Negative⟩]] with
      | none => rw [h2] at h; cases h
      | some verdict2 =>
        rw [h2] at h
        cases verdict2 with
        | true =>
          injection h with h
          exact Or.inr (Or.inl ⟨h.symm, rfl⟩)
        | false =>
          injection h with h
          exact Or.inr (Or.inr h.symm)

/-- What the per-cell loop reports as a sure mine: a cell of the examined
list whose no-mine assumption the backend refuted. -/
theorem checkCells_mbm {b : Cnf → Cnf → Option Bool} {v : GameView} {C : Cnf} :
    ∀ {cells : List (Nat × Nat)} {r : SolveResult},
      checkCells b v C cells = some r → ∀ p ∈ r.must_be_mine,
        p ∈ cells ∧ b C [[⟨v.mine_var p.1 p.2, Polarity.Negative⟩]] = some true := by
  intro cells
  induction cells with
  | nil =>
    intro r h p hp
    unfold checkCells at h
    injection h with h
    subst h
    simp at hp
  | cons c cs ih =>
    intro r h p hp
    unfold checkCells at h
    cases h1 : check_cell b v C c.1 c.2 with
    | none => rw [h1] at h; cases h
    | some rc =>
      rw [h1] at h
      cases h2 : checkCells b v C cs with
      | none => rw [h2] at h; cases h
      | some rest =>
        rw [h2] at h
        injection h with h
        subst h
        rcases List.mem_append.mp hp with hp1 | hp2
        · rcases check_cell_cases h1 with ⟨hrc, _⟩ | ⟨hrc, hq⟩ | hrc
          · rw [hrc] at hp1; simp at hp1
          · rw [hrc] at hp1
            simp at hp1
            subst hp1
            exact ⟨by simp, hq⟩
          · rw [hrc] at hp1; simp at hp1
        · obtain ⟨hmem, hq⟩ := ih h2 p hp2
          exact ⟨by simp [hmem], hq⟩

/-- What the per-cell loop reports as surely mine-free: a cell of the
examined list whose mine assumption the backend refuted. -/
theorem checkCells_mnm {b : Cnf → Cnf → Option Bool} {v : GameView} {C : Cnf} :
    ∀ {cells : List (Nat × Nat)} {r : SolveResult},
      checkCells b v C cells = some r → ∀ p ∈ r.must_not_mine,
        p ∈ cells ∧ b C [[⟨v.mine_var p.1 p.2, Polarity.Positive⟩]] = some true := by
  intro cells
  induction cells with
  | nil =>
    intro r h p hp
    unfold checkCells at h
    injection h with h
    subst h
    simp at hp
  | cons c cs ih =>
    intro r h p hp
    unfold checkCells at h
    cases h1 : check_cell b v C c.1 c.2 with
    | none => rw [h1] at h; cases h
    | some rc =>
      rw [h1] at h
      cases h2 : checkCells b v C cs with
      | none => rw [h2] at h; cases h
      | some rest =>
        rw [h2] at h
        injection h with h
        subst h
        rcases List.mem_append.mp hp with hp1 | hp2
        · rcases check_cell_cases h1 with ⟨hrc, hq⟩ | ⟨hrc, _⟩ | hrc
          · rw [hrc] at hp1
            simp at hp1
            subst hp1
            exact ⟨by simp, hq⟩
          · rw [hrc] at hp1; simp at hp1
          · rw [hrc] at hp1; simp at hp1
        · obtain ⟨hmem, hq⟩ := ih h2 p hp2
          exact ⟨by simp [hmem], hq⟩

/-- A `true` verdict of the tinysat backend refutes the combined CNF. -/
theorem tinysat_refutes {C a : Cnf} (h : tinysat_is_unsat C a = some true) :
    ∀ sg, cnfHolds sg (C ++ a) = false := by
  unfold tinysat_is_unsat at h
  cases hs : Cnf.solve (C ++ a) with
  | none => rw [hs] at h; cases h
  | some m =>
    rw [hs] at h
    cases m with
    | Satisfied A => simp [Model.is_unsat] at h
    | Unsatisfiable => exact solve_Unsatisfiable_sound hs

theorem singleton_cnf_false {sg : Nat → Bool} {l : Literal}
    (h : cnfHolds sg [[l]] = false) : sg l.var = !l.polarity.toBool := by
  simp [cnfHolds, clauseHolds, litHolds] at h
  cases hb : sg l.var <;> cases hp : l.polarity.toBool <;> simp_all

/-- Soundness of the solver driver on boards whose cell variables stay
below the Tseitin base, relative to a layout that is consistent with the
view and mine-free on the cells the encoding silently assumes safe. -/
theorem solveWith_sound (v : GameView) (L : Nat → Nat → Bool)
    (ord : List (Nat × Nat)) (r : SolveResult)
    (hsize : v.width * v.height ≤ 0x10000)
    (hord : ∀ c ∈ ord, c.1 < v.width ∧ c.2 < v.height)
    (hcons : layoutConsistent v L = true) (hass : solverAssumed v L = true)
    (hr : v.solveWith tinysat_is_unsat ord = some r) :
    (∀ p ∈ r.must_be_mine, L p.1 p.2 = true) ∧
    (∀ p ∈ r.must_not_mine, L p.1 p.2 = false) := by
  unfold GameView.solveWith at hr
  by_cases hres : v.result ≠ GameResult.Playing
  · rw [if_pos hres] at hr
    injection hr with hr
    subst hr
    constructor <;> intro p hp <;> simp at hp
  · rw [if_neg hres] at hr
    cases hcstr : v.constraints ord with
    | none => rw [hcstr] at hr; cases hr
    | some f =>
      rw [hcstr] at hr
      dsimp only at hr
      cases henc : f.tseitin_encode 0x10000 with
      | none => rw [henc] at hr; cases hr
      | some C =>
        rw [henc] at hr
        have hvb : f.varsBelow 0x10000 = true :=
          varsBelow_mono hsize (constraints_varsBelow hcstr)
        have hmv : f.maximum_variable < 0x10000 :=
          (maximum_variable_lt_iff f _).mpr hvb
        have hev : f.eval (layoutBool v L) = true := constraints_eval hcons hass hcstr
        obtain ⟨sg2, hsgC, hagree⟩ := tseitin_encode_complete f _ hmv henc _ hev
        constructor
        · intro p hp
          obtain ⟨hpmem, hq⟩ := checkCells_mbm hr p hp
          obtain ⟨hpx, hpy⟩ := hord p hpmem
          have hun := tinysat_refutes hq sg2
          rw [cnfHolds_append, hsgC, Bool.true_and] at hun
          have hval := singleton_cnf_false hun
          simp [Polarity.toBool] at hval
          have hlt : v.mine_var p.1 p.2 < 0x10000 :=
            lt_of_lt_of_le (mine_var_lt hpx hpy) hsize
          have h2 : layoutBool v L (v.mine_var p.1 p.2) = true := by
            rw [← hagree _ hlt]
            exact hval
          rw [layoutBool_mine_var L hpx hpy] at h2
          exact h2
        · intro p hp
          obtain ⟨hpmem, hq⟩ := checkCells_mnm hr p hp
          obtain ⟨hpx, hpy⟩ := hord p hpmem
          have hun := tinysat_refutes hq sg2
          rw [cnfHolds_append, hsgC, Bool.true_and] at hun
          have hval := singleton_cnf_false hun
          simp [Polarity.toBool] at hval
          have hlt : v.mine_var p.1 p.2 < 0x10000 :=
            lt_of_lt_of_le (mine_var_lt hpx hpy) hsize
          have h2 : layoutBool v L (v.mine_var p.1 p.2) = false := by
            rw [← hagree _ hlt]
            exact hval
          rw [layoutBool_mine_var L hpx hpy] at h2
          exact h2

/-- Every cell of the driver's active set is in bounds. -/
theorem active_cells_bounds {v : GameView} {c : Nat × Nat}
    (h : c ∈ v.active_cells) : c.1 < v.width ∧ c.2 < v.height := by
  unfold GameView.active_cells at h
  rw [dedupFirst_mem] at h
  rcases List.mem_flatMap.mp h with ⟨y, hy, h2⟩
  rcases List.mem_flatMap.mp h2 with ⟨x, hx, h3⟩
  revert h3
  cases v.cell x y <;> intro h3 <;>
    first
      | exact nearby_cells_bounds (List.mem_filter.mp h3).1
      | simp at h3

/-- The two lists of a successful `check_cell` never share a coordinate. -/
theorem checkCells_disjoint {b : Cnf → Cnf → Option Bool} {v : GameView} {C : Cnf} :
    ∀ {cells : List (Nat × Nat)} {r : SolveResult},
      checkCells b v C cells = some r → cells.Nodup →
      ∀ p ∈ r.must_be_mine, p ∉ r.must_not_mine := by
  intro cells
  induction cells with
  | nil =>
    intro r h hnd p hp
    unfold checkCells at h
    injection h with h
    subst h
    simp at hp
  | cons c cs ih =>
    intro r h hnd p hp hpn
    unfold checkCells at h
    cases h1 : check_cell b v C c.1 c.2 with
    | none => rw [h1] at h; cases h
    | some rc =>
      rw [h1] at h
      cases h2 : checkCells b v C cs with
      | none => rw [h2] at h; cases h
      | some rest =>
        rw [h2] at h
        injection h with h
        subst h
        obtain ⟨hcns, hnd2⟩ := List.nodup_cons.mp hnd
        rcases List.mem_append.mp hp with hp1 | hp2
        · rcases check_cell_cases h1 with ⟨hrc, _⟩ | ⟨hrc, _⟩ | hrc
          · rw [hrc] at hp1; simp at hp1
          · rw [hrc] at hp1
            simp at hp1
            subst hp1
            rcases List.mem_append.mp hpn with hpn1 | hpn2
            · rw [hrc] at hpn1; simp at hpn1
            · exact hcns ((checkCells_mnm h2 p hpn2).1)
          · rw [hrc] at hp1; simp at hp1
        · rcases List.mem_append.mp hpn with hpn1 | hpn2
          · rcases check_cell_cases h1 with ⟨hrc, _⟩ | ⟨hrc, _⟩ | hrc
            · rw [hrc] at hpn1
              simp at hpn1
              subst hpn1
              exact hcns ((checkCells_mbm h2 p hp2).1)
            · rw [hrc] at hpn1; simp at hpn1
            · rw [hrc] at hpn1; simp at hpn1
          · exact ih h2 hnd2 p hp2 hpn2

/-- The per-cell verdict of the loop, as a function of the cell alone. -/
def cellVerdictMbm (b : Cnf → Cnf → Option Bool) (v : GameView) (C : Cnf)
    (c : Nat × Nat) : List (Nat × Nat) :=
  match check_cell b v C c.1 c.2 with
  | some rc => rc.must_be_mine
  | none => []

def cellVerdictMnm (b : Cnf → Cnf → Option Bool) (v : GameView) (C : Cnf)
    (c : Nat × Nat) : List (Nat × Nat) :=
  match check_cell b v C c.1 c.2 with
  | some rc => rc.must_not_mine
  | none => []

/-- A successful run of the per-cell loop concatenates the pointwise
verdicts in the order of the examined list. -/
theorem checkCells_eq_flatMap {b : Cnf → Cnf → Option Bool} {v : GameView} {C : Cnf} :
    ∀ {cells : List (Nat × Nat)} {r : SolveResult},
      checkCells b v C cells = some r →
      r.must_be_mine = cells.flatMap (cellVerdictMbm b v C) ∧
      r.must_not_mine = cells.flatMap (cellVerdictMnm b v C) := by
  intro cells
  induction cells with
  | nil =>
    intro r h
    unfold checkCells at h
    injection h with h
    subst h
    simp
  | cons c cs ih =>
    intro r h
    unfold checkCells at h
    cases h1 : check_cell b v C c.1 c.2 with
    | none => rw [h1] at h; cases h
    | some rc =>
      rw [h1] at h
      cases h2 : checkCells b v C cs with
      | none => rw [h2] at h; cases h
      | some rest =>
        rw [h2] at h
        injection h with h
        subst h
        obtain ⟨ihm, ihn⟩ := ih h2
        constructor
        · simp only [List.flatMap_cons, SolveResult.merge]
          rw [← ihm]
          unfold cellVerdictMbm
          rw [h1]
        · simp only [List.flatMap_cons, SolveResult.merge]
          rw [← ihn]
          unfold cellVerdictMnm
          rw [h1]

/-- The loop succeeds exactly when every per-cell check does. -/
theorem checkCells_some_of_all {b : Cnf → Cnf → Option Bool} {v : GameView} {C : Cnf} :
    ∀ {cells : List (Nat × Nat)},
      (∀ c ∈ cells, ∃ rc, check_cell b v C c.1 c.2 = some rc) →
      ∃ r, checkCells b v C cells = some r := by
  intro cells
  induction cells with
  | nil => intro _; exact ⟨⟨[], []⟩, rfl⟩
  | cons c cs ih =>
    intro hall
    obtain ⟨rc, hrc⟩ := hall c (by simp)
    obtain ⟨rest, hrest⟩ := ih (fun d hd => hall d (by simp [hd]))
    refine ⟨rc.merge rest, ?_⟩
    unfold checkCells
    rw [hrc, hrest]

theorem checkCells_all_of_some {b : Cnf → Cnf → Option Bool} {v : GameView} {C : Cnf} :
    ∀ {cells : List (Nat × Nat)} {r : SolveResult},
      checkCells b v C cells = some r →
      ∀ c ∈ cells, ∃ rc, check_cell b v C c.1 c.2 = some rc := by
  intro cells
  induction cells with
  | nil => intro r _ c hc; simp at hc
  | cons c cs ih =>
    intro r h d hd
    unfold checkCells at h
    cases h1 : check_cell b v C c.1 c.2 with
    | none => rw [h1] at h; cases h
    | some rc =>
      rw [h1] at h
      cases h2 : checkCells b v C cs with
      | none => rw [h2] at h; cases h
      | some rest =>
        rcases List.mem_cons.mp hd with rfl | hd2
        · exact ⟨rc, h1⟩
        · exact ih h2 d hd2

/-- C8 (amended): permuting the examined cell set permutes the verdict
lists — for a fixed constraint CNF and backend, the iteration order of the
per-cell loop can only reorder the reported cells, never change them. -/
theorem checkCells_perm {b : Cnf → Cnf → Option Bool} {v : GameView} {C : Cnf}
    {ord1 ord2 : List (Nat × Nat)} {r1 : SolveResult}
    (hperm : ord1.Perm ord2) (h1 : checkCells b v C ord1 = some r1) :
    ∃ r2, checkCells b v C ord2 = some r2 ∧
      r1.must_be_mine.Perm r2.must_be_mine ∧
      r1.must_not_mine.Perm r2.must_not_mine := by
  obtain ⟨r2, h2⟩ := checkCells_some_of_all
    (fun c hc => checkCells_all_of_some h1 c (hperm.mem_iff.mpr hc))
  obtain ⟨hm1, hn1⟩ := checkCells_eq_flatMap h1
  obtain ⟨hm2, hn2⟩ := checkCells_eq_flatMap h2
  refine ⟨r2, h2, ?_, ?_⟩
  · rw [hm1, hm2]
    exact hperm.flatMap_right _
  · rw [hn1, hn2]
    exact hperm.flatMap_right _

/-! ## Concrete pipeline runs (the work-list and DPLL loops stepped through
their equation lemmas) -/

/-- A 2-by-1 board whose left cell is opened showing 0: the driver proves
the remaining cell mine-free. -/
def viewOpenPair : GameView :=
  ⟨2, 1, fun x _ => if x = 0 then CellView.Opened 0 else CellView.Unopened,
    GameResult.Playing⟩

/-- Concrete run of the full pipeline on `viewOpenPair`, stepping the
work-list and DPLL loops through their equation lemmas. -/
theorem solve_viewOpenPair :
    GameView.solve tinysat_is_unsat viewOpenPair = some ⟨[], [(1, 0)]⟩ := by
  have hsolntm : Cnf.solve [[⟨65536, Polarity.Positive⟩], [⟨65536, Polarity.Positive⟩, ⟨1, Polarity.Positive⟩, ⟨0, Polarity.Positive⟩], [⟨65536, Polarity.Negative⟩, ⟨1, Polarity.Negative⟩], [⟨65536, Polarity.Negative⟩, ⟨0, Polarity.Negative⟩], [⟨1, Polarity.Positive⟩]] = some Model.Unsatisfiable := by
    unfold Cnf.solve
    rw [(by decide : all_variables [[⟨65536, Polarity.Positive⟩], [⟨65536, Polarity.Positive⟩, ⟨1, Polarity.Positive⟩, ⟨0, Polarity.Positive⟩], [⟨65536, Polarity.Negative⟩, ⟨1, Polarity.Negative⟩], [⟨65536, Polarity.Negative⟩, ⟨0, Polarity.Negative⟩], [⟨1, Polarity.Positive⟩]] = [65536, 1, 0])]
    have hup1 : unit_propagation [[⟨1, Polarity.Negative⟩], [⟨0, Polarity.Negative⟩], [⟨1, Polarity.Positive⟩]] = UnitPropagationResult.Unsatisfiable := by
      unfold unit_propagation
      exact up_loop_eq_unsat (by decide : scanClauses [] [[⟨1, Polarity.Negative⟩], [⟨0, Polarity.Negative⟩], [⟨1, Polarity.Positive⟩]] = none)
    rw [solve_rec_eq_upunsat (by decide) (by decide : assign [[⟨65536, Polarity.Positive⟩], [⟨65536, Polarity.Positive⟩, ⟨1, Polarity.Positive⟩, ⟨0, Polarity.Positive⟩], [⟨65536, Polarity.Negative⟩, ⟨1, Polarity.Negative⟩], [⟨65536, Polarity.Negative⟩, ⟨0, Polarity.Negative⟩], [⟨1, Polarity.Positive⟩]] [(65536, Polarity.Positive)] = AssignResult.Reduced [[⟨1, Polarity.Negative⟩], [⟨0, Polarity.Negative⟩], [⟨1, Polarity.Positive⟩]]) hup1]
    have hup2 : unit_propagation [[], [⟨1, Polarity.Positive⟩, ⟨0, Polarity.Positive⟩], [⟨1, Polarity.Positive⟩]] = UnitPropagationResult.Unsatisfiable := by
      unfold unit_propagation
      exact up_loop_eq_unsat (by decide : scanClauses [] [[], [⟨1, Polarity.Positive⟩, ⟨0, Polarity.Positive⟩], [⟨1, Polarity.Positive⟩]] = none)
    exact solve_neg_eq_upunsat (by decide : assign [[⟨65536, Polarity.Positive⟩], [⟨65536, Polarity.Positive⟩, ⟨1, Polarity.Positive⟩, ⟨0, Polarity.Positive⟩], [⟨65536, Polarity.Negative⟩, ⟨1, Polarity.Negative⟩], [⟨65536, Polarity.Negative⟩, ⟨0, Polarity.Negative⟩], [⟨1, Polarity.Positive⟩]] [(65536, Polarity.Negative)] = AssignResult.Reduced [[], [⟨1, Polarity.Positive⟩, ⟨0, Polarity.Positive⟩], [⟨1, Polarity.Positive⟩]]) hup2
  have htinyntm : tinysat_is_unsat [[⟨65536, Polarity.Positive⟩], [⟨65536, Polarity.Positive⟩, ⟨1, Polarity.Positive⟩, ⟨0, Polarity.Positive⟩], [⟨65536, Polarity.Negative⟩, ⟨1, Polarity.Negative⟩], [⟨65536, Polarity.Negative⟩, ⟨0, Polarity.Negative⟩]] [[⟨1, Polarity.Positive⟩]] = some true := by
    unfold tinysat_is_unsat
    rw [(by decide : ([[⟨65536, Polarity.Positive⟩], [⟨65536, Polarity.Positive⟩, ⟨1, Polarity.Positive⟩, ⟨0, Polarity.Positive⟩], [⟨65536, Polarity.Negative⟩, ⟨1, Polarity.Negative⟩], [⟨65536, Polarity.Negative⟩, ⟨0, Polarity.Negative⟩]] : Cnf) ++ [[⟨1, Polarity.Positive⟩]] = [[⟨65536, Polarity.Positive⟩], [⟨65536, Polarity.Positive⟩, ⟨1, Polarity.Positive⟩, ⟨0, Polarity.Positive⟩], [⟨65536, Polarity.Negative⟩, ⟨1, Polarity.Negative⟩], [⟨65536, Polarity.Negative⟩, ⟨0, Polarity.Negative⟩], [⟨1, Polarity.Positive⟩]])]
    rw [hsolntm]
    rfl
  have hchkA : check_cell tinysat_is_unsat viewOpenPair [[⟨65536, Polarity.Positive⟩], [⟨65536, Polarity.Positive⟩, ⟨1, Polarity.Positive⟩, ⟨0, Polarity.Positive⟩], [⟨65536, Polarity.Negative⟩, ⟨1, Polarity.Negative⟩], [⟨65536, Polarity.Negative⟩, ⟨0, Polarity.Negative⟩]] 1 0 = some ⟨[], [(1, 0)]⟩ := by
    unfold check_cell
    rw [(by decide : GameView.mine_var viewOpenPair 1 0 = 1)]
    rw [cnfOfVar]
    dsimp only
    rw [htinyntm]
  have hcellsA0 : checkCells tinysat_is_unsat viewOpenPair [[⟨65536, Polarity.Positive⟩], [⟨65536, Polarity.Positive⟩, ⟨1, Polarity.Positive⟩, ⟨0, Polarity.Positive⟩], [⟨65536, Polarity.Negative⟩, ⟨1, Polarity.Negative⟩], [⟨65536, Polarity.Negative⟩, ⟨0, Polarity.Negative⟩]] [(1, 0)] = some ⟨[], [(1, 0)]⟩ := by
    unfold checkCells
    rw [hchkA]
    rfl
  have hencA : Formula.tseitin_encode (Formula.Conjunction (Formula.Negation (Formula.Var 1)) (Formula.Negation (Formula.Var 0))) 65536 = some [[⟨65536, Polarity.Positive⟩], [⟨65536, Polarity.Positive⟩, ⟨1, Polarity.Positive⟩, ⟨0, Polarity.Positive⟩], [⟨65536, Polarity.Negative⟩, ⟨1, Polarity.Negative⟩], [⟨65536, Polarity.Negative⟩, ⟨0, Polarity.Negative⟩]] := by
    show tseitin_loop [((Literal.positive 65536), (Formula.Conjunction (Formula.Negation (Formula.Var 1)) (Formula.Negation (Formula.Var 0))))] 65537 [[(Literal.positive 65536)]] = some [[⟨65536, Polarity.Positive⟩], [⟨65536, Polarity.Positive⟩, ⟨1, Polarity.Positive⟩, ⟨0, Polarity.Positive⟩], [⟨65536, Polarity.Negative⟩, ⟨1, Polarity.Negative⟩], [⟨65536, Polarity.Negative⟩, ⟨0, Polarity.Negative⟩]]
    rw [tseitin_loop_eq_conj
      (by decide : wrap_formula (Formula.Negation (Formula.Var 1)) 65537 [] = ((Literal.negative 1), 65537, []))
      (by decide : wrap_formula (Formula.Negation (Formula.Var 0)) 65537 [] = ((Literal.negative 0), 65537, []))]
    rw [tseitin_loop_eq_nil]
    rfl
  unfold GameView.solve
  rw [(by decide : GameView.active_cells viewOpenPair = [(1, 0)])]
  unfold GameView.solveWith
  rw [if_neg (by decide : ¬(viewOpenPair.result ≠ GameResult.Playing))]
  rw [(by decide : GameView.constraints viewOpenPair [(1, 0)] = some (Formula.Conjunction (Formula.Negation (Formula.Var 1)) (Formula.Negation (Formula.Var 0))))]
  dsimp only
  rw [hencA]
  dsimp only
  exact hcellsA0


/-- A 3-by-1 board: a Questioned cell, an opened clue showing 1, an
unopened cell.  The encoding silently assumes the Questioned cell is
mine-free, so the solver pins the mine on the unopened cell. -/
def viewQuestioned : GameView :=
  ⟨3, 1, fun x _ => if x = 0 then CellView.Questioned
    else if x = 1 then CellView.Opened 1 else CellView.Unopened,
    GameResult.Playing⟩

/-- Concrete run of the full pipeline on `viewQuestioned`. -/
theorem solve_viewQuestioned :
    GameView.solve tinysat_is_unsat viewQuestioned = some ⟨[(2, 0)], []⟩ := by
  have hsolq1 : Cnf.solve [[⟨65536, Polarity.Positive⟩], [⟨65536, Polarity.Positive⟩, ⟨2, Polarity.Negative⟩, ⟨1, Polarity.Positive⟩], [⟨65536, Polarity.Negative⟩, ⟨2, Polarity.Positive⟩], [⟨65536, Polarity.Negative⟩, ⟨1, Polarity.Negative⟩], [⟨2, Polarity.Positive⟩]] = some (Model.Satisfied [(2, Polarity.Positive), (1, Polarity.Negative), (65536, Polarity.Positive)]) := by
    unfold Cnf.solve
    rw [(by decide : all_variables [[⟨65536, Polarity.Positive⟩], [⟨65536, Polarity.Positive⟩, ⟨2, Polarity.Negative⟩, ⟨1, Polarity.Positive⟩], [⟨65536, Polarity.Negative⟩, ⟨2, Polarity.Positive⟩], [⟨65536, Polarity.Negative⟩, ⟨1, Polarity.Negative⟩], [⟨2, Polarity.Positive⟩]] = [65536, 2, 1])]
    have hup1 : unit_propagation [[⟨2, Polarity.Positive⟩], [⟨1, Polarity.Negative⟩], [⟨2, Polarity.Positive⟩]] = UnitPropagationResult.Continue [] [(1, Polarity.Negative), (2, Polarity.Positive)] := by
      unfold unit_propagation
      rw [up_loop_eq_red (by decide : scanClauses [] [[⟨2, Polarity.Positive⟩], [⟨1, Polarity.Negative⟩], [⟨2, Polarity.Positive⟩]] = some [(1, Polarity.Negative), (2, Polarity.Positive)]) (by decide : assign [[⟨2, Polarity.Positive⟩], [⟨1, Polarity.Negative⟩], [⟨2, Polarity.Positive⟩]] [(1, Polarity.Negative), (2, Polarity.Positive)] = AssignResult.Reduced [])]
      exact up_loop_eq_unch (by decide : scanClauses [(1, Polarity.Negative), (2, Polarity.Positive)] [] = some [(1, Polarity.Negative), (2, Polarity.Positive)]) (by decide : assign [] [(1, Polarity.Negative), (2, Polarity.Positive)] = AssignResult.Unchanged [])
    rw [solve_rec_eq_cont (by decide) (by decide : assign [[⟨65536, Polarity.Positive⟩], [⟨65536, Polarity.Positive⟩, ⟨2, Polarity.Negative⟩, ⟨1, Polarity.Positive⟩], [⟨65536, Polarity.Negative⟩, ⟨2, Polarity.Positive⟩], [⟨65536, Polarity.Negative⟩, ⟨1, Polarity.Negative⟩], [⟨2, Polarity.Positive⟩]] [(65536, Polarity.Positive)] = AssignResult.Reduced [[⟨2, Polarity.Positive⟩], [⟨1, Polarity.Negative⟩], [⟨2, Polarity.Positive⟩]]) hup1]
    rw [(by decide : List.foldl (fun (vs : List Variable) (kv : Variable × Polarity) => vs.erase kv.1) ([2, 1] : List Variable) ([(1, Polarity.Negative), (2, Polarity.Positive)] : Assignment) = [])]
    have hrec2 : solve_rec [] [] = some (Model.Satisfied []) := by
      exact solve_rec_eq_nil []
    rw [hrec2]
    rfl
  have hsolq2 : Cnf.solve [[⟨65536, Polarity.Positive⟩], [⟨65536, Polarity.Positive⟩, ⟨2, Polarity.Negative⟩, ⟨1, Polarity.Positive⟩], [⟨65536, Polarity.Negative⟩, ⟨2, Polarity.Positive⟩], [⟨65536, Polarity.Negative⟩, ⟨1, Polarity.Negative⟩], [⟨2, Polarity.Negative⟩]] = some Model.Unsatisfiable := by
    unfold Cnf.solve
    rw [(by decide : all_variables [[⟨65536, Polarity.Positive⟩], [⟨65536, Polarity.Positive⟩, ⟨2, Polarity.Negative⟩, ⟨1, Polarity.Positive⟩], [⟨65536, Polarity.Negative⟩, ⟨2, Polarity.Positive⟩], [⟨65536, Polarity.Negative⟩, ⟨1, Polarity.Negative⟩], [⟨2, Polarity.Negative⟩]] = [65536, 2, 1])]
    have hup1 : unit_propagation [[⟨2, Polarity.Positive⟩], [⟨1, Polarity.Negative⟩], [⟨2, Polarity.Negative⟩]] = UnitPropagationResult.Unsatisfiable := by
      unfold unit_propagation
      exact up_loop_eq_unsat (by decide : scanClauses [] [[⟨2, Polarity.Positive⟩], [⟨1, Polarity.Negative⟩], [⟨2, Polarity.Negative⟩]] = none)
    rw [solve_rec_eq_upunsat (by decide) (by decide : assign [[⟨65536, Polarity.Positive⟩], [⟨65536, Polarity.Positive⟩, ⟨2, Polarity.Negative⟩, ⟨1, Polarity.Positive⟩], [⟨65536, Polarity.Negative⟩, ⟨2, Polarity.Positive⟩], [⟨65536, Polarity.Negative⟩, ⟨1, Polarity.Negative⟩], [⟨2, Polarity.Negative⟩]] [(65536, Polarity.Positive)] = AssignResult.Reduced [[⟨2, Polarity.Positive⟩], [⟨1, Polarity.Negative⟩], [⟨2, Polarity.Negative⟩]]) hup1]
    have hup2 : unit_propagation [[], [⟨2, Polarity.Negative⟩, ⟨1, Polarity.Positive⟩], [⟨2, Polarity.Negative⟩]] = UnitPropagationResult.Unsatisfiable := by
      unfold unit_propagation
      exact up_loop_eq_unsat (by decide : scanClauses [] [[], [⟨2, Polarity.Negative⟩, ⟨1, Polarity.Positive⟩], [⟨2, Polarity.Negative⟩]] = none)
    exact solve_neg_eq_upunsat (by decide : assign [[⟨65536, Polarity.Positive⟩], [⟨65536, Polarity.Positive⟩, ⟨2, Polarity.Negative⟩, ⟨1, Polarity.Positive⟩], [⟨65536, Polarity.Negative⟩, ⟨2, Polarity.Positive⟩], [⟨65536, Polarity.Negative⟩, ⟨1, Polarity.Negative⟩], [⟨2, Polarity.Negative⟩]] [(65536, Polarity.Negative)] = AssignResult.Reduced [[], [⟨2, Polarity.Negative⟩, ⟨1, Polarity.Positive⟩], [⟨2, Polarity.Negative⟩]]) hup2
  have htinyq1 : tinysat_is_unsat [[⟨65536, Polarity.Positive⟩], [⟨65536, Polarity.Positive⟩, ⟨2, Polarity.Negative⟩, ⟨1, Polarity.Positive⟩], [⟨65536, Polarity.Negative⟩, ⟨2, Polarity.Positive⟩], [⟨65536, Polarity.Negative⟩, ⟨1, Polarity.Negative⟩]] [[⟨2, Polarity.Positive⟩]] = some false := by
    unfold tinysat_is_unsat
    rw [(by decide : ([[⟨65536, Polarity.Positive⟩], [⟨65536, Polarity.Positive⟩, ⟨2, Polarity.Negative⟩, ⟨1, Polarity.Positive⟩], [⟨65536, Polarity.Negative⟩, ⟨2, Polarity.Positive⟩], [⟨65536, Polarity.Negative⟩, ⟨1, Polarity.Negative⟩]] : Cnf) ++ [[⟨2, Polarity.Positive⟩]] = [[⟨65536, Polarity.Positive⟩], [⟨65536, Polarity.Positive⟩, ⟨2, Polarity.Negative⟩, ⟨1, Polarity.Positive⟩], [⟨65536, Polarity.Negative⟩, ⟨2, Polarity.Positive⟩], [⟨65536, Polarity.Negative⟩, ⟨1, Polarity.Negative⟩], [⟨2, Polarity.Positive⟩]])]
    rw [hsolq1]
    rfl
  have htinyq2 : tinysat_is_unsat [[⟨65536, Polarity.Positive⟩], [⟨65536, Polarity.Positive⟩, ⟨2, Polarity.Negative⟩, ⟨1, Polarity.Positive⟩], [⟨65536, Polarity.Negative⟩, ⟨2, Polarity.Positive⟩], [⟨65536, Polarity.Negative⟩, ⟨1, Polarity.Negative⟩]] [[⟨2, Polarity.Negative⟩]] = some true := by
    unfold tinysat_is_unsat
    rw [(by decide : ([[⟨65536, Polarity.Positive⟩], [⟨65536, Polarity.Positive⟩, ⟨2, Polarity.Negative⟩, ⟨1, Polarity.Positive⟩], [⟨65536, Polarity.Negative⟩, ⟨2, Polarity.Positive⟩], [⟨65536, Polarity.Negative⟩, ⟨1, Polarity.Negative⟩]] : Cnf) ++ [[⟨2, Polarity.Negative⟩]] = [[⟨65536, Polarity.Positive⟩], [⟨65536, Polarity.Positive⟩, ⟨2, Polarity.Negative⟩, ⟨1, Polarity.Positive⟩], [⟨65536, Polarity.Negative⟩, ⟨2, Polarity.Positive⟩], [⟨65536, Polarity.Negative⟩, ⟨1, Polarity.Negative⟩], [⟨2, Polarity.Negative⟩]])]
    rw [hsolq2]
    rfl
  have hchkQ : check_cell tinysat_is_unsat viewQuestioned [[⟨65536, Polarity.Positive⟩], [⟨65536, Polarity.Positive⟩, ⟨2, Polarity.Negative⟩, ⟨1, Polarity.Positive⟩], [⟨65536, Polarity.Negative⟩, ⟨2, Polarity.Positive⟩], [⟨65536, Polarity.Negative⟩, ⟨1, Polarity.Negative⟩]] 2 0 = some ⟨[(2, 0)], []⟩ := by
    unfold check_cell
    rw [(by decide : GameView.mine_var viewQuestioned 2 0 = 2)]
    rw [cnfOfVar]
    dsimp only
    rw [htinyq1]
    dsimp only
    rw [cnfOfNegVar]
    dsimp only
    rw [htinyq2]
  have hcellsQ0 : checkCells tinysat_is_unsat viewQuestioned [[⟨65536, Polarity.Positive⟩], [⟨65536, Polarity.Positive⟩, ⟨2, Polarity.Negative⟩, ⟨1, Polarity.Positive⟩], [⟨65536, Polarity.Negative⟩, ⟨2, Polarity.Positive⟩], [⟨65536, Polarity.Negative⟩, ⟨1, Polarity.Negative⟩]] [(2, 0)] = some ⟨[(2, 0)], []⟩ := by
    unfold checkCells
    rw [hchkQ]
    rfl
  have hencQ : Formula.tseitin_encode (Formula.Conjunction (Formula.Var 2) (Formula.Negation (Formula.Var 1))) 65536 = some [[⟨65536, Polarity.Positive⟩], [⟨65536, Polarity.Positive⟩, ⟨2, Polarity.Negative⟩, ⟨1, Polarity.Positive⟩], [⟨65536, Polarity.Negative⟩, ⟨2, Polarity.Positive⟩], [⟨65536, Polarity.Negative⟩, ⟨1, Polarity.Negative⟩]] := by
    show tseitin_loop [((Literal.positive 65536), (Formula.Conjunction (Formula.Var 2) (Formula.Negation (Formula.Var 1))))] 65537 [[(Literal.positive 65536)]] = some [[⟨65536, Polarity.Positive⟩], [⟨65536, Polarity.Positive⟩, ⟨2, Polarity.Negative⟩, ⟨1, Polarity.Positive⟩], [⟨65536, Polarity.Negative⟩, ⟨2, Polarity.Positive⟩], [⟨65536, Polarity.Negative⟩, ⟨1, Polarity.Negative⟩]]
    rw [tseitin_loop_eq_conj
      (by decide : wrap_formula (Formula.Var 2) 65537 [] = ((Literal.positive 2), 65537, []))
      (by decide : wrap_formula (Formula.Negation (Formula.Var 1)) 65537 [] = ((Literal.negative 1), 65537, []))]
    rw [tseitin_loop_eq_nil]
    rfl
  unfold GameView.solve
  rw [(by decide : GameView.active_cells viewQuestioned = [(2, 0)])]
  unfold GameView.solveWith
  rw [if_neg (by decide : ¬(viewQuestioned.result ≠ GameResult.Playing))]
  rw [(by decide : GameView.constraints viewQuestioned [(2, 0)] = some (Formula.Conjunction (Formula.Var 2) (Formula.Negation (Formula.Var 1))))]
  dsimp only
  rw [hencQ]
  dsimp only
  exact hcellsQ0


/-- A 3-by-1 board whose middle cell is opened showing 0; both outer cells
are active. -/
def viewRow3 : GameView :=
  ⟨3, 1, fun x _ => if x = 1 then CellView.Opened 0 else CellView.Unopened,
    GameResult.Playing⟩

/-- Concrete runs of the driver on `viewRow3` under the two iteration
orders of the same examined cell set. -/
theorem solveWith_viewRow3 :
    GameView.solveWith tinysat_is_unsat viewRow3 [(0, 0), (2, 0)] =
        some ⟨[], [(0, 0), (2, 0)]⟩ ∧
      GameView.solveWith tinysat_is_unsat viewRow3 [(2, 0), (0, 0)] =
        some ⟨[], [(2, 0), (0, 0)]⟩ := by
  have hsolr0 : Cnf.solve [[⟨65536, Polarity.Positive⟩], [⟨65536, Polarity.Positive⟩, ⟨65537, Polarity.Negative⟩, ⟨1, Polarity.Positive⟩], [⟨65536, Polarity.Negative⟩, ⟨65537, Polarity.Positive⟩], [⟨65536, Polarity.Negative⟩, ⟨1, Polarity.Negative⟩], [⟨65537, Polarity.Positive⟩, ⟨0, Polarity.Positive⟩, ⟨2, Polarity.Positive⟩], [⟨65537, Polarity.Negative⟩, ⟨0, Polarity.Negative⟩], [⟨65537, Polarity.Negative⟩, ⟨2, Polarity.Negative⟩], [⟨0, Polarity.Positive⟩]] = some Model.Unsatisfiable := by
    unfold Cnf.solve
    rw [(by decide : all_variables [[⟨65536, Polarity.Positive⟩], [⟨65536, Polarity.Positive⟩, ⟨65537, Polarity.Negative⟩, ⟨1, Polarity.Positive⟩], [⟨65536, Polarity.Negative⟩, ⟨65537, Polarity.Positive⟩], [⟨65536, Polarity.Negative⟩, ⟨1, Polarity.Negative⟩], [⟨65537, Polarity.Positive⟩, ⟨0, Polarity.Positive⟩, ⟨2, Polarity.Positive⟩], [⟨65537, Polarity.Negative⟩, ⟨0, Polarity.Negative⟩], [⟨65537, Polarity.Negative⟩, ⟨2, Polarity.Negative⟩], [⟨0, Polarity.Positive⟩]] = [65536, 65537, 1, 0, 2])]
    have hup1 : unit_propagation [[⟨65537, Polarity.Positive⟩], [⟨1, Polarity.Negative⟩], [⟨65537, Polarity.Positive⟩, ⟨0, Polarity.Positive⟩, ⟨2, Polarity.Positive⟩], [⟨65537, Polarity.Negative⟩, ⟨0, Polarity.Negative⟩], [⟨65537, Polarity.Negative⟩, ⟨2, Polarity.Negative⟩], [⟨0, Polarity.Positive⟩]] = UnitPropagationResult.Unsatisfiable := by
      unfold unit_propagation
      rw [up_loop_eq_red (by decide : scanClauses [] [[⟨65537, Polarity.Positive⟩], [⟨1, Polarity.Negative⟩], [⟨65537, Polarity.Positive⟩, ⟨0, Polarity.Positive⟩, ⟨2, Polarity.Positive⟩], [⟨65537, Polarity.Negative⟩, ⟨0, Polarity.Negative⟩], [⟨65537, Polarity.Negative⟩, ⟨2, Polarity.Negative⟩], [⟨0, Polarity.Positive⟩]] = some [(0, Polarity.Positive), (1, Polarity.Negative), (65537, Polarity.Positive)]) (by decide : assign [[⟨65537, Polarity.Positive⟩], [⟨1, Polarity.Negative⟩], [⟨65537, Polarity.Positive⟩, ⟨0, Polarity.Positive⟩, ⟨2, Polarity.Positive⟩], [⟨65537, Polarity.Negative⟩, ⟨0, Polarity.Negative⟩], [⟨65537, Polarity.Negative⟩, ⟨2, Polarity.Negative⟩], [⟨0, Polarity.Positive⟩]] [(0, Polarity.Positive), (1, Polarity.Negative), (65537, Polarity.Positive)] = AssignResult.Reduced [[], [⟨2, Polarity.Negative⟩]])]
      exact up_loop_eq_unsat (by decide : scanClauses [(0, Polarity.Positive), (1, Polarity.Negative), (65537, Polarity.Positive)] [[], [⟨2, Polarity.Negative⟩]] = none)
    rw [solve_rec_eq_upunsat (by decide) (by decide : assign [[⟨65536, Polarity.Positive⟩], [⟨65536, Polarity.Positive⟩, ⟨65537, Polarity.Negative⟩, ⟨1, Polarity.Positive⟩], [⟨65536, Polarity.Negative⟩, ⟨65537, Polarity.Positive⟩], [⟨65536, Polarity.Negative⟩, ⟨1, Polarity.Negative⟩], [⟨65537, Polarity.Positive⟩, ⟨0, Polarity.Positive⟩, ⟨2, Polarity.Positive⟩], [⟨65537, Polarity.Negative⟩, ⟨0, Polarity.Negative⟩], [⟨65537, Polarity.Negative⟩, ⟨2, Polarity.Negative⟩], [⟨0, Polarity.Positive⟩]] [(65536, Polarity.Positive)] = AssignResult.Reduced [[⟨65537, Polarity.Positive⟩], [⟨1, Polarity.Negative⟩], [⟨65537, Polarity.Positive⟩, ⟨0, Polarity.Positive⟩, ⟨2, Polarity.Positive⟩], [⟨65537, Polarity.Negative⟩, ⟨0, Polarity.Negative⟩], [⟨65537, Polarity.Negative⟩, ⟨2, Polarity.Negative⟩], [⟨0, Polarity.Positive⟩]]) hup1]
    have hup2 : unit_propagation [[], [⟨65537, Polarity.Negative⟩, ⟨1, Polarity.Positive⟩], [⟨65537, Polarity.Positive⟩, ⟨0, Polarity.Positive⟩, ⟨2, Polarity.Positive⟩], [⟨65537, Polarity.Negative⟩, ⟨0, Polarity.Negative⟩], [⟨65537, Polarity.Negative⟩, ⟨2, Polarity.Negative⟩], [⟨0, Polarity.Positive⟩]] = UnitPropagationResult.Unsatisfiable := by
      unfold unit_propagation
      exact up_loop_eq_unsat (by decide : scanClauses [] [[], [⟨65537, Polarity.Negative⟩, ⟨1, Polarity.Positive⟩], [⟨65537, Polarity.Positive⟩, ⟨0, Polarity.Positive⟩, ⟨2, Polarity.Positive⟩], [⟨65537, Polarity.Negative⟩, ⟨0, Polarity.Negative⟩], [⟨65537, Polarity.Negative⟩, ⟨2, Polarity.Negative⟩], [⟨0, Polarity.Positive⟩]] = none)
    exact solve_neg_eq_upunsat (by decide : assign [[⟨65536, Polarity.Positive⟩], [⟨65536, Polarity.Positive⟩, ⟨65537, Polarity.Negative⟩, ⟨1, Polarity.Positive⟩], [⟨65536, Polarity.Negative⟩, ⟨65537, Polarity.Positive⟩], [⟨65536, Polarity.Negative⟩, ⟨1, Polarity.Negative⟩], [⟨65537, Polarity.Positive⟩, ⟨0, Polarity.Positive⟩, ⟨2, Polarity.Positive⟩], [⟨65537, Polarity.Negative⟩, ⟨0, Polarity.Negative⟩], [⟨65537, Polarity.Negative⟩, ⟨2, Polarity.Negative⟩], [⟨0, Polarity.Positive⟩]] [(65536, Polarity.Negative)] = AssignResult.Reduced [[], [⟨65537, Polarity.Negative⟩, ⟨1, Polarity.Positive⟩], [⟨65537, Polarity.Positive⟩, ⟨0, Polarity.Positive⟩, ⟨2, Polarity.Positive⟩], [⟨65537, Polarity.Negative⟩, ⟨0, Polarity.Negative⟩], [⟨65537, Polarity.Negative⟩, ⟨2, Polarity.Negative⟩], [⟨0, Polarity.Positive⟩]]) hup2
  have hsolr2 : Cnf.solve [[⟨65536, Polarity.Positive⟩], [⟨65536, Polarity.Positive⟩, ⟨65537, Polarity.Negative⟩, ⟨1, Polarity.Positive⟩], [⟨65536, Polarity.Negative⟩, ⟨65537, Polarity.Positive⟩], [⟨65536, Polarity.Negative⟩, ⟨1, Polarity.Negative⟩], [⟨65537, Polarity.Positive⟩, ⟨0, Polarity.Positive⟩, ⟨2, Polarity.Positive⟩], [⟨65537, Polarity.Negative⟩, ⟨0, Polarity.Negative⟩], [⟨65537, Polarity.Negative⟩, ⟨2, Polarity.Negative⟩], [⟨2, Polarity.Positive⟩]] = some Model.Unsatisfiable := by
    unfold Cnf.solve
    rw [(by decide : all_variables [[⟨65536, Polarity.Positive⟩], [⟨65536, Polarity.Positive⟩, ⟨65537, Polarity.Negative⟩, ⟨1, Polarity.Positive⟩], [⟨65536, Polarity.Negative⟩, ⟨65537, Polarity.Positive⟩], [⟨65536, Polarity.Negative⟩, ⟨1, Polarity.Negative⟩], [⟨65537, Polarity.Positive⟩, ⟨0, Polarity.Positive⟩, ⟨2, Polarity.Positive⟩], [⟨65537, Polarity.Negative⟩, ⟨0, Polarity.Negative⟩], [⟨65537, Polarity.Negative⟩, ⟨2, Polarity.Negative⟩], [⟨2, Polarity.Positive⟩]] = [65536, 65537, 1, 0, 2])]
    have hup1 : unit_propagation [[⟨65537, Polarity.Positive⟩], [⟨1, Polarity.Negative⟩], [⟨65537, Polarity.Positive⟩, ⟨0, Polarity.Positive⟩, ⟨2, Polarity.Positive⟩], [⟨65537, Polarity.Negative⟩, ⟨0, Polarity.Negative⟩], [⟨65537, Polarity.Negative⟩, ⟨2, Polarity.Negative⟩], [⟨2, Polarity.Positive⟩]] = UnitPropagationResult.Unsatisfiable := by
      unfold unit_propagation
      rw [up_loop_eq_red (by decide : scanClauses [] [[⟨65537, Polarity.Positive⟩], [⟨1, Polarity.Negative⟩], [⟨65537, Polarity.Positive⟩, ⟨0, Polarity.Positive⟩, ⟨2, Polarity.Positive⟩], [⟨65537, Polarity.Negative⟩, ⟨0, Polarity.Negative⟩], [⟨65537, Polarity.Negative⟩, ⟨2, Polarity.Negative⟩], [⟨2, Polarity.Positive⟩]] = some [(2, Polarity.Positive), (1, Polarity.Negative), (65537, Polarity.Positive)]) (by decide : assign [[⟨65537, Polarity.Positive⟩], [⟨1, Polarity.Negative⟩], [⟨65537, Polarity.Positive⟩, ⟨0, Polarity.Positive⟩, ⟨2, Polarity.Positive⟩], [⟨65537, Polarity.Negative⟩, ⟨0, Polarity.Negative⟩], [⟨65537, Polarity.Negative⟩, ⟨2, Polarity.Negative⟩], [⟨2, Polarity.Positive⟩]] [(2, Polarity.Positive), (1, Polarity.Negative), (65537, Polarity.Positive)] = AssignResult.Reduced [[⟨0, Polarity.Negative⟩], []])]
      exact up_loop_eq_unsat (by decide : scanClauses [(2, Polarity.Positive), (1, Polarity.Negative), (65537, Polarity.Positive)] [[⟨0, Polarity.Negative⟩], []] = none)
    rw [solve_rec_eq_upunsat (by decide) (by decide : assign [[⟨65536, Polarity.Positive⟩], [⟨65536, Polarity.Positive⟩, ⟨65537, Polarity.Negative⟩, ⟨1, Polarity.Positive⟩], [⟨65536, Polarity.Negative⟩, ⟨65537, Polarity.Positive⟩], [⟨65536, Polarity.Negative⟩, ⟨1, Polarity.Negative⟩], [⟨65537, Polarity.Positive⟩, ⟨0, Polarity.Positive⟩, ⟨2, Polarity.Positive⟩], [⟨65537, Polarity.Negative⟩, ⟨0, Polarity.Negative⟩], [⟨65537, Polarity.Negative⟩, ⟨2, Polarity.Negative⟩], [⟨2, Polarity.Positive⟩]] [(65536, Polarity.Positive)] = AssignResult.Reduced [[⟨65537, Polarity.Positive⟩], [⟨1, Polarity.Negative⟩], [⟨65537, Polarity.Positive⟩, ⟨0, Polarity.Positive⟩, ⟨2, Polarity.Positive⟩], [⟨65537, Polarity.Negative⟩, ⟨0, Polarity.Negative⟩], [⟨65537, Polarity.Negative⟩, ⟨2, Polarity.Negative⟩], [⟨2, Polarity.Positive⟩]]) hup1]
    have hup2 : unit_propagation [[], [⟨65537, Polarity.Negative⟩, ⟨1, Polarity.Positive⟩], [⟨65537, Polarity.Positive⟩, ⟨0, Polarity.Positive⟩, ⟨2, Polarity.Positive⟩], [⟨65537, Polarity.Negative⟩, ⟨0, Polarity.Negative⟩], [⟨65537, Polarity.Negative⟩, ⟨2, Polarity.Negative⟩], [⟨2, Polarity.Positive⟩]] = UnitPropagationResult.Unsatisfiable := by
      unfold unit_propagation
      exact up_loop_eq_unsat (by decide : scanClauses [] [[], [⟨65537, Polarity.Negative⟩, ⟨1, Polarity.Positive⟩], [⟨65537, Polarity.Positive⟩, ⟨0, Polarity.Positive⟩, ⟨2, Polarity.Positive⟩], [⟨65537, Polarity.Negative⟩, ⟨0, Polarity.Negative⟩], [⟨65537, Polarity.Negative⟩, ⟨2, Polarity.Negative⟩], [⟨2, Polarity.Positive⟩]] = none)
    exact solve_neg_eq_upunsat (by decide : assign [[⟨65536, Polarity.Positive⟩], [⟨65536, Polarity.Positive⟩, ⟨65537, Polarity.Negative⟩, ⟨1, Polarity.Positive⟩], [⟨65536, Polarity.Negative⟩, ⟨65537, Polarity.Positive⟩], [⟨65536, Polarity.Negative⟩, ⟨1, Polarity.Negative⟩], [⟨65537, Polarity.Positive⟩, ⟨0, Polarity.Positive⟩, ⟨2, Polarity.Positive⟩], [⟨65537, Polarity.Negative⟩, ⟨0, Polarity.Negative⟩], [⟨65537, Polarity.Negative⟩, ⟨2, Polarity.Negative⟩], [⟨2, Polarity.Positive⟩]] [(65536, Polarity.Negative)] = AssignResult.Reduced [[], [⟨65537, Polarity.Negative⟩, ⟨1, Polarity.Positive⟩], [⟨65537, Polarity.Positive⟩, ⟨0, Polarity.Positive⟩, ⟨2, Polarity.Positive⟩], [⟨65537, Polarity.Negative⟩, ⟨0, Polarity.Negative⟩], [⟨65537, Polarity.Negative⟩, ⟨2, Polarity.Negative⟩], [⟨2, Polarity.Positive⟩]]) hup2
  have htinyr0 : tinysat_is_unsat [[⟨65536, Polarity.Positive⟩], [⟨65536, Polarity.Positive⟩, ⟨65537, Polarity.Negative⟩, ⟨1, Polarity.Positive⟩], [⟨65536, Polarity.Negative⟩, ⟨65537, Polarity.Positive⟩], [⟨65536, Polarity.Negative⟩, ⟨1, Polarity.Negative⟩], [⟨65537, Polarity.Positive⟩, ⟨0, Polarity.Positive⟩, ⟨2, Polarity.Positive⟩], [⟨65537, Polarity.Negative⟩, ⟨0, Polarity.Negative⟩], [⟨65537, Polarity.Negative⟩, ⟨2, Polarity.Negative⟩]] [[⟨0, Polarity.Positive⟩]] = some true := by
    unfold tinysat_is_unsat
    rw [(by decide : ([[⟨65536, Polarity.Positive⟩], [⟨65536, Polarity.Positive⟩, ⟨65537, Polarity.Negative⟩, ⟨1, Polarity.Positive⟩], [⟨65536, Polarity.Negative⟩, ⟨65537, Polarity.Positive⟩], [⟨65536, Polarity.Negative⟩, ⟨1, Polarity.Negative⟩], [⟨65537, Polarity.Positive⟩, ⟨0, Polarity.Positive⟩, ⟨2, Polarity.Positive⟩], [⟨65537, Polarity.Negative⟩, ⟨0, Polarity.Negative⟩], [⟨65537, Polarity.Negative⟩, ⟨2, Polarity.Negative⟩]] : Cnf) ++ [[⟨0, Polarity.Positive⟩]] = [[⟨65536, Polarity.Positive⟩], [⟨65536, Polarity.Positive⟩, ⟨65537, Polarity.Negative⟩, ⟨1, Polarity.Positive⟩], [⟨65536, Polarity.Negative⟩, ⟨65537, Polarity.Positive⟩], [⟨65536, Polarity.Negative⟩, ⟨1, Polarity.Negative⟩], [⟨65537, Polarity.Positive⟩, ⟨0, Polarity.Positive⟩, ⟨2, Polarity.Positive⟩], [⟨65537, Polarity.Negative⟩, ⟨0, Polarity.Negative⟩], [⟨65537, Polarity.Negative⟩, ⟨2, Polarity.Negative⟩], [⟨0, Polarity.Positive⟩]])]
    rw [hsolr0]
    rfl
  have htinyr2 : tinysat_is_unsat [[⟨65536, Polarity.Positive⟩], [⟨65536, Polarity.Positive⟩, ⟨65537, Polarity.Negative⟩, ⟨1, Polarity.Positive⟩], [⟨65536, Polarity.Negative⟩, ⟨65537, Polarity.Positive⟩], [⟨65536, Polarity.Negative⟩, ⟨1, Polarity.Negative⟩], [⟨65537, Polarity.Positive⟩, ⟨0, Polarity.Positive⟩, ⟨2, Polarity.Positive⟩], [⟨65537, Polarity.Negative⟩, ⟨0, Polarity.Negative⟩], [⟨65537, Polarity.Negative⟩, ⟨2, Polarity.Negative⟩]] [[⟨2, Polarity.Positive⟩]] = some true := by
    unfold tinysat_is_unsat
    rw [(by decide : ([[⟨65536, Polarity.Positive⟩], [⟨65536, Polarity.Positive⟩, ⟨65537, Polarity.Negative⟩, ⟨1, Polarity.Positive⟩], [⟨65536, Polarity.Negative⟩, ⟨65537, Polarity.Positive⟩], [⟨65536, Polarity.Negative⟩, ⟨1, Polarity.Negative⟩], [⟨65537, Polarity.Positive⟩, ⟨0, Polarity.Positive⟩, ⟨2, Polarity.Positive⟩], [⟨65537, Polarity.Negative⟩, ⟨0, Polarity.Negative⟩], [⟨65537, Polarity.Negative⟩, ⟨2, Polarity.Negative⟩]] : Cnf) ++ [[⟨2, Polarity.Positive⟩]] = [[⟨65536, Polarity.Positive⟩], [⟨65536, Polarity.Positive⟩, ⟨65537, Polarity.Negative⟩, ⟨1, Polarity.Positive⟩], [⟨65536, Polarity.Negative⟩, ⟨65537, Polarity.Positive⟩], [⟨65536, Polarity.Negative⟩, ⟨1, Polarity.Negative⟩], [⟨65537, Polarity.Positive⟩, ⟨0, Polarity.Positive⟩, ⟨2, Polarity.Positive⟩], [⟨65537, Polarity.Negative⟩, ⟨0, Polarity.Negative⟩], [⟨65537, Polarity.Negative⟩, ⟨2, Polarity.Negative⟩], [⟨2, Polarity.Positive⟩]])]
    rw [hsolr2]
    rfl
  have hchkR0 : check_cell tinysat_is_unsat viewRow3 [[⟨65536, Polarity.Positive⟩], [⟨65536, Polarity.Positive⟩, ⟨65537, Polarity.Negative⟩, ⟨1, Polarity.Positive⟩], [⟨65536, Polarity.Negative⟩, ⟨65537, Polarity.Positive⟩], [⟨65536, Polarity.Negative⟩, ⟨1, Polarity.Negative⟩], [⟨65537, Polarity.Positive⟩, ⟨0, Polarity.Positive⟩, ⟨2, Polarity.Positive⟩], [⟨65537, Polarity.Negative⟩, ⟨0, Polarity.Negative⟩], [⟨65537, Polarity.Negative⟩, ⟨2, Polarity.Negative⟩]] 0 0 = some ⟨[], [(0, 0)]⟩ := by
    unfold check_cell
    rw [(by decide : GameView.mine_var viewRow3 0 0 = 0)]
    rw [cnfOfVar]
    dsimp only
    rw [htinyr0]
  have hchkR2 : check_cell tinysat_is_unsat viewRow3 [[⟨65536, Polarity.Positive⟩], [⟨65536, Polarity.Positive⟩, ⟨65537, Polarity.Negative⟩, ⟨1, Polarity.Positive⟩], [⟨65536, Polarity.Negative⟩, ⟨65537, Polarity.Positive⟩], [⟨65536, Polarity.Negative⟩, ⟨1, Polarity.Negative⟩], [⟨65537, Polarity.Positive⟩, ⟨0, Polarity.Positive⟩, ⟨2, Polarity.Positive⟩], [⟨65537, Polarity.Negative⟩, ⟨0, Polarity.Negative⟩], [⟨65537, Polarity.Negative⟩, ⟨2, Polarity.Negative⟩]] 2 0 = some ⟨[], [(2, 0)]⟩ := by
    unfold check_cell
    rw [(by decide : GameView.mine_var viewRow3 2 0 = 2)]
    rw [cnfOfVar]
    dsimp only
    rw [htinyr2]
  have hcellsRA1 : checkCells tinysat_is_unsat viewRow3 [[⟨65536, Polarity.Positive⟩], [⟨65536, Polarity.Positive⟩, ⟨65537, Polarity.Negative⟩, ⟨1, Polarity.Positive⟩], [⟨65536, Polarity.Negative⟩, ⟨65537, Polarity.Positive⟩], [⟨65536, Polarity.Negative⟩, ⟨1, Polarity.Negative⟩], [⟨65537, Polarity.Positive⟩, ⟨0, Polarity.Positive⟩, ⟨2, Polarity.Positive⟩], [⟨65537, Polarity.Negative⟩, ⟨0, Polarity.Negative⟩], [⟨65537, Polarity.Negative⟩, ⟨2, Polarity.Negative⟩]] [(2, 0)] = some ⟨[], [(2, 0)]⟩ := by
    unfold checkCells
    rw [hchkR2]
    rfl
  have hcellsRA0 : checkCells tinysat_is_unsat viewRow3 [[⟨65536, Polarity.Positive⟩], [⟨65536, Polarity.Positive⟩, ⟨65537, Polarity.Negative⟩, ⟨1, Polarity.Positive⟩], [⟨65536, Polarity.Negative⟩, ⟨65537, Polarity.Positive⟩], [⟨65536, Polarity.Negative⟩, ⟨1, Polarity.Negative⟩], [⟨65537, Polarity.Positive⟩, ⟨0, Polarity.Positive⟩, ⟨2, Polarity.Positive⟩], [⟨65537, Polarity.Negative⟩, ⟨0, Polarity.Negative⟩], [⟨65537, Polarity.Negative⟩, ⟨2, Polarity.Negative⟩]] [(0, 0), (2, 0)] = some ⟨[], [(0, 0), (2, 0)]⟩ := by
    unfold checkCells
    rw [hchkR0]
    rw [hcellsRA1]
    rfl
  have hcellsRB1 : checkCells tinysat_is_unsat viewRow3 [[⟨65536, Polarity.Positive⟩], [⟨65536, Polarity.Positive⟩, ⟨65537, Polarity.Negative⟩, ⟨1, Polarity.Positive⟩], [⟨65536, Polarity.Negative⟩, ⟨65537, Polarity.Positive⟩], [⟨65536, Polarity.Negative⟩, ⟨1, Polarity.Negative⟩], [⟨65537, Polarity.Positive⟩, ⟨0, Polarity.Positive⟩, ⟨2, Polarity.Positive⟩], [⟨65537, Polarity.Negative⟩, ⟨0, Polarity.Negative⟩], [⟨65537, Polarity.Negative⟩, ⟨2, Polarity.Negative⟩]] [(0, 0)] = some ⟨[], [(0, 0)]⟩ := by
    unfold checkCells
    rw [hchkR0]
    rfl
  have hcellsRB0 : checkCells tinysat_is_unsat viewRow3 [[⟨65536, Polarity.Positive⟩], [⟨65536, Polarity.Positive⟩, ⟨65537, Polarity.Negative⟩, ⟨1, Polarity.Positive⟩], [⟨65536, Polarity.Negative⟩, ⟨65537, Polarity.Positive⟩], [⟨65536, Polarity.Negative⟩, ⟨1, Polarity.Negative⟩], [⟨65537, Polarity.Positive⟩, ⟨0, Polarity.Positive⟩, ⟨2, Polarity.Positive⟩], [⟨65537, Polarity.Negative⟩, ⟨0, Polarity.Negative⟩], [⟨65537, Polarity.Negative⟩, ⟨2, Polarity.Negative⟩]] [(2, 0), (0, 0)] = some ⟨[], [(2, 0), (0, 0)]⟩ := by
    unfold checkCells
    rw [hchkR2]
    rw [hcellsRB1]
    rfl
  have hencR : Formula.tseitin_encode (Formula.Conjunction (Formula.Conjunction (Formula.Negation (Formula.Var 0)) (Formula.Negation (Formula.Var 2))) (Formula.Negation (Formula.Var 1))) 65536 = some [[⟨65536, Polarity.Positive⟩], [⟨65536, Polarity.Positive⟩, ⟨65537, Polarity.Negative⟩, ⟨1, Polarity.Positive⟩], [⟨65536, Polarity.Negative⟩, ⟨65537, Polarity.Positive⟩], [⟨65536, Polarity.Negative⟩, ⟨1, Polarity.Negative⟩], [⟨65537, Polarity.Positive⟩, ⟨0, Polarity.Positive⟩, ⟨2, Polarity.Positive⟩], [⟨65537, Polarity.Negative⟩, ⟨0, Polarity.Negative⟩], [⟨65537, Polarity.Negative⟩, ⟨2, Polarity.Negative⟩]] := by
    show tseitin_loop [((Literal.positive 65536), (Formula.Conjunction (Formula.Conjunction (Formula.Negation (Formula.Var 0)) (Formula.Negation (Formula.Var 2))) (Formula.Negation (Formula.Var 1))))] 65537 [[(Literal.positive 65536)]] = some [[⟨65536, Polarity.Positive⟩], [⟨65536, Polarity.Positive⟩, ⟨65537, Polarity.Negative⟩, ⟨1, Polarity.Positive⟩], [⟨65536, Polarity.Negative⟩, ⟨65537, Polarity.Positive⟩], [⟨65536, Polarity.Negative⟩, ⟨1, Polarity.Negative⟩], [⟨65537, Polarity.Positive⟩, ⟨0, Polarity.Positive⟩, ⟨2, Polarity.Positive⟩], [⟨65537, Polarity.Negative⟩, ⟨0, Polarity.Negative⟩], [⟨65537, Polarity.Negative⟩, ⟨2, Polarity.Negative⟩]]
    rw [tseitin_loop_eq_conj
      (by decide : wrap_formula (Formula.Conjunction (Formula.Negation (Formula.Var 0)) (Formula.Negation (Formula.Var 2))) 65537 [] = ((Literal.positive 65537), 65538, [((Literal.positive 65537), (Formula.Conjunction (Formula.Negation (Formula.Var 0)) (Formula.Negation (Formula.Var 2))))]))
      (by decide : wrap_formula (Formula.Negation (Formula.Var 1)) 65538 [((Literal.positive 65537), (Formula.Conjunction (Formula.Negation (Formula.Var 0)) (Formula.Negation (Formula.Var 2))))] = ((Literal.negative 1), 65538, [((Literal.positive 65537), (Formula.Conjunction (Formula.Negation (Formula.Var 0)) (Formula.Negation (Formula.Var 2))))]))]
    rw [tseitin_loop_eq_conj
      (by decide : wrap_formula (Formula.Negation (Formula.Var 0)) 65538 [] = ((Literal.negative 0), 65538, []))
      (by decide : wrap_formula (Formula.Negation (Formula.Var 2)) 65538 [] = ((Literal.negative 2), 65538, []))]
    rw [tseitin_loop_eq_nil]
    rfl
  constructor
  · unfold GameView.solveWith
    rw [if_neg (by decide : ¬(viewRow3.result ≠ GameResult.Playing))]
    rw [(by decide : GameView.constraints viewRow3 [(0, 0), (2, 0)] = some (Formula.Conjunction (Formula.Conjunction (Formula.Negation (Formula.Var 0)) (Formula.Negation (Formula.Var 2))) (Formula.Negation (Formula.Var 1))))]
    dsimp only
    rw [hencR]
    dsimp only
    exact hcellsRA0
  · unfold GameView.solveWith
    rw [if_neg (by decide : ¬(viewRow3.result ≠ GameResult.Playing))]
    rw [(by decide : GameView.constraints viewRow3 [(2, 0), (0, 0)] = some (Formula.Conjunction (Formula.Conjunction (Formula.Negation (Formula.Var 0)) (Formula.Negation (Formula.Var 2))) (Formula.Negation (Formula.Var 1))))]
    dsimp only
    rw [hencR]
    dsimp only
    exact hcellsRB0

/-- A 2-by-2 board with one opened corner, a concrete fixture for the
variable-bound witness. -/
def viewSquare : GameView :=
  ⟨2, 2, fun x y => if x = 0 ∧ y = 0 then CellView.Opened 0
    else CellView.Unopened, GameResult.Playing⟩

/-! # Claim-level theorems -/

/-- The variables occurring in a formula, in tree order. -/
def Formula.vars : Formula → List Variable
  | .Var v => [v]
  | .Negation f => f.vars
  | .Conjunction f0 f1 => f0.vars ++ f1.vars
  | .Disjunction f0 f1 => f0.vars ++ f1.vars
  | .Equivalence f0 f1 => f0.vars ++ f1.vars
  | .Implication f0 f1 => f0.vars ++ f1.vars

/-- C1 (amended): driver soundness for the tinysat backend.  On a board
whose cell-variable range stays below the Tseitin base, any layout that is
consistent with the revealed and flagged cells and mine-free on the cells
the encoding silently assumes safe (`Questioned`, `Mine`, `WrongMine`,
`Exploded` views) agrees with every verdict `solve` reports: reported
must-be-mine cells carry a mine, reported must-not-mine cells do not. -/
theorem driver_solve_sound (v : GameView) (L : Nat → Nat → Bool) (r : SolveResult)
    (hsize : v.width * v.height ≤ 0x10000)
    (hcons : layoutConsistent v L = true)
    (hass : solverAssumed v L = true)
    (hr : GameView.solve tinysat_is_unsat v = some r) :
    (∀ p ∈ r.must_be_mine, L p.1 p.2 = true) ∧
    (∀ p ∈ r.must_not_mine, L p.1 p.2 = false) := by
  unfold GameView.solve at hr
  exact solveWith_sound v L v.active_cells r hsize
    (fun c hc => active_cells_bounds hc) hcons hass hr

/-- Witness for C1's amended soundness at the concrete `viewOpenPair` and
the mine-free layout. -/
theorem driver_solve_sound_witness :
    viewOpenPair.width * viewOpenPair.height ≤ 0x10000 ∧
    layoutConsistent viewOpenPair (fun _ _ => false) = true ∧
    solverAssumed viewOpenPair (fun _ _ => false) = true ∧
    GameView.solve tinysat_is_unsat viewOpenPair = some ⟨[], [(1, 0)]⟩ ∧
    ((∀ p ∈ (⟨[], [(1, 0)]⟩ : SolveResult).must_be_mine,
        (fun _ _ => false : Nat → Nat → Bool) p.1 p.2 = true) ∧
      (∀ p ∈ (⟨[], [(1, 0)]⟩ : SolveResult).must_not_mine,
        (fun _ _ => false : Nat → Nat → Bool) p.1 p.2 = false)) :=
  ⟨by decide, by decide, by decide, solve_viewOpenPair,
    driver_solve_sound viewOpenPair (fun _ _ => false) ⟨[], [(1, 0)]⟩
      (by decide) (by decide) (by decide) solve_viewOpenPair⟩

/-- C1 counterexample: on `viewQuestioned` the driver reports cell (2, 0)
as a sure mine, yet the layout whose only mine sits under the Questioned
cell (0, 0) is consistent with every revealed and flagged cell of the view
and has no mine at (2, 0).  The original soundness claim fails because the
encoding silently assumes Questioned cells are mine-free. -/
theorem driver_unsound_questioned :
    layoutConsistent viewQuestioned (fun x y => decide (x = 0 ∧ y = 0)) = true ∧
    GameView.solve tinysat_is_unsat viewQuestioned = some ⟨[(2, 0)], []⟩ ∧
    (fun x y => decide (x = 0 ∧ y = 0) : Nat → Nat → Bool) 2 0 = false :=
  ⟨by decide, solve_viewQuestioned, by decide⟩

/-- C3: on a Playing board whose active set is empty, `solve` panics (the
`reduce(..).unwrap()` inside `constraints` unwraps `None`) instead of
returning the empty SolveResult the spec promises. -/
theorem solve_empty_active_panics (b : Cnf → Cnf → Option Bool) (v : GameView)
    (hres : v.result = GameResult.Playing) (hact : v.active_cells = []) :
    GameView.solve b v = none := by
  unfold GameView.solve GameView.solveWith
  rw [hact, hres]
  rw [if_neg (by simp)]
  rfl

/-- Witness for C3 at a concrete all-intact 2-by-1 Playing board. -/
theorem solve_empty_active_panics_witness :
    (⟨2, 1, fun _ _ => CellView.Unopened, GameResult.Playing⟩ : GameView).result =
        GameResult.Playing ∧
    GameView.active_cells ⟨2, 1, fun _ _ => CellView.Unopened, GameResult.Playing⟩ = [] ∧
    GameView.solve tinysat_is_unsat
        ⟨2, 1, fun _ _ => CellView.Unopened, GameResult.Playing⟩ = none :=
  ⟨rfl, by decide, solve_empty_active_panics _ _ rfl (by decide)⟩

/-- C4: the CNF whose only clause is empty is unsatisfiable, yet the kernel
panics on it (indexing into the empty variable pool) instead of returning
`Unsatisfiable`. -/
theorem solve_empty_clause_panics :
    (∀ sg : Nat → Bool, cnfHolds sg [[]] = false) ∧ Cnf.solve [[]] = none :=
  ⟨fun sg => rfl, by
    unfold Cnf.solve
    rw [(by decide : all_variables [[]] = [])]
    exact solve_rec_eq_novars (by decide)⟩

/-- C5: the `unreachable!()` arm of `solve_rec` (an `assign` on the chosen
variable that changes nothing) is reachable: on the satisfiable CNF
(1 ∨ 2) ∧ (3 ∨ 4) the variable pool retains the already-eliminated
variable 2, whose assignment leaves the remaining CNF untouched, so the
kernel panics instead of returning a model. -/
theorem solve_unchanged_reachable :
    Cnf.solve [[⟨1, Polarity.Positive⟩, ⟨2, Polarity.Positive⟩],
        [⟨3, Polarity.Positive⟩, ⟨4, Polarity.Positive⟩]] = none ∧
    cnfHolds (fun _ => true)
        [[⟨1, Polarity.Positive⟩, ⟨2, Polarity.Positive⟩],
          [⟨3, Polarity.Positive⟩, ⟨4, Polarity.Positive⟩]] = true := by
  constructor
  ·
    unfold Cnf.solve
    rw [(by decide : all_variables [[⟨1, Polarity.Positive⟩, ⟨2, Polarity.Positive⟩], [⟨3, Polarity.Positive⟩, ⟨4, Polarity.Positive⟩]] = [1, 2, 3, 4])]
    have hup1 : unit_propagation [[⟨3, Polarity.Positive⟩, ⟨4, Polarity.Positive⟩]] = UnitPropagationResult.Continue [[⟨3, Polarity.Positive⟩, ⟨4, Polarity.Positive⟩]] [] := by
      unfold unit_propagation
      exact up_loop_eq_unch (by decide : scanClauses [] [[⟨3, Polarity.Positive⟩, ⟨4, Polarity.Positive⟩]] = some []) (by decide : assign [[⟨3, Polarity.Positive⟩, ⟨4, Polarity.Positive⟩]] [] = AssignResult.Unchanged [[⟨3, Polarity.Positive⟩, ⟨4, Polarity.Positive⟩]])
    rw [solve_rec_eq_cont (by decide) (by decide : assign [[⟨1, Polarity.Positive⟩, ⟨2, Polarity.Positive⟩], [⟨3, Polarity.Positive⟩, ⟨4, Polarity.Positive⟩]] [(1, Polarity.Positive)] = AssignResult.Reduced [[⟨3, Polarity.Positive⟩, ⟨4, Polarity.Positive⟩]]) hup1]
    rw [(by decide : List.foldl (fun (vs : List Variable) (kv : Variable × Polarity) => vs.erase kv.1) ([2, 3, 4] : List Variable) ([] : Assignment) = [2, 3, 4])]
    have hrec2 : solve_rec [[⟨3, Polarity.Positive⟩, ⟨4, Polarity.Positive⟩]] [2, 3, 4] = none := by
      exact solve_rec_eq_unch (by decide) (by decide : assign [[⟨3, Polarity.Positive⟩, ⟨4, Polarity.Positive⟩]] [(2, Polarity.Positive)] = AssignResult.Unchanged [[⟨3, Polarity.Positive⟩, ⟨4, Polarity.Positive⟩]])
    rw [hrec2]
  · decide

/-- C6 counterexample: `GameOptions::build` accepts a 65537-by-1 custom
board, and on it the constraint formula of the opened cell (65535, 0) uses
the cell variable 65536 of its right neighbour — exactly the Tseitin base
0x10000, so auxiliary variables collide with cell variables. -/
theorem tseitin_base_collision :
    build_accepts 65537 1 1 = true ∧
    GameView.constraint_cell
        ⟨65537, 1, fun x y => if x = 65535 ∧ y = 0 then CellView.Opened 1
          else CellView.Unopened, GameResult.Playing⟩ 65535 0 =
      some (some (Formula.Conjunction
        (Formula.Disjunction
          (Formula.Conjunction (Formula.Var 65534) (Formula.Negation (Formula.Var 65536)))
          (Formula.Conjunction (Formula.Negation (Formula.Var 65534)) (Formula.Var 65536)))
        (Formula.Negation (Formula.Var 65535)))) ∧
    65536 ∈ (Formula.Conjunction
        (Formula.Disjunction
          (Formula.Conjunction (Formula.Var 65534) (Formula.Negation (Formula.Var 65536)))
          (Formula.Conjunction (Formula.Negation (Formula.Var 65534)) (Formula.Var 65536)))
        (Formula.Negation (Formula.Var 65535))).vars ∧
    ¬(65536 < 0x10000) :=
  ⟨by decide, by decide, by decide, by decide⟩

/-- C6 (amended): on every view whose cell-variable range `width * height`
stays below the Tseitin base 0x10000, each variable of the constraints
formula lies strictly below the base, so auxiliary variables cannot
collide with cell variables. -/
theorem constraints_vars_below_base {v : GameView} {ord : List (Nat × Nat)}
    {f : Formula} (hsize : v.width * v.height ≤ 0x10000)
    (hf : v.constraints ord = some f) : f.varsBelow 0x10000 = true :=
  varsBelow_mono hsize (constraints_varsBelow hf)

/-- Witness for C6's amended bound on a concrete 2-by-2 board. -/
theorem constraints_vars_below_base_witness :
    viewSquare.width * viewSquare.height ≤ 0x10000 ∧
    GameView.constraints viewSquare [(1, 0)] =
      some (Formula.Conjunction
        (Formula.Conjunction
          (Formula.Conjunction (Formula.Negation (Formula.Var 1))
            (Formula.Negation (Formula.Var 2)))
          (Formula.Negation (Formula.Var 3)))
        (Formula.Negation (Formula.Var 0))) ∧
    (Formula.Conjunction
        (Formula.Conjunction
          (Formula.Conjunction (Formula.Negation (Formula.Var 1))
            (Formula.Negation (Formula.Var 2)))
          (Formula.Negation (Formula.Var 3)))
        (Formula.Negation (Formula.Var 0))).varsBelow 0x10000 = true :=
  ⟨by decide, by decide,
    constraints_vars_below_base
      (by decide : viewSquare.width * viewSquare.height ≤ 0x10000)
      (by decide : GameView.constraints viewSquare [(1, 0)] =
        some (Formula.Conjunction
          (Formula.Conjunction
            (Formula.Conjunction (Formula.Negation (Formula.Var 1))
              (Formula.Negation (Formula.Var 2)))
            (Formula.Negation (Formula.Var 3)))
          (Formula.Negation (Formula.Var 0))))⟩

/-- C7: on every successful `solve` with any backend, must_be_mine and
must_not_mine share no coordinate and both only name cells of the examined
active set. -/
theorem solve_disjoint_subset (b : Cnf → Cnf → Option Bool) (v : GameView)
    (r : SolveResult) (hr : GameView.solve b v = some r) :
    (∀ p ∈ r.must_be_mine, p ∉ r.must_not_mine) ∧
    (∀ p ∈ r.must_be_mine, p ∈ v.active_cells) ∧
    (∀ p ∈ r.must_not_mine, p ∈ v.active_cells) := by
  unfold GameView.solve GameView.solveWith at hr
  by_cases hres : v.result ≠ GameResult.Playing
  · rw [if_pos hres] at hr
    injection hr with hr
    subst hr
    refine ⟨?_, ?_, ?_⟩ <;> intro p hp <;> simp at hp
  · rw [if_neg hres] at hr
    cases hcstr : v.constraints v.active_cells with
    | none => rw [hcstr] at hr; cases hr
    | some f =>
      rw [hcstr] at hr
      dsimp only at hr
      cases henc : f.tseitin_encode 0x10000 with
      | none => rw [henc] at hr; cases hr
      | some C =>
        rw [henc] at hr
        have hnd : (v.active_cells).Nodup := by
          unfold GameView.active_cells
          exact dedupFirst_nodup
        exact ⟨checkCells_disjoint hr hnd,
          fun p hp => (checkCells_mbm hr p hp).1,
          fun p hp => (checkCells_mnm hr p hp).1⟩

/-- Witness for C7 on the concrete `viewOpenPair` run. -/
theorem solve_disjoint_subset_witness :
    GameView.solve tinysat_is_unsat viewOpenPair = some ⟨[], [(1, 0)]⟩ ∧
    ((∀ p ∈ (⟨[], [(1, 0)]⟩ : SolveResult).must_be_mine,
        p ∉ (⟨[], [(1, 0)]⟩ : SolveResult).must_not_mine) ∧
      (∀ p ∈ (⟨[], [(1, 0)]⟩ : SolveResult).must_be_mine,
        p ∈ viewOpenPair.active_cells) ∧
      (∀ p ∈ (⟨[], [(1, 0)]⟩ : SolveResult).must_not_mine,
        p ∈ viewOpenPair.active_cells)) :=
  ⟨solve_viewOpenPair,
    solve_disjoint_subset tinysat_is_unsat viewOpenPair ⟨[], [(1, 0)]⟩
      solve_viewOpenPair⟩

/-- C8 counterexample: the same Playing view and the same backend, under
two iteration orders of the same examined hash set (both orders Rust may
produce), return SolveResults that differ in list order. -/
theorem solve_order_dependent :
    ([(0, 0), (2, 0)] : List (Nat × Nat)).Perm [(2, 0), (0, 0)] ∧
    GameView.solveWith tinysat_is_unsat viewRow3 [(0, 0), (2, 0)] =
      some ⟨[], [(0, 0), (2, 0)]⟩ ∧
    GameView.solveWith tinysat_is_unsat viewRow3 [(2, 0), (0, 0)] =
      some ⟨[], [(2, 0), (0, 0)]⟩ ∧
    (⟨[], [(0, 0), (2, 0)]⟩ : SolveResult) ≠ ⟨[], [(2, 0), (0, 0)]⟩ :=
  ⟨by decide, solveWith_viewRow3.1, solveWith_viewRow3.2, by decide⟩

/-- Witness for C8's amended order-invariance, with a trivial permutation
and a backend that always answers `true`. -/
theorem checkCells_perm_witness :
    ([(0, 0)] : List (Nat × Nat)).Perm [(0, 0)] ∧
    checkCells (fun _ _ => some true) viewRow3 [] [(0, 0)] =
      some ⟨[], [(0, 0)]⟩ ∧
    ∃ r2, checkCells (fun _ _ => some true) viewRow3 [] [(0, 0)] = some r2 ∧
      (⟨[], [(0, 0)]⟩ : SolveResult).must_be_mine.Perm r2.must_be_mine ∧
      (⟨[], [(0, 0)]⟩ : SolveResult).must_not_mine.Perm r2.must_not_mine :=
  ⟨by decide, by decide,
    checkCells_perm (by decide)
      (by decide : checkCells (fun _ _ => some true) viewRow3 [] [(0, 0)] =
        some ⟨[], [(0, 0)]⟩)⟩

/-- C9 counterexample: `normalize` drops the empty clause, so the
reconstruction of `[[]]` is the empty CNF — satisfiable, while the
original is not. -/
theorem normalize_drops_empty_clause :
    Cnf.normalize [[]] = ([0], []) ∧
    reconstruct (Cnf.normalize [[]]).1 (Cnf.normalize [[]]).2 = [] ∧
    cnfHolds (fun _ => true) [] = true ∧
    cnfHolds (fun _ => true) [[]] = false :=
  ⟨by decide, by decide, rfl, rfl⟩

/-- Witness for C9's amended round trip on a CNF without empty clauses. -/
theorem normalize_reconstruct_witness :
    (∀ c ∈ ([[⟨5, Polarity.Positive⟩],
        [⟨5, Polarity.Negative⟩, ⟨7, Polarity.Positive⟩]] : Cnf), c ≠ []) ∧
    reconstruct
        (Cnf.normalize [[⟨5, Polarity.Positive⟩],
          [⟨5, Polarity.Negative⟩, ⟨7, Polarity.Positive⟩]]).1
        (Cnf.normalize [[⟨5, Polarity.Positive⟩],
          [⟨5, Polarity.Negative⟩, ⟨7, Polarity.Positive⟩]]).2 =
      [[⟨5, Polarity.Positive⟩], [⟨5, Polarity.Negative⟩, ⟨7, Polarity.Positive⟩]] :=
  ⟨by decide, normalize_reconstruct (by decide)⟩

/-- Witness for C2 at a concrete two-variable conjunction. -/
theorem tseitin_encode_equisat_witness :
    (Formula.Conjunction (Formula.Var 0)
        (Formula.Negation (Formula.Var 1))).maximum_variable < 2 ∧
    ∃ C, (Formula.Conjunction (Formula.Var 0)
        (Formula.Negation (Formula.Var 1))).tseitin_encode 2 = some C ∧
      ((Formula.Conjunction (Formula.Var 0)
          (Formula.Negation (Formula.Var 1))).satisfiable ↔ cnfSatisfiable C) :=
  ⟨by decide,
    tseitin_encode_equisat
      (Formula.Conjunction (Formula.Var 0) (Formula.Negation (Formula.Var 1))) 2
      (by decide)⟩

/-- Witness for C10 on a one-clause CNF: the returned assignment satisfies
the clause. -/
theorem solve_Satisfied_sound_witness :
    Cnf.solve [[⟨1, Polarity.Positive⟩]] =
        some (Model.Satisfied [(1, Polarity.Positive)]) ∧
    ∀ c ∈ ([[⟨1, Polarity.Positive⟩]] : Cnf), ∃ l ∈ c,
      List.lookup l.var [(1, Polarity.Positive)] = some l.polarity := by
  have h : Cnf.solve [[⟨1, Polarity.Positive⟩]] =
      some (Model.Satisfied [(1, Polarity.Positive)]) := by
    unfold Cnf.solve
    rw [(by decide : all_variables [[⟨1, Polarity.Positive⟩]] = [1])]
    have hup1 : unit_propagation [] = UnitPropagationResult.Continue [] [] := by
      unfold unit_propagation
      exact up_loop_eq_unch (by decide : scanClauses [] [] = some []) (by decide : assign [] [] = AssignResult.Unchanged [])
    rw [solve_rec_eq_cont (by decide) (by decide : assign [[⟨1, Polarity.Positive⟩]] [(1, Polarity.Positive)] = AssignResult.Reduced []) hup1]
    rw [(by decide : List.foldl (fun (vs : List Variable) (kv : Variable × Polarity) => vs.erase kv.1) ([] : List Variable) ([] : Assignment) = [])]
    have hrec2 : solve_rec [] [] = some (Model.Satisfied []) := by
      exact solve_rec_eq_nil []
    rw [hrec2]
    rfl
  exact ⟨h, solve_Satisfied_sound h⟩
